import Mathlib

/-! SHA-crypt password hashing of `contrib/pgcrypto/crypt-sha.c`.

A shallow embedding of `px_crypt_shacrypt` and of the checks it makes on the
salt string, followed by theorems about that embedding.

Conventions of the embedding.

* A C string is the list of its bytes before the terminating NUL, a byte is a
  natural number; `str` turns a literal into that list.  A `NULL` pointer is
  `none`.
* `elog(ERROR, ...)` does not return: it is `Except.error` with one
  constructor of `PxError` per message.
* The message digest implementation (`px_find_digest`, `px_md_*`) is outside
  the file; it is a parameter: a lookup from the algorithm name to the function
  that maps the bytes added since the last reset to the digest.
* `strtoul`, `strlcat`, `strncmp`, `snprintf("%u")`, `memcpy` are the C
  library functions, written out on lists.
* Machine integers are natural numbers: the `unsigned` length of the password
  is taken modulo `2 ^ 32`, `unsigned long` has 64 bits, the bytes that
  `px_md_finish` stores are taken modulo 256.
* A `while` or `for` loop whose counter does not simply count down is
  `while_loop` with a bound on its iterations; the theorems show that the loop
  condition, not the bound, ends the loops they are about.
* The constants of `px-crypt.h`, which is not among the source files, have the
  values the specification gives.
-/

namespace ShaCrypt

/-! ## Bytes, strings and the C library -/

/-- The bytes of a string literal. -/
def str (s : String) : List Nat := s.toList.map Char.toNat

/-- The byte of `ascii_dollar[0]`, 0x24. -/
def ascii_dollar : Nat := 0x24

/-- A loop `while (cond) body`, run for at most `fuel` iterations; every use
below passes a bound on the number of iterations the C loop can make. -/
def while_loop {σ : Type} (cond : σ → Bool) (body : σ → σ) : Nat → σ → σ
  | 0, s => s
  | fuel + 1, s => if cond s then while_loop cond body fuel (body s) else s

/-- C `strncmp(a, b, n)`, as far as the code looks at it: 0 when the first `n`
bytes agree (or both strings end before that, equal), non-zero otherwise. -/
def strncmp (a b : List Nat) (n : Nat) : Int :=
  if a.take n = b.take n then 0 else 1

/-- C `strlcat(dst, src, siz)` on the contents of `dst`: appends as much of
`src` as fits in a buffer of `siz` bytes together with the terminating NUL. -/
def strlcat (dst src : List Nat) (siz : Nat) : List Nat :=
  dst ++ src.take (siz - dst.length - 1)

/-- C `isspace` in the "C" locale. -/
def isspace (c : Nat) : Bool := c == 32 || (9 ≤ c && c ≤ 13)

/-- C `isdigit`. -/
def isdigit (c : Nat) : Bool := 48 ≤ c && c ≤ 57

/-- The largest `unsigned long` (64 bits). -/
def ULONG_MAX : Nat := 2 ^ 64 - 1

/-- The digit loop of `strtoul`: the exact value of the leading decimal digits
continuing `acc`, and the text after them. -/
def strtoul_digits : List Nat → Nat → Nat × List Nat
  | [], acc => (acc, [])
  | c :: cs, acc =>
    if isdigit c then strtoul_digits cs (acc * 10 + (c - 48)) else (acc, c :: cs)

/-- C `strtoul(nptr, &endp, 10)`: skips white space, takes an optional sign,
then decimal digits.  Returns the value and the text `endp` points to.  Without
a digit the value is 0 and `endp = nptr`; a value that does not fit gives
`ULONG_MAX`; a minus sign negates in `unsigned long`. -/
def strtoul (nptr : List Nat) : Nat × List Nat :=
  let s := nptr.dropWhile isspace
  let neg := s.head? == some 45
  let s1 := if s.head? == some 45 || s.head? == some 43 then s.tail else s
  match s1.head? with
  | none => (0, nptr)
  | some c =>
    if isdigit c then
      let r := strtoul_digits s1 0
      if r.1 > ULONG_MAX then (ULONG_MAX, r.2)
      else if neg then ((2 ^ 64 - r.1) % 2 ^ 64, r.2)
      else (r.1, r.2)
    else (0, nptr)

/-- The static `rounds_prefix`. -/
def rounds_prefix : List Nat := str "rounds="

/-- The decimal digits that `printf("%u")` writes for `n`. -/
def utoa (n : Nat) : List Nat := (Nat.toDigits 10 n).map Char.toNat

/-- C `snprintf(buf, siz, "rounds=%u", rounds)` on the contents of `buf`. -/
def snprintf_rounds (siz rounds : Nat) : List Nat :=
  ( rounds_prefix ++ utoa rounds).take (siz - 1)

/-- C `memcpy(dst + off, src, n)` on a buffer held as a list. -/
def memcpy (dst : List Nat) (off : Nat) (src : List Nat) (n : Nat) : List Nat :=
  dst.take off ++ src.take n ++ dst.drop (off + n)

/-- The allocator `palloc0(n)`: `n` zero bytes. -/
def palloc0 (n : Nat) : List Nat := List.replicate n 0

/-! ## Constants of `px-crypt.h` -/

/-- Modelled from the spec: `PX_SHACRYPT_BUF_LEN` of `px-crypt.h`, the size of
the result buffer, 3 magic + 17 rounds clause + 16 salt + 1 separator + 86
digest + 1 NUL. -/
def PX_SHACRYPT_BUF_LEN : Nat := 124

/-- Modelled from the spec: `PX_SHACRYPT_DIGEST_MAX_LENGTH` of `px-crypt.h`,
the digest length of SHA-512. -/
def PX_SHACRYPT_DIGEST_MAX_LENGTH : Nat := 64

/-- Modelled from the spec: `PX_SHACRYPT_ROUNDS_DEFAULT` of `px-crypt.h`, the
number of rounds without a `rounds=` clause. -/
def PX_SHACRYPT_ROUNDS_DEFAULT : Nat := 5000

/-- Modelled from the spec: `PX_SHACRYPT_ROUNDS_MIN` of `px-crypt.h`. -/
def PX_SHACRYPT_ROUNDS_MIN : Nat := 1000

/-- Modelled from the spec: `PX_SHACRYPT_ROUNDS_MAX` of `px-crypt.h`. -/
def PX_SHACRYPT_ROUNDS_MAX : Nat := 999999999

/-- Modelled from the spec: `PX_SHACRYPT_SALT_LEN_MAX` of `px-crypt.h`, the
longest raw salt. -/
def PX_SHACRYPT_SALT_LEN_MAX : Nat := 16

/-! ## Data of `crypt-sha.c` -/

/-- The enum `PGCRYPTO_SHA_t`. -/
inductive PGCRYPTO_SHA_t
  | PGCRYPTO_SHA256CRYPT
  | PGCRYPTO_SHA512CRYPT
  | PGCRYPTO_SHA_UNKOWN
  deriving DecidableEq, Repr

/-- The table `_crypt_itoa64`. -/
def _crypt_itoa64 : List Nat :=
  str "./0123456789ABCDEFGHIJKLMNOPQRSTUVWXYZabcdefghijklmnopqrstuvwxyz"

/-- The static table `magic_bytes`. -/
def magic_bytes (i : Nat) : List Nat := if i = 0 then str "$5$" else str "$6$"

deriving instance DecidableEq for Except

/-- The errors `px_crypt_shacrypt` raises, one per `elog(ERROR, ...)` message. -/
inductive PxError
  /-- Message "null value for password rejected". -/
  | null_password
  /-- Message "null value for salt rejected". -/
  | null_salt
  /-- Message "insufficient result buffer size to encrypt password". -/
  | insufficient_buffer
  /-- Message "invalid salt". -/
  | invalid_salt
  /-- Message "invalid format of salt". -/
  | invalid_salt_format
  /-- Message "unknown crypt identifier", with the byte `salt[1]` it prints. -/
  | unknown_crypt_identifier (c : Nat)
  /-- Message "could not parse salt options". -/
  | invalid_rounds_option
  /-- Message "invalid salt string". -/
  | invalid_salt_string
  /-- Message "cannot create encrypted password", raised at the label `error`. -/
  | cannot_create
  deriving DecidableEq, Repr

/-- A digest object `PX_MD`: the algorithm, the data added by `px_md_update`
since the object was made or last reset (one entry per call), and the number
of `px_md_update` calls it has received in all. -/
structure PX_MD where
  hash : List Nat → List Nat
  chunks : List (List Nat)
  updates : Nat

/-- The call `px_md_update(md, data, len)`. -/
def px_md_update : PX_MD → List Nat → Nat → PX_MD
  | ⟨hash, chunks, updates⟩, data, len => ⟨hash, chunks ++ [data.take len], updates + 1⟩

/-- The call `px_md_reset(md)`. -/
def px_md_reset : PX_MD → PX_MD
  | ⟨hash, _, updates⟩ => ⟨hash, [], updates⟩

/-- The call `px_md_finish(md, buf)`: the digest of the data added, stored as
bytes at the start of `buf`; the result is the new content of `buf`. -/
def px_md_finish (md : PX_MD) (buf : List Nat) : List Nat :=
  let d := (md.hash md.chunks.flatten).map (· % 256)
  d ++ buf.drop d.length

/-- The macro `b64_from_24bit(B2, B1, B0, N)`; `cp` is the text written to the
result buffer so far, the result is that text with the `N` characters added. -/
def b64_from_24bit (B2 B1 B0 N : Nat) (cp : List Nat) : List Nat :=
  let w := ((B2 <<< 16) ||| (B1 <<< 8) ||| B0) % 2 ^ 32
  (while_loop (fun s : Nat × Nat × List Nat => decide (s.1 > 0))
    (fun s => (s.1 - 1, s.2.1 >>> 6, s.2.2 ++ [_crypt_itoa64.getD (s.2.1 &&& 0x3f) 0]))
    N (N, w, cp)).2.2

/-! ## The function `px_crypt_shacrypt` -/

/-- The local variables of `px_crypt_shacrypt` that are live once the salt
string has been analysed (line 231). -/
structure Locals where
  type : PGCRYPTO_SHA_t
  rounds : Nat
  rounds_custom : Nat
  dec_salt_binary : List Nat
  salt_len : Nat
  len : Nat
  buf_size : Nat
  out_buf : List Nat
  digestA : PX_MD
  digestB : PX_MD

/-- Lines 109-119: the two tests for the magic bytes.  The result is `type`
and the new `dec_salt_binary`. -/
def check_magic (dec_salt_binary : List Nat) : PGCRYPTO_SHA_t × List Nat :=
  let s0 : PGCRYPTO_SHA_t × List Nat := (.PGCRYPTO_SHA_UNKOWN, dec_salt_binary)
  let s1 : PGCRYPTO_SHA_t × List Nat :=
    if strncmp s0.2 (magic_bytes 0) (magic_bytes 0).length = 0
    then (.PGCRYPTO_SHA256CRYPT, s0.2.drop (magic_bytes 0).length) else s0
  if strncmp s1.2 (magic_bytes 1) (magic_bytes 1).length = 0
  then (.PGCRYPTO_SHA512CRYPT, s1.2.drop (magic_bytes 1).length) else s1

/-- Lines 132-151: the `rounds=` option.  The result is `rounds`,
`rounds_custom` and the new `dec_salt_binary`. -/
def parse_rounds (dec_salt_binary : List Nat) : Except PxError (Nat × Nat × List Nat) :=
  if strncmp dec_salt_binary rounds_prefix rounds_prefix.length = 0 then
    let num := dec_salt_binary.drop rounds_prefix.length
    let r := strtoul num
    let srounds := r.1
    let endp := r.2
    if endp.head? = some ascii_dollar then
      let rounds :=
        if srounds > PX_SHACRYPT_ROUNDS_MAX then PX_SHACRYPT_ROUNDS_MAX
        else if srounds < PX_SHACRYPT_ROUNDS_MIN then PX_SHACRYPT_ROUNDS_MIN
        else srounds % 2 ^ 32
      .ok (rounds, 1, endp.drop 1)
    else .error .invalid_rounds_option
  else .ok (PX_SHACRYPT_ROUNDS_DEFAULT, 0, dec_salt_binary)

/-- Lines 158-161: the loop over `ep` that measures the salt; `ep` is held as
its offset from `dec_salt_binary`, the result is `salt_len`. -/
def measure_salt (dec_salt_binary : List Nat) : Nat :=
  while_loop
    (fun ep : Nat => decide (ep < dec_salt_binary.length)
      && dec_salt_binary.getD ep 0 != ascii_dollar
      && decide (ep < PX_SHACRYPT_SALT_LEN_MAX))
    (fun ep => ep + 1) PX_SHACRYPT_SALT_LEN_MAX 0

/-- Lines 170-213: the `switch` on `type` that looks up the two digest objects,
sets `buf_size` and puts the magic bytes into the zeroed `out_buf`.  The result
is `buf_size`, `out_buf`, digest A and digest B. -/
def choose_digest (px_find_digest : String → Option (List Nat → List Nat))
    (type : PGCRYPTO_SHA_t) (salt : List Nat) :
    Except PxError (Nat × List Nat × PX_MD × PX_MD) :=
  match type with
  | .PGCRYPTO_SHA256CRYPT =>
    match px_find_digest "sha256" with
    | none => .error .cannot_create
    | some hA =>
    match px_find_digest "sha256" with
    | none => .error .cannot_create
    | some hB =>
      .ok (32, strlcat [] (magic_bytes 0) PX_SHACRYPT_BUF_LEN, ⟨hA, [], 0⟩, ⟨hB, [], 0⟩)
  | .PGCRYPTO_SHA512CRYPT =>
    match px_find_digest "sha512" with
    | none => .error .cannot_create
    | some hA =>
    match px_find_digest "sha512" with
    | none => .error .cannot_create
    | some hB =>
      .ok (PX_SHACRYPT_DIGEST_MAX_LENGTH, strlcat [] (magic_bytes 1) PX_SHACRYPT_BUF_LEN,
           ⟨hA, [], 0⟩, ⟨hB, [], 0⟩)
  | .PGCRYPTO_SHA_UNKOWN => .error (.unknown_crypt_identifier (salt.getD 1 0))

/-- Lines 215-226: the rounds clause, when there is one, and the salt string
are appended to `out_buf`. -/
def append_salt (out_buf : List Nat) (rounds_custom rounds : Nat)
    (dec_salt_binary : List Nat) : List Nat :=
  let out_buf :=
    if rounds_custom > 0 then
      strlcat (strlcat out_buf (snprintf_rounds 80 rounds) PX_SHACRYPT_BUF_LEN)
        [ascii_dollar] PX_SHACRYPT_BUF_LEN
    else out_buf
  strlcat out_buf dec_salt_binary PX_SHACRYPT_BUF_LEN

/-- Lines 53-231 of `px_crypt_shacrypt`: the sanity checks, the analysis of
the salt string, the choice of the digest and the start of the result buffer.
No `px_md_update` call is made in these lines. -/
def px_crypt_shacrypt_prepare (px_find_digest : String → Option (List Nat → List Nat))
    (pw salt : Option (List Nat)) (dstlen : Nat) : Except PxError Locals :=
  match pw with
  | none => .error .null_password
  | some pw =>
  match salt with
  | none => .error .null_salt
  | some salt =>
  if dstlen < PX_SHACRYPT_BUF_LEN then .error .insufficient_buffer else
  let len := pw.length % 2 ^ 32
  if salt.length < 3 then .error .invalid_salt else
  if salt.getD 0 0 ≠ ascii_dollar ∧ salt.getD 2 0 ≠ ascii_dollar then
    .error .invalid_salt_format else
  let m := check_magic salt
  match parse_rounds m.2 with
  | .error e => .error e
  | .ok (rounds, rounds_custom, dec_salt_binary) =>
  let salt_len := measure_salt dec_salt_binary
  match choose_digest px_find_digest m.1 salt with
  | .error e => .error e
  | .ok (buf_size, out_buf, digestA, digestB) =>
  let out_buf := append_salt out_buf rounds_custom rounds dec_salt_binary
  if out_buf.length > 3 + 17 * rounds_custom + salt_len then .error .invalid_salt_string else
  .ok ⟨m.1, rounds, rounds_custom, dec_salt_binary, salt_len, len, buf_size, out_buf,
       digestA, digestB⟩

/-- The state of the hashing part of `px_crypt_shacrypt` when the main loop
has ended (line 402): `block` is the loop counter. -/
structure Hashed where
  block : Nat
  sha_buf : List Nat
  p_bytes : List Nat
  s_bytes : List Nat
  digestA : PX_MD
  digestB : PX_MD

/-- Lines 257-264 (steps 9 and 10): digest B is added to digest A for each
block of the password, then its first bytes for the rest. -/
def add_blocks (buf_size len : Nat) (sha_buf : List Nat) (digestA : PX_MD) : PX_MD :=
  let s := while_loop (fun s : Nat × PX_MD => decide (s.1 > buf_size))
    (fun s => (s.1 - buf_size, px_md_update s.2 sha_buf buf_size)) len (len, digestA)
  px_md_update s.2 sha_buf s.1

/-- Lines 275-284 (step 11): the loop over the bits of the password length. -/
def add_length_bits (buf_size len : Nat) (pw sha_buf : List Nat) (digestA : PX_MD) :
    Nat × PX_MD :=
  while_loop (fun s : Nat × PX_MD => decide (s.1 ≠ 0))
    (fun s => (s.1 >>> 1,
      px_md_update s.2 (if s.1 &&& 1 ≠ 0 then sha_buf else pw)
        (if s.1 &&& 1 ≠ 0 then buf_size else len)))
    len (len, digestA)

/-- A loop `for (block = n; block > 0; block--) px_md_update(md, data, len)`
(lines 296-298 and 331-334). -/
def add_repeated (data : List Nat) (len : Nat) : Nat → PX_MD → PX_MD
  | 0, md => md
  | block + 1, md => add_repeated data len block (px_md_update md data len)

/-- Lines 317-319 and 353-356: a sequence of `n` bytes is filled from the
digest in `sha_buf_tmp`; `cp` is held as its offset into the sequence.  The
result is the final `cp`, the final `block` and the sequence. -/
def fill_bytes (buf_size n : Nat) (sha_buf_tmp : List Nat) : Nat × Nat × List Nat :=
  let s := while_loop (fun s : Nat × Nat × List Nat => decide (s.2.1 > buf_size))
    (fun s => (s.1 + buf_size, s.2.1 - buf_size, memcpy s.2.2 s.1 sha_buf_tmp buf_size))
    n (0, n, palloc0 n)
  (s.1, s.2.1, memcpy s.2.2 s.1 sha_buf_tmp s.2.1)

/-- The body of the main loop (lines 370-400), round number `block`: the
result is the new `sha_buf` and digest B. -/
def round_body (buf_size len salt_len : Nat) (p_bytes s_bytes : List Nat)
    (block : Nat) (sha_buf : List Nat) (digestB : PX_MD) : List Nat × PX_MD :=
  let digestB := px_md_reset digestB
  let digestB := px_md_update digestB
    (if block &&& 1 ≠ 0 then p_bytes else sha_buf)
    (if block &&& 1 ≠ 0 then len else buf_size)
  let digestB := if block % 3 ≠ 0 then px_md_update digestB s_bytes salt_len else digestB
  let digestB := if block % 7 ≠ 0 then px_md_update digestB p_bytes len else digestB
  let digestB := px_md_update digestB
    (if block &&& 1 ≠ 0 then sha_buf else p_bytes)
    (if block &&& 1 ≠ 0 then buf_size else len)
  (px_md_finish digestB sha_buf, digestB)

/-- The main loop (lines 368-402), `for (block = 0; block < rounds; block++)`:
the result is the final `block`, `sha_buf` and digest B. -/
def round_loop (buf_size len salt_len rounds : Nat) (p_bytes s_bytes sha_buf : List Nat)
    (digestB : PX_MD) : Nat × List Nat × PX_MD :=
  while_loop (fun s : Nat × List Nat × PX_MD => decide (s.1 < rounds))
    (fun s =>
      let r := round_body buf_size len salt_len p_bytes s_bytes s.1 s.2.1 s.2.2
      (s.1 + 1, r.1, r.2))
    rounds (0, sha_buf, digestB)

/-- Lines 233-402 of `px_crypt_shacrypt`: the digest computation. -/
def px_crypt_shacrypt_digest (l : Locals) (pw : List Nat) : Hashed :=
  let sha_buf := List.replicate PX_SHACRYPT_DIGEST_MAX_LENGTH 0
  let sha_buf_tmp := List.replicate PX_SHACRYPT_DIGEST_MAX_LENGTH 0
  let len := l.len
  let digestA := px_md_update l.digestA pw len
  let digestA := px_md_update digestA l.dec_salt_binary l.salt_len
  let digestB := px_md_update l.digestB pw len
  let digestB := px_md_update digestB l.dec_salt_binary l.salt_len
  let digestB := px_md_update digestB pw len
  let sha_buf := px_md_finish digestB sha_buf
  let digestA := add_blocks l.buf_size len sha_buf digestA
  let digestA := (add_length_bits l.buf_size len pw sha_buf digestA).2
  let sha_buf := px_md_finish digestA sha_buf
  let digestB := px_md_reset digestB
  let digestB := add_repeated pw len len digestB
  let sha_buf_tmp := px_md_finish digestB sha_buf_tmp
  let p_bytes := (fill_bytes l.buf_size len sha_buf_tmp).2.2
  let digestB := px_md_reset digestB
  let digestB := add_repeated l.dec_salt_binary l.salt_len (16 + sha_buf.getD 0 0) digestB
  let sha_buf_tmp := px_md_finish digestB sha_buf_tmp
  let s_bytes := (fill_bytes l.buf_size l.salt_len sha_buf_tmp).2.2
  let r := round_loop l.buf_size len l.salt_len l.rounds p_bytes s_bytes sha_buf digestB
  ⟨r.1, r.2.1, p_bytes, s_bytes, digestA, r.2.2⟩

/-- Lines 435-445: the eleven groups of the SHA-256 digest, written after `cp`. -/
def encode_sha256 (sha_buf cp : List Nat) : List Nat :=
  let b := fun i => sha_buf.getD i 0
  let cp := b64_from_24bit (b 0) (b 10) (b 20) 4 cp
  let cp := b64_from_24bit (b 21) (b 1) (b 11) 4 cp
  let cp := b64_from_24bit (b 12) (b 22) (b 2) 4 cp
  let cp := b64_from_24bit (b 3) (b 13) (b 23) 4 cp
  let cp := b64_from_24bit (b 24) (b 4) (b 14) 4 cp
  let cp := b64_from_24bit (b 15) (b 25) (b 5) 4 cp
  let cp := b64_from_24bit (b 6) (b 16) (b 26) 4 cp
  let cp := b64_from_24bit (b 27) (b 7) (b 17) 4 cp
  let cp := b64_from_24bit (b 18) (b 28) (b 8) 4 cp
  let cp := b64_from_24bit (b 9) (b 19) (b 29) 4 cp
  b64_from_24bit 0 (b 31) (b 30) 3 cp

/-- Lines 452-473: the twenty-two groups of the SHA-512 digest, written after
`cp`. -/
def encode_sha512 (sha_buf cp : List Nat) : List Nat :=
  let b := fun i => sha_buf.getD i 0
  let cp := b64_from_24bit (b 0) (b 21) (b 42) 4 cp
  let cp := b64_from_24bit (b 22) (b 43) (b 1) 4 cp
  let cp := b64_from_24bit (b 44) (b 2) (b 23) 4 cp
  let cp := b64_from_24bit (b 3) (b 24) (b 45) 4 cp
  let cp := b64_from_24bit (b 25) (b 46) (b 4) 4 cp
  let cp := b64_from_24bit (b 47) (b 5) (b 26) 4 cp
  let cp := b64_from_24bit (b 6) (b 27) (b 48) 4 cp
  let cp := b64_from_24bit (b 28) (b 49) (b 7) 4 cp
  let cp := b64_from_24bit (b 50) (b 8) (b 29) 4 cp
  let cp := b64_from_24bit (b 9) (b 30) (b 51) 4 cp
  let cp := b64_from_24bit (b 31) (b 52) (b 10) 4 cp
  let cp := b64_from_24bit (b 53) (b 11) (b 32) 4 cp
  let cp := b64_from_24bit (b 12) (b 33) (b 54) 4 cp
  let cp := b64_from_24bit (b 34) (b 55) (b 13) 4 cp
  let cp := b64_from_24bit (b 56) (b 14) (b 35) 4 cp
  let cp := b64_from_24bit (b 15) (b 36) (b 57) 4 cp
  let cp := b64_from_24bit (b 37) (b 58) (b 16) 4 cp
  let cp := b64_from_24bit (b 59) (b 17) (b 38) 4 cp
  let cp := b64_from_24bit (b 18) (b 39) (b 60) 4 cp
  let cp := b64_from_24bit (b 40) (b 61) (b 19) 4 cp
  let cp := b64_from_24bit (b 62) (b 20) (b 41) 4 cp
  b64_from_24bit 0 0 (b 63) 2 cp

/-- Lines 416-482 of `px_crypt_shacrypt`: the separator and the encoded digest
are written after the text of `out_buf`; the result is the string in `out_buf`
when `*cp = 0` has ended it. -/
def px_crypt_shacrypt_encode (type : PGCRYPTO_SHA_t) (out_buf sha_buf : List Nat) :
    Except PxError (List Nat) :=
  let cp := out_buf ++ [ascii_dollar]
  match type with
  | .PGCRYPTO_SHA256CRYPT => .ok (encode_sha256 sha_buf cp)
  | .PGCRYPTO_SHA512CRYPT => .ok (encode_sha512 sha_buf cp)
  | .PGCRYPTO_SHA_UNKOWN => .error .cannot_create

/-- What one call of `px_crypt_shacrypt` does: the string it returns in
`passwd` or the error it raises, the number of `px_md_update` calls it made,
and the number of iterations of its main loop. -/
structure Run where
  ret : Except PxError (List Nat)
  md_updates : Nat
  rounds_run : Nat
  deriving DecidableEq

/-- The function `px_crypt_shacrypt(pw, salt, passwd, dstlen)`, over the digest
lookup `px_find_digest`. -/
def px_crypt_shacrypt (px_find_digest : String → Option (List Nat → List Nat))
    (pw salt : Option (List Nat)) (dstlen : Nat) : Run :=
  match px_crypt_shacrypt_prepare px_find_digest pw salt dstlen with
  | .error e => ⟨.error e, 0, 0⟩
  | .ok l =>
    let h := px_crypt_shacrypt_digest l (pw.getD [])
    ⟨px_crypt_shacrypt_encode l.type l.out_buf h.sha_buf,
     h.digestA.updates + h.digestB.updates, h.block⟩

/-! ## Parts of the function

States of its loops, the first lines of the digest computation and the final
copy, as the theorems below refer to them. -/

/-- The content of `sha_buf` at line 287 of `px_crypt_shacrypt`, when digest A
has been finished: the first lines of `px_crypt_shacrypt_digest`. -/
def phase1_sha_buf (l : Locals) (pw : List Nat) : List Nat :=
  let sha_buf := List.replicate PX_SHACRYPT_DIGEST_MAX_LENGTH 0
  let len := l.len
  let digestA := px_md_update l.digestA pw len
  let digestA := px_md_update digestA l.dec_salt_binary l.salt_len
  let digestB := px_md_update l.digestB pw len
  let digestB := px_md_update digestB l.dec_salt_binary l.salt_len
  let digestB := px_md_update digestB pw len
  let sha_buf := px_md_finish digestB sha_buf
  let digestA := add_blocks l.buf_size len sha_buf digestA
  let digestA := (add_length_bits l.buf_size len pw sha_buf digestA).2
  px_md_finish digestA sha_buf

/-- The digest object B at line 339 of `px_crypt_shacrypt`, before the main
loop: the lines of `px_crypt_shacrypt_digest` that act on it. -/
def phase2_digestB (l : Locals) (pw : List Nat) : PX_MD :=
  let len := l.len
  let digestB := px_md_update l.digestB pw len
  let digestB := px_md_update digestB l.dec_salt_binary l.salt_len
  let digestB := px_md_update digestB pw len
  let digestB := px_md_reset digestB
  let digestB := add_repeated pw len len digestB
  let digestB := px_md_reset digestB
  add_repeated l.dec_salt_binary l.salt_len (16 + (phase1_sha_buf l pw).getD 0 0) digestB

/-- The variables `cp` (as an offset), `block` and the sequence being filled
when the loop of `fill_bytes` has made `k` iterations, or has ended before. -/
def fill_state (K n : Nat) (sha_buf_tmp : List Nat) (k : Nat) : Nat × Nat × List Nat :=
  while_loop (fun s : Nat × Nat × List Nat => decide (s.2.1 > K))
    (fun s => (s.1 + K, s.2.1 - K, memcpy s.2.2 s.1 sha_buf_tmp K))
    k (0, n, palloc0 n)

/-- The variables `block`, `sha_buf` and digest B when the main loop of
`round_loop` has made `k` iterations, or has ended before. -/
def round_state (buf_size len salt_len rounds : Nat) (p_bytes s_bytes sha_buf : List Nat)
    (digestB : PX_MD) (k : Nat) : Nat × List Nat × PX_MD :=
  while_loop (fun s : Nat × List Nat × PX_MD => decide (s.1 < rounds))
    (fun s =>
      let r := round_body buf_size len salt_len p_bytes s_bytes s.1 s.2.1 s.2.2
      (s.1 + 1, r.1, r.2))
    k (0, sha_buf, digestB)

/-- The bytes that `memcpy(dst, src, n)` reads from the array `src`: its first
`n` bytes, or `none` when `n` is more than the size of the array, so that the
read leaves it. -/
def memcpy_read (src : List Nat) (n : Nat) : Option (List Nat) :=
  if n ≤ src.length then some (src.take n) else none

/-- The array `out_buf` of line 29 when the result `text` has been written to
it: `sizeof(out_buf)` is `PX_SHACRYPT_BUF_LEN`, and the bytes after the text
are the zero bytes of the `memset` of line 73. -/
def out_buf_array (text : List Nat) : List Nat :=
  text ++ List.replicate (PX_SHACRYPT_BUF_LEN - text.length) 0

/-- The call of `px_crypt_shacrypt` with the final copy of line 485,
`memcpy(passwd, out_buf, dstlen)`: the error raised, or the `dstlen` bytes that
`passwd` receives, `none` when the copy reads past the end of `out_buf`. -/
def px_crypt_shacrypt_passwd (px_find_digest : String → Option (List Nat → List Nat))
    (pw salt : Option (List Nat)) (dstlen : Nat) : Except PxError (Option (List Nat)) :=
  match (px_crypt_shacrypt px_find_digest pw salt dstlen).ret with
  | .error e => .error e
  | .ok text => .ok (memcpy_read (out_buf_array text) dstlen)

/-! ## Notions used in the statements

What the result is made of, in the words of the theorems below. -/

/-- The characters that `b64_from_24bit` writes for the word `w`, `n` of them. -/
def b64_chars : Nat → Nat → List Nat
  | 0, _ => []
  | n + 1, w => _crypt_itoa64.getD (w &&& 0x3f) 0 :: b64_chars n (w >>> 6)

/-- The natural number that a string of decimal digits denotes. -/
def decimal_value (ds : List Nat) : Nat := ds.foldl (fun a c => a * 10 + (c - 48)) 0

/-- The texts after `rounds=` that the code takes as a rounds option: either
a dollar sign at once, or white space (possibly none), an optional sign, at
least one decimal digit and then a dollar sign. -/
def rounds_text_ok (t : List Nat) : Prop :=
  t.head? = some ascii_dollar
  ∨ ∃ ws sg ds rest, t = ws ++ sg ++ ds ++ ascii_dollar :: rest
      ∧ (∀ c ∈ ws, isspace c = true) ∧ (sg = [] ∨ sg = [43] ∨ sg = [45])
      ∧ ds ≠ [] ∧ ∀ c ∈ ds, isdigit c = true

/-- The value `rounds` gets from the number `srounds` of the rounds option
(lines 140-145). -/
def clamp_rounds (srounds : Nat) : Nat :=
  min (max srounds PX_SHACRYPT_ROUNDS_MIN) PX_SHACRYPT_ROUNDS_MAX

/-- The magic bytes that the `switch` of lines 170-213 puts into `out_buf`. -/
def type_magic : PGCRYPTO_SHA_t → List Nat
  | .PGCRYPTO_SHA256CRYPT => magic_bytes 0
  | .PGCRYPTO_SHA512CRYPT => magic_bytes 1
  | .PGCRYPTO_SHA_UNKOWN => []

/-- The digest name that the `switch` of lines 170-213 looks up. -/
def type_name : PGCRYPTO_SHA_t → String
  | .PGCRYPTO_SHA256CRYPT => "sha256"
  | .PGCRYPTO_SHA512CRYPT => "sha512"
  | .PGCRYPTO_SHA_UNKOWN => ""

/-- The `buf_size` that the `switch` of lines 170-213 sets. -/
def type_buf_size : PGCRYPTO_SHA_t → Nat
  | .PGCRYPTO_SHA256CRYPT => 32
  | .PGCRYPTO_SHA512CRYPT => PX_SHACRYPT_DIGEST_MAX_LENGTH
  | .PGCRYPTO_SHA_UNKOWN => 0

/-- The number of characters of the digest section. -/
def digest_chars : PGCRYPTO_SHA_t → Nat
  | .PGCRYPTO_SHA256CRYPT => 43
  | .PGCRYPTO_SHA512CRYPT => 86
  | .PGCRYPTO_SHA_UNKOWN => 0

/-- The raw salt of the text `dec` that follows the preamble: its bytes up to
the first dollar sign or the end, sixteen at most. -/
def raw_salt (dec : List Nat) : List Nat :=
  (dec.take PX_SHACRYPT_SALT_LEN_MAX).takeWhile (fun c => c != ascii_dollar)

/-- The rounds clause of the result: `rounds=`, the number and a dollar sign
when `rounds_custom` is set, nothing otherwise. -/
def rounds_clause (rounds_custom rounds : Nat) : List Nat :=
  if rounds_custom > 0 then rounds_prefix ++ utoa rounds ++ [ascii_dollar] else []

/-- The digest section of the result: the characters that lines 431-480 write
after the separator. -/
def digest_section (type : PGCRYPTO_SHA_t) (sha_buf : List Nat) : List Nat :=
  match type with
  | .PGCRYPTO_SHA256CRYPT => encode_sha256 sha_buf []
  | .PGCRYPTO_SHA512CRYPT => encode_sha512 sha_buf []
  | .PGCRYPTO_SHA_UNKOWN => []

/-! ## The digest computation and the encoder in the words of the specification -/

/-- The bytes that the specification has for a sequence of `n` bytes made from
a digest `d` of `K` bytes: `n / K` full copies of the digest followed by its
first `n % K` bytes. -/
def repeat_digest (K n : Nat) (d : List Nat) : List Nat :=
  (List.replicate (n / K) (d.take K)).flatten ++ d.take (n % K)

/-- The message of round `i` in the words of the specification: P or the
accumulator `da`, then S unless 3 divides `i`, then P unless 7 divides `i`,
then the accumulator or P, by the parity of `i`. -/
def round_message (P S da : List Nat) (i : Nat) : List Nat :=
  (if i % 2 = 1 then P else da) ++ (if i % 3 ≠ 0 then S else [])
    ++ (if i % 7 ≠ 0 then P else []) ++ (if i % 2 = 1 then da else P)

/-- The accumulator of the specification after `i` rounds, from the
accumulator `da` of phase 1: round `i` replaces it by the hash of
`round_message` of it. -/
def accumulator (H : List Nat → List Nat) (P S da : List Nat) : Nat → List Nat
  | 0 => da
  | i + 1 => H (round_message P S (accumulator H P S da i) i)

/-- The alphabet of the encoder in the specification, index 0 to 63. -/
def alphabet : List Nat :=
  str "./0123456789ABCDEFGHIJKLMNOPQRSTUVWXYZabcdefghijklmnopqrstuvwxyz"

/-- The primitive `emit(b2, b1, b0, n)` of the specification: `n` characters,
the `j`-th of which is the alphabet entry for bits `6j` to `6j + 5` of
`(b2 << 16) | (b1 << 8) | b0`. -/
def emit (b2 b1 b0 n : Nat) : List Nat :=
  (List.range n).map
    (fun j => alphabet.getD ((((b2 <<< 16) ||| (b1 <<< 8) ||| b0) >>> (6 * j)) &&& 63) 0)

/-- The SHA-256 digest section of the specification for the digest `d`: ten
groups of four characters and a last group of three. -/
def spec_sha256_section (d : List Nat) : List Nat :=
  let b := fun i => d.getD i 0
  emit (b 0) (b 10) (b 20) 4 ++ emit (b 21) (b 1) (b 11) 4 ++ emit (b 12) (b 22) (b 2) 4
    ++ emit (b 3) (b 13) (b 23) 4 ++ emit (b 24) (b 4) (b 14) 4 ++ emit (b 15) (b 25) (b 5) 4
    ++ emit (b 6) (b 16) (b 26) 4 ++ emit (b 27) (b 7) (b 17) 4 ++ emit (b 18) (b 28) (b 8) 4
    ++ emit (b 9) (b 19) (b 29) 4 ++ emit 0 (b 31) (b 30) 3

/-- The SHA-512 digest section of the specification for the digest `d`:
twenty-one groups of four characters and a last group of two. -/
def spec_sha512_section (d : List Nat) : List Nat :=
  let b := fun i => d.getD i 0
  emit (b 0) (b 21) (b 42) 4 ++ emit (b 22) (b 43) (b 1) 4 ++ emit (b 44) (b 2) (b 23) 4
    ++ emit (b 3) (b 24) (b 45) 4 ++ emit (b 25) (b 46) (b 4) 4 ++ emit (b 47) (b 5) (b 26) 4
    ++ emit (b 6) (b 27) (b 48) 4 ++ emit (b 28) (b 49) (b 7) 4 ++ emit (b 50) (b 8) (b 29) 4
    ++ emit (b 9) (b 30) (b 51) 4 ++ emit (b 31) (b 52) (b 10) 4 ++ emit (b 53) (b 11) (b 32) 4
    ++ emit (b 12) (b 33) (b 54) 4 ++ emit (b 34) (b 55) (b 13) 4 ++ emit (b 56) (b 14) (b 35) 4
    ++ emit (b 15) (b 36) (b 57) 4 ++ emit (b 37) (b 58) (b 16) 4 ++ emit (b 59) (b 17) (b 38) 4
    ++ emit (b 18) (b 39) (b 60) 4 ++ emit (b 40) (b 61) (b 19) 4 ++ emit (b 62) (b 20) (b 41) 4
    ++ emit 0 0 (b 63) 2

/-! ## A digest lookup to run the function on -/

/-- A small stand-in for a digest of `n` bytes: byte `i` is the sum of the
message bytes and of `i`, modulo 256. -/
def toy_hash (n : Nat) (m : List Nat) : List Nat :=
  (List.range n).map (fun i => (m.sum + i) % 256)

/-- A digest lookup that knows "sha256" and "sha512" and gives the stand-ins
of 32 and 64 bytes. -/
def toy_digest (name : String) : Option (List Nat → List Nat) :=
  if name = "sha256" then some (toy_hash 32)
  else if name = "sha512" then some (toy_hash 64)
  else none

end ShaCrypt

namespace RangeGist

/-! ## The comparator of `contrib/btree_gist/btree_rangetypes.c`

The functions of the range type module and of the type cache that the
comparator calls are not part of the file: they are the fields of `Env`, over
arbitrary types of datums, ranges, type cache entries and bounds. -/

/-- What `range_gist_cmp` calls and reads from outside its file:
`DatumGetRangeTypeP`, `RangeTypeGetOid`, `lookup_type_cache`, the flag
`TYPECACHE_RANGE_INFO`, `range_deserialize` (its three results as a triple of
lower bound, upper bound and empty flag), `range_cmp_bounds`, and whether
`Assert` is compiled in. -/
structure Env (Datum RangeType TypeCacheEntry RangeBound : Type) where
  DatumGetRangeTypeP : Datum → RangeType
  RangeTypeGetOid : RangeType → Nat
  TYPECACHE_RANGE_INFO : Nat
  lookup_type_cache : Nat → Nat → TypeCacheEntry
  range_deserialize : TypeCacheEntry → RangeType → RangeBound × RangeBound × Bool
  range_cmp_bounds : TypeCacheEntry → RangeBound → RangeBound → Int
  assert_enabled : Bool

/-- The field of `SortSupportData` that the comparator uses: `ssup_extra`,
`none` for `NULL`. -/
structure SortSupportData (TypeCacheEntry : Type) where
  ssup_extra : Option TypeCacheEntry

/-- The function `range_gist_cmp(a, b, ssup)`: the value returned and the new
content of `ssup`, or `none` when the `Assert` of line 33 fails.  Lines 54-58
release the detoasted copies of the arguments and leave `result` as it is. -/
def range_gist_cmp {Datum RangeType TypeCacheEntry RangeBound : Type}
    (env : Env Datum RangeType TypeCacheEntry RangeBound) (a b : Datum)
    (ssup : SortSupportData TypeCacheEntry) : Option (Int × SortSupportData TypeCacheEntry) :=
  let range_a := env.DatumGetRangeTypeP a
  let range_b := env.DatumGetRangeTypeP b
  let typcache := ssup.ssup_extra
  let looked : Option (TypeCacheEntry × SortSupportData TypeCacheEntry) :=
    match typcache with
    | none =>
      if env.assert_enabled ∧ env.RangeTypeGetOid range_a ≠ env.RangeTypeGetOid range_b then
        none
      else
        let typcache :=
          env.lookup_type_cache (env.RangeTypeGetOid range_a) env.TYPECACHE_RANGE_INFO
        some (typcache, ⟨some typcache⟩)
    | some typcache => some (typcache, ssup)
  match looked with
  | none => none
  | some (typcache, ssup) =>
    let (lower1, _upper1, empty1) := env.range_deserialize typcache range_a
    let (lower2, _upper2, empty2) := env.range_deserialize typcache range_b
    let result : Int :=
      if empty1 && empty2 then 0
      else if empty1 then -1
      else if empty2 then 1
      else env.range_cmp_bounds typcache lower1 lower2
    some (result, ssup)

/-- The function `gbt_range_gist_sortsupport`, on the two fields it writes: the
comparator is `range_gist_cmp` and `ssup_extra` is `NULL`. -/
def gbt_range_gist_sortsupport {TypeCacheEntry : Type}
    (_ssup : SortSupportData TypeCacheEntry) : SortSupportData TypeCacheEntry :=
  ⟨none⟩

/-- The type cache entry that a call works with: the cached one, or the one
looked up for the type of the first argument. -/
def cache_entry {Datum RangeType TypeCacheEntry RangeBound : Type}
    (env : Env Datum RangeType TypeCacheEntry RangeBound) (a : Datum)
    (ssup : SortSupportData TypeCacheEntry) : TypeCacheEntry :=
  ssup.ssup_extra.getD
    (env.lookup_type_cache (env.RangeTypeGetOid (env.DatumGetRangeTypeP a))
      env.TYPECACHE_RANGE_INFO)

/-- The environment `env` with the upper bounds that `range_deserialize`
gives replaced by those of `u`. -/
def with_upper {Datum RangeType TypeCacheEntry RangeBound : Type}
    (env : Env Datum RangeType TypeCacheEntry RangeBound)
    (u : TypeCacheEntry → RangeType → RangeBound) :
    Env Datum RangeType TypeCacheEntry RangeBound :=
  { env with
    range_deserialize := fun t r =>
      ((env.range_deserialize t r).1, u t r, (env.range_deserialize t r).2.2) }

/-- A small environment to run the comparator on: a datum is a range of
integers `(lower, upper, empty)` of type 1, and bounds compare as integers. -/
def int_env : Env (Int × Int × Bool) (Int × Int × Bool) Nat Int where
  DatumGetRangeTypeP := fun d => d
  RangeTypeGetOid := fun _ => 1
  TYPECACHE_RANGE_INFO := 0
  lookup_type_cache := fun oid _ => oid
  range_deserialize := fun _ r => r
  range_cmp_bounds := fun _ x y => if x < y then -1 else if x = y then 0 else 1
  assert_enabled := true

end RangeGist

/-! # Theorems -/

namespace ShaCrypt

/-! ## The radix-64 encoder -/

theorem b64_loop_eq (n w : Nat) (cp : List Nat) :
    (while_loop (fun s : Nat × Nat × List Nat => decide (s.1 > 0))
      (fun s => (s.1 - 1, s.2.1 >>> 6, s.2.2 ++ [_crypt_itoa64.getD (s.2.1 &&& 0x3f) 0]))
      n (n, w, cp)).2.2 = cp ++ b64_chars n w := by
  induction n generalizing w cp with
  | zero => simp [while_loop, b64_chars]
  | succ n ih =>
    have h := ih (w >>> 6) (cp ++ [_crypt_itoa64.getD (w &&& 0x3f) 0])
    simp only [while_loop, b64_chars, gt_iff_lt, Nat.zero_lt_succ, decide_True, if_true,
      Nat.add_sub_cancel] at h ⊢
    rw [h]; simp

theorem b64_from_24bit_eq (B2 B1 B0 N : Nat) (cp : List Nat) :
    b64_from_24bit B2 B1 B0 N cp
      = cp ++ b64_chars N (((B2 <<< 16) ||| (B1 <<< 8) ||| B0) % 2 ^ 32) := by
  simp only [b64_from_24bit]
  exact b64_loop_eq _ _ _

theorem b64_chars_length (n w : Nat) : (b64_chars n w).length = n := by
  induction n generalizing w with
  | zero => rfl
  | succ n ih => simp [b64_chars, ih]

theorem crypt_itoa64_length : _crypt_itoa64.length = 64 := by decide

theorem and_63_lt (w : Nat) : w &&& 0x3f < 64 := by
  have : w &&& 0x3f ≤ 0x3f := Nat.and_le_right
  omega

theorem b64_chars_mem (n w c : Nat) (h : c ∈ b64_chars n w) : c ∈ _crypt_itoa64 := by
  induction n generalizing w with
  | zero => simp [b64_chars] at h
  | succ n ih =>
    simp only [b64_chars, List.mem_cons] at h
    rcases h with h | h
    · subst h
      have hlt : w &&& 0x3f < _crypt_itoa64.length := by
        rw [crypt_itoa64_length]; exact and_63_lt w
      rw [List.getD_eq_getElem _ _ hlt]
      exact List.getElem_mem _
    · exact ih _ h

theorem encode_sha256_append (sha_buf cp : List Nat) :
    encode_sha256 sha_buf cp = cp ++ encode_sha256 sha_buf [] := by
  simp only [encode_sha256, b64_from_24bit_eq, List.nil_append, List.append_assoc]

theorem encode_sha512_append (sha_buf cp : List Nat) :
    encode_sha512 sha_buf cp = cp ++ encode_sha512 sha_buf [] := by
  simp only [encode_sha512, b64_from_24bit_eq, List.nil_append, List.append_assoc]

theorem encode_sha256_length (sha_buf : List Nat) : (encode_sha256 sha_buf []).length = 43 := by
  simp only [encode_sha256, b64_from_24bit_eq, List.nil_append, List.length_append,
    b64_chars_length]

theorem encode_sha512_length (sha_buf : List Nat) : (encode_sha512 sha_buf []).length = 86 := by
  simp only [encode_sha512, b64_from_24bit_eq, List.nil_append, List.length_append,
    b64_chars_length]

theorem encode_sha256_mem (sha_buf : List Nat) (c : Nat) (h : c ∈ encode_sha256 sha_buf []) :
    c ∈ _crypt_itoa64 := by
  simp only [encode_sha256, b64_from_24bit_eq, List.nil_append, List.mem_append] at h
  casesm* _ ∨ _
  all_goals exact b64_chars_mem _ _ _ ‹_›

theorem encode_sha512_mem (sha_buf : List Nat) (c : Nat) (h : c ∈ encode_sha512 sha_buf []) :
    c ∈ _crypt_itoa64 := by
  simp only [encode_sha512, b64_from_24bit_eq, List.nil_append, List.mem_append] at h
  casesm* _ ∨ _
  all_goals exact b64_chars_mem _ _ _ ‹_›

/-- C10. Whatever the bytes of the final digest in `sha_buf` are, lines 416-482
write, after `out_buf` and the separating dollar sign, exactly 43 characters
for SHA-256 and exactly 86 for SHA-512, every one of them a member of the
alphabet `_crypt_itoa64`; the table index `w & 0x3f` is always below 64, the
length of the table. -/
theorem digest_section_length_alphabet (out_buf sha_buf : List Nat) :
    (∃ sec, px_crypt_shacrypt_encode .PGCRYPTO_SHA256CRYPT out_buf sha_buf
          = .ok (out_buf ++ ascii_dollar :: sec)
        ∧ sec.length = 43 ∧ ∀ c ∈ sec, c ∈ _crypt_itoa64)
    ∧ (∃ sec, px_crypt_shacrypt_encode .PGCRYPTO_SHA512CRYPT out_buf sha_buf
          = .ok (out_buf ++ ascii_dollar :: sec)
        ∧ sec.length = 86 ∧ ∀ c ∈ sec, c ∈ _crypt_itoa64)
    ∧ ∀ w : Nat, w &&& 0x3f < _crypt_itoa64.length := by
  refine ⟨⟨encode_sha256 sha_buf [], ?_, encode_sha256_length _, encode_sha256_mem _⟩,
    ⟨encode_sha512 sha_buf [], ?_, encode_sha512_length _, encode_sha512_mem _⟩, ?_⟩
  · simp only [px_crypt_shacrypt_encode]
    rw [encode_sha256_append]; simp
  · simp only [px_crypt_shacrypt_encode]
    rw [encode_sha512_append]; simp
  · intro w; rw [crypt_itoa64_length]; exact and_63_lt w

/-! ## The result buffer -/

theorem strlcat_length_ge (dst src : List Nat) (siz : Nat) :
    dst.length ≤ (strlcat dst src siz).length := by
  simp [strlcat]

theorem strlcat_of_short (dst src : List Nat) (siz : Nat)
    (h : (strlcat dst src siz).length + 1 < siz) : strlcat dst src siz = dst ++ src := by
  simp only [strlcat, List.length_append, List.length_take] at h ⊢
  rw [List.take_of_length_le]
  omega

theorem take_eq_self_of_short (l : List Nat) (n : Nat) (h : (l.take n).length < n) :
    l.take n = l := by
  rw [List.length_take] at h
  exact List.take_of_length_le (by omega)

theorem append_salt_eq (out_buf : List Nat) (rounds_custom rounds : Nat) (dec : List Nat)
    (h : (append_salt out_buf rounds_custom rounds dec).length ≤ 78) :
    append_salt out_buf rounds_custom rounds dec
      = out_buf ++ rounds_clause rounds_custom rounds ++ dec := by
  unfold append_salt at h ⊢
  simp only [PX_SHACRYPT_BUF_LEN] at h ⊢
  by_cases hc : rounds_custom > 0
  · simp only [hc, if_true, rounds_clause] at h ⊢
    have h4 := strlcat_of_short _ dec 124 (Nat.lt_of_le_of_lt (Nat.succ_le_succ h) (by decide))
    rw [h4] at h ⊢
    rw [List.length_append] at h
    have h3 := strlcat_of_short (strlcat out_buf (snprintf_rounds 80 rounds) 124)
      [ascii_dollar] 124 (by omega)
    rw [h3] at h ⊢
    rw [List.length_append] at h
    have h2 := strlcat_of_short out_buf (snprintf_rounds 80 rounds) 124 (by omega)
    rw [h2] at h ⊢
    rw [List.length_append] at h
    have h1 : snprintf_rounds 80 rounds = rounds_prefix ++ utoa rounds := by
      unfold snprintf_rounds at h ⊢
      exact take_eq_self_of_short _ _ (by omega)
    rw [h1]
    simp [List.append_assoc]
  · simp only [hc, if_false, rounds_clause] at h ⊢
    have h4 := strlcat_of_short _ dec 124 (Nat.lt_of_le_of_lt (Nat.succ_le_succ h) (by decide))
    rw [h4]; simp

/-! ## Loops, and the length of the salt -/

theorem while_loop_step {σ : Type} (cond : σ → Bool) (body : σ → σ) (n : Nat) (s : σ)
    (h : cond s = true) :
    while_loop cond body (n + 1) s = while_loop cond body n (body s) := by
  simp only [while_loop, h, if_true]

theorem while_loop_stop {σ : Type} (cond : σ → Bool) (body : σ → σ) (n : Nat) (s : σ)
    (h : cond s = false) : while_loop cond body n s = s := by
  cases n with
  | zero => rfl
  | succ n => simp [while_loop, h]

theorem measure_loop (dec : List Nat) (n k : Nat) (hk : k + n = 16) :
    while_loop
      (fun ep : Nat => decide (ep < dec.length)
        && dec.getD ep 0 != ascii_dollar
        && decide (ep < PX_SHACRYPT_SALT_LEN_MAX))
      (fun ep => ep + 1) n k
      = k + (((dec.drop k).take n).takeWhile (fun c => c != ascii_dollar)).length := by
  induction n generalizing k with
  | zero => simp [while_loop]
  | succ n ih =>
    have h16 : k < PX_SHACRYPT_SALT_LEN_MAX := by simp only [PX_SHACRYPT_SALT_LEN_MAX]; omega
    by_cases hlen : k < dec.length
    · have hd : dec.drop k = dec[k] :: dec.drop (k + 1) := List.drop_eq_getElem_cons hlen
      have hg : dec.getD k 0 = dec[k] := List.getD_eq_getElem _ _ hlen
      by_cases hc : dec[k] = ascii_dollar
      · rw [while_loop_stop, hd, List.take_succ_cons, List.takeWhile_cons]
        · have hb : (dec[k] != ascii_dollar) = false := by simp [hc]
          rw [hb]; simp
        · simp only [hg, hc, bne_self_eq_false, Bool.and_false, Bool.false_and]
      · rw [while_loop_step, ih (k + 1) (by omega), hd, List.take_succ_cons,
          List.takeWhile_cons]
        · have hb : (dec[k] != ascii_dollar) = true := by simp [hc]
          rw [hb]; simp only [if_true, List.length_cons]; omega
        · simp only [hg, hlen, h16, decide_True, Bool.true_and, Bool.and_true, bne_iff_ne,
            ne_eq, hc, not_false_eq_true]
    · have hd : dec.drop k = [] := List.drop_eq_nil_of_le (by omega)
      rw [while_loop_stop]
      · simp [hd]
      · simp only [hlen, decide_False, Bool.false_and]

theorem measure_salt_eq (dec : List Nat) : measure_salt dec = (raw_salt dec).length := by
  have := measure_loop dec 16 0 rfl
  simpa [measure_salt, raw_salt, PX_SHACRYPT_SALT_LEN_MAX] using this

theorem takeWhile_length_le (p : Nat → Bool) (l : List Nat) :
    (l.takeWhile p).length ≤ l.length :=
  (List.takeWhile_prefix p).length_le

theorem measure_salt_le (dec : List Nat) : measure_salt dec ≤ 16 := by
  rw [measure_salt_eq, raw_salt]
  calc _ ≤ (dec.take PX_SHACRYPT_SALT_LEN_MAX).length := takeWhile_length_le _ _
    _ ≤ 16 := by simp [PX_SHACRYPT_SALT_LEN_MAX]

theorem measure_salt_le_length (dec : List Nat) : measure_salt dec ≤ dec.length := by
  rw [measure_salt_eq, raw_salt]
  calc _ ≤ (dec.take PX_SHACRYPT_SALT_LEN_MAX).length := takeWhile_length_le _ _
    _ ≤ dec.length := by simp

theorem raw_salt_prefix (dec : List Nat) : dec.take (measure_salt dec) = raw_salt dec := by
  rw [measure_salt_eq, raw_salt]
  have h1 : ((dec.take PX_SHACRYPT_SALT_LEN_MAX).takeWhile (fun c => c != ascii_dollar))
      <+: dec :=
    (List.takeWhile_prefix _).trans (List.take_prefix _ _)
  exact (List.prefix_iff_eq_take.mp h1).symm

/-! ## The analysis of the salt string -/

theorem choose_digest_ok (f : String → Option (List Nat → List Nat)) (type : PGCRYPTO_SHA_t)
    (salt : List Nat) (b : Nat) (o : List Nat) (A B : PX_MD)
    (h : choose_digest f type salt = .ok (b, o, A, B)) :
    type ≠ .PGCRYPTO_SHA_UNKOWN ∧ b = type_buf_size type ∧ o = type_magic type
      ∧ ∃ hA, f (type_name type) = some hA ∧ A = ⟨hA, [], 0⟩ ∧ B = ⟨hA, [], 0⟩ := by
  cases type with
  | PGCRYPTO_SHA_UNKOWN => simp [choose_digest] at h
  | PGCRYPTO_SHA256CRYPT =>
    simp only [choose_digest, type_name] at h ⊢
    cases hf : f "sha256" with
    | none => simp [hf] at h
    | some hA =>
      simp only [hf, Except.ok.injEq, Prod.mk.injEq] at h
      obtain ⟨h1, h2, h3, h4⟩ := h
      refine ⟨by simp, h1.symm, ?_, hA, rfl, h3.symm, h4.symm⟩
      rw [← h2]; rfl
  | PGCRYPTO_SHA512CRYPT =>
    simp only [choose_digest, type_name] at h ⊢
    cases hf : f "sha512" with
    | none => simp [hf] at h
    | some hA =>
      simp only [hf, Except.ok.injEq, Prod.mk.injEq] at h
      obtain ⟨h1, h2, h3, h4⟩ := h
      refine ⟨by simp, h1.symm, ?_, hA, rfl, h3.symm, h4.symm⟩
      rw [← h2]; rfl

theorem choose_digest_of_some (f : String → Option (List Nat → List Nat))
    (type : PGCRYPTO_SHA_t) (salt : List Nat) (hA : List Nat → List Nat)
    (ht : type ≠ .PGCRYPTO_SHA_UNKOWN) (hf : f (type_name type) = some hA) :
    choose_digest f type salt
      = .ok (type_buf_size type, type_magic type, ⟨hA, [], 0⟩, ⟨hA, [], 0⟩) := by
  cases type with
  | PGCRYPTO_SHA_UNKOWN => exact absurd rfl ht
  | PGCRYPTO_SHA256CRYPT =>
    simp only [type_name] at hf
    simp only [choose_digest, hf]; rfl
  | PGCRYPTO_SHA512CRYPT =>
    simp only [type_name] at hf
    simp only [choose_digest, hf]; rfl

theorem type_magic_length (type : PGCRYPTO_SHA_t) : (type_magic type).length ≤ 3 := by
  cases type <;> decide

theorem parse_rounds_custom_le (dec : List Nat) (r rc : Nat) (d : List Nat)
    (h : parse_rounds dec = .ok (r, rc, d)) : rc ≤ 1 := by
  unfold parse_rounds at h
  split at h
  · simp only [] at h
    split at h
    · simp only [Except.ok.injEq, Prod.mk.injEq] at h; omega
    · simp at h
  · simp only [Except.ok.injEq, Prod.mk.injEq] at h; omega

theorem prepare_ok (f : String → Option (List Nat → List Nat)) (pw salt : List Nat)
    (dstlen : Nat) (l : Locals)
    (h : px_crypt_shacrypt_prepare f (some pw) (some salt) dstlen = .ok l) :
    PX_SHACRYPT_BUF_LEN ≤ dstlen ∧ 3 ≤ salt.length
      ∧ (salt.getD 0 0 = ascii_dollar ∨ salt.getD 2 0 = ascii_dollar)
      ∧ l.type = (check_magic salt).1 ∧ l.type ≠ .PGCRYPTO_SHA_UNKOWN
      ∧ parse_rounds (check_magic salt).2 = .ok (l.rounds, l.rounds_custom, l.dec_salt_binary)
      ∧ l.salt_len = measure_salt l.dec_salt_binary
      ∧ l.len = pw.length % 2 ^ 32
      ∧ l.buf_size = type_buf_size l.type
      ∧ (∃ hA, f (type_name l.type) = some hA ∧ l.digestA = ⟨hA, [], 0⟩
          ∧ l.digestB = ⟨hA, [], 0⟩)
      ∧ l.out_buf = type_magic l.type ++ rounds_clause l.rounds_custom l.rounds
          ++ l.dec_salt_binary
      ∧ l.out_buf.length ≤ 3 + 17 * l.rounds_custom + l.salt_len := by
  unfold px_crypt_shacrypt_prepare at h
  simp only [] at h
  split at h
  · simp at h
  split at h
  · simp at h
  split at h
  · simp at h
  rename_i hdst hlen hfmt
  split at h
  · simp at h
  rename_i r rc dec hpr
  split at h
  · simp at h
  rename_i b o A B hcd
  split at h
  · simp at h
  rename_i hguard
  simp only [Except.ok.injEq] at h
  subst h
  simp only
  obtain ⟨ht, hb, ho, hA, hf, hA1, hB1⟩ := choose_digest_ok _ _ _ _ _ _ _ hcd
  have hrc := parse_rounds_custom_le _ _ _ _ hpr
  have hms := measure_salt_le dec
  have hshort : (append_salt o rc r dec).length ≤ 78 := by omega
  refine ⟨by omega, by omega, ?_, trivial, ht, hpr, trivial, trivial, hb, ⟨hA, hf, hA1, hB1⟩, ?_, by omega⟩
  · by_contra hcon
    push_neg at hcon
    exact hfmt hcon
  · rw [append_salt_eq _ _ _ _ hshort, ho]

theorem prepare_of (f : String → Option (List Nat → List Nat)) (pw salt : List Nat)
    (dstlen r rc : Nat) (dec : List Nat) (hA : List Nat → List Nat)
    (hdst : PX_SHACRYPT_BUF_LEN ≤ dstlen) (hlen : 3 ≤ salt.length)
    (hfmt : salt.getD 0 0 = ascii_dollar ∨ salt.getD 2 0 = ascii_dollar)
    (ht : (check_magic salt).1 ≠ .PGCRYPTO_SHA_UNKOWN)
    (hpr : parse_rounds (check_magic salt).2 = .ok (r, rc, dec))
    (hf : f (type_name (check_magic salt).1) = some hA) :
    px_crypt_shacrypt_prepare f (some pw) (some salt) dstlen
      = if (append_salt (type_magic (check_magic salt).1) rc r dec).length
            > 3 + 17 * rc + measure_salt dec
        then .error .invalid_salt_string
        else .ok ⟨(check_magic salt).1, r, rc, dec, measure_salt dec, pw.length % 2 ^ 32,
          type_buf_size (check_magic salt).1,
          append_salt (type_magic (check_magic salt).1) rc r dec,
          ⟨hA, [], 0⟩, ⟨hA, [], 0⟩⟩ := by
  unfold px_crypt_shacrypt_prepare
  have h1 : ¬ dstlen < PX_SHACRYPT_BUF_LEN := by omega
  have h2 : ¬ salt.length < 3 := by omega
  have h3 : ¬ (salt.getD 0 0 ≠ ascii_dollar ∧ salt.getD 2 0 ≠ ascii_dollar) := by
    rintro ⟨a, b⟩; rcases hfmt with h | h
    · exact a h
    · exact b h
  simp only [h1, h2, h3, if_false, hpr, choose_digest_of_some f _ salt hA ht hf]

/-! ## The main loop and the shape of the result -/

theorem count_loop {σ : Type} (rounds : Nat) (body : Nat × σ → Nat × σ)
    (hbody : ∀ s, (body s).1 = s.1 + 1) (n : Nat) (s : Nat × σ) (h : s.1 + n = rounds) :
    (while_loop (fun s : Nat × σ => decide (s.1 < rounds)) body n s).1 = rounds := by
  induction n generalizing s with
  | zero => simpa [while_loop] using h
  | succ n ih =>
    rw [while_loop_step]
    · exact ih _ (by rw [hbody]; omega)
    · simp only [decide_eq_true_eq]; omega

theorem round_loop_block (buf_size len salt_len rounds : Nat)
    (p_bytes s_bytes sha_buf : List Nat) (digestB : PX_MD) :
    (round_loop buf_size len salt_len rounds p_bytes s_bytes sha_buf digestB).1 = rounds := by
  unfold round_loop
  exact count_loop rounds _ (fun _ => rfl) rounds _ (by simp)

theorem digest_block (l : Locals) (pw : List Nat) :
    (px_crypt_shacrypt_digest l pw).block = l.rounds := by
  simp only [px_crypt_shacrypt_digest]
  exact round_loop_block _ _ _ _ _ _ _ _

theorem encode_eq (type : PGCRYPTO_SHA_t) (out_buf sha_buf : List Nat)
    (ht : type ≠ .PGCRYPTO_SHA_UNKOWN) :
    px_crypt_shacrypt_encode type out_buf sha_buf
      = .ok (out_buf ++ ascii_dollar :: digest_section type sha_buf) := by
  cases type with
  | PGCRYPTO_SHA_UNKOWN => exact absurd rfl ht
  | PGCRYPTO_SHA256CRYPT =>
    simp only [px_crypt_shacrypt_encode, digest_section]
    rw [encode_sha256_append]; simp
  | PGCRYPTO_SHA512CRYPT =>
    simp only [px_crypt_shacrypt_encode, digest_section]
    rw [encode_sha512_append]; simp

theorem digest_section_length (type : PGCRYPTO_SHA_t) (sha_buf : List Nat) :
    (digest_section type sha_buf).length = digest_chars type := by
  cases type
  · exact encode_sha256_length _
  · exact encode_sha512_length _
  · rfl

theorem digest_section_mem (type : PGCRYPTO_SHA_t) (sha_buf : List Nat) (c : Nat)
    (h : c ∈ digest_section type sha_buf) : c ∈ _crypt_itoa64 := by
  cases type
  · exact encode_sha256_mem _ _ h
  · exact encode_sha512_mem _ _ h
  · simp [digest_section] at h

theorem shacrypt_of_prepare_ok (f : String → Option (List Nat → List Nat))
    (pw salt : List Nat) (dstlen : Nat) (l : Locals)
    (h : px_crypt_shacrypt_prepare f (some pw) (some salt) dstlen = .ok l) :
    px_crypt_shacrypt f (some pw) (some salt) dstlen
      = ⟨.ok (l.out_buf ++ ascii_dollar
              :: digest_section l.type (px_crypt_shacrypt_digest l pw).sha_buf),
         (px_crypt_shacrypt_digest l pw).digestA.updates
           + (px_crypt_shacrypt_digest l pw).digestB.updates,
         l.rounds⟩ := by
  have ht := (prepare_ok f pw salt dstlen l h).2.2.2.2.1
  simp only [px_crypt_shacrypt, h, Option.getD_some, encode_eq _ _ _ ht, digest_block]

theorem shacrypt_of_prepare_error (f : String → Option (List Nat → List Nat))
    (pw salt : Option (List Nat)) (dstlen : Nat) (e : PxError)
    (h : px_crypt_shacrypt_prepare f pw salt dstlen = .error e) :
    px_crypt_shacrypt f pw salt dstlen = ⟨.error e, 0, 0⟩ := by
  simp only [px_crypt_shacrypt, h]

theorem shacrypt_ok_inv (f : String → Option (List Nat → List Nat))
    (pw salt : List Nat) (dstlen : Nat) (enc : List Nat)
    (h : (px_crypt_shacrypt f (some pw) (some salt) dstlen).ret = .ok enc) :
    ∃ l, px_crypt_shacrypt_prepare f (some pw) (some salt) dstlen = .ok l
      ∧ enc = l.out_buf ++ ascii_dollar
          :: digest_section l.type (px_crypt_shacrypt_digest l pw).sha_buf := by
  cases hp : px_crypt_shacrypt_prepare f (some pw) (some salt) dstlen with
  | error e =>
    rw [shacrypt_of_prepare_error _ _ _ _ _ hp] at h
    simp at h
  | ok l =>
    rw [shacrypt_of_prepare_ok _ _ _ _ _ hp] at h
    simp only [Except.ok.injEq] at h
    exact ⟨l, rfl, h.symm⟩

/-- The result of a call, from what the analysis of the salt leaves in `type`
and `out_buf`: `out_buf`, a dollar sign, and a digest section of 43 or 86
characters of the alphabet. -/
theorem shacrypt_ret_shape (f : String → Option (List Nat → List Nat))
    (pw salt : List Nat) (dstlen : Nat) (type : PGCRYPTO_SHA_t) (out : List Nat)
    (h : (px_crypt_shacrypt_prepare f (some pw) (some salt) dstlen).map
          (fun l => (l.type, l.out_buf)) = .ok (type, out)) :
    ∃ sec, (px_crypt_shacrypt f (some pw) (some salt) dstlen).ret
          = .ok (out ++ ascii_dollar :: sec)
      ∧ sec.length = digest_chars type
      ∧ ∀ c ∈ sec, c ∈ _crypt_itoa64 := by
  cases hp : px_crypt_shacrypt_prepare f (some pw) (some salt) dstlen with
  | error e => rw [hp] at h; simp [Except.map] at h
  | ok l =>
    rw [hp] at h
    simp only [Except.map, Except.ok.injEq, Prod.mk.injEq] at h
    refine ⟨digest_section l.type (px_crypt_shacrypt_digest l pw).sha_buf, ?_, ?_,
      digest_section_mem _ _⟩
    · rw [shacrypt_of_prepare_ok _ _ _ _ _ hp, h.2]
    · rw [digest_section_length, h.1]

/-! ## The function `strtoul` -/

theorem strtoul_digits_append (ds rest : List Nat) (acc : Nat)
    (hds : ∀ c ∈ ds, isdigit c = true) (hrest : ∀ c, rest.head? = some c → isdigit c = false) :
    strtoul_digits (ds ++ rest) acc
      = (ds.foldl (fun a c => a * 10 + (c - 48)) acc, rest) := by
  induction ds generalizing acc with
  | nil =>
    cases rest with
    | nil => rfl
    | cons c r =>
      have := hrest c rfl
      simp [strtoul_digits, this]
  | cons d ds ih =>
    have hd : isdigit d = true := hds d (List.mem_cons_self _ _)
    simp only [List.cons_append, strtoul_digits, hd, if_true, List.foldl_cons]
    exact ih _ (fun c hc => hds c (List.mem_cons_of_mem _ hc))

theorem strtoul_digits_split (s : List Nat) (acc : Nat) :
    ∃ ds, s = ds ++ (strtoul_digits s acc).2 ∧ (∀ c ∈ ds, isdigit c = true)
      ∧ ∀ c, (strtoul_digits s acc).2.head? = some c → isdigit c = false := by
  induction s generalizing acc with
  | nil => exact ⟨[], rfl, by simp, by simp [strtoul_digits]⟩
  | cons c cs ih =>
    by_cases hc : isdigit c = true
    · obtain ⟨ds, h1, h2, h3⟩ := ih (acc * 10 + (c - 48))
      refine ⟨c :: ds, ?_, ?_, ?_⟩
      · simp only [strtoul_digits, hc, if_true, List.cons_append]
        rw [← h1]
      · intro x hx
        rcases List.mem_cons.mp hx with h | h
        · rw [h]; exact hc
        · exact h2 x h
      · simpa only [strtoul_digits, hc, if_true] using h3
    · refine ⟨[], ?_, by simp, ?_⟩
      · simp [strtoul_digits, hc]
      · intro x hx
        simp only [strtoul_digits, hc, if_false, List.head?_cons, Option.some.injEq,
          Bool.false_eq_true] at hx
        rw [← hx]; simpa using hc

/-- Where `strtoul` stops: the text its digit loop leaves, or `nptr` itself. -/
theorem strtoul_endp (t : List Nat) :
    (strtoul t).2 = t
    ∨ ∃ ws sg ds, t = ws ++ sg ++ ds ++ (strtoul t).2
        ∧ (∀ c ∈ ws, isspace c = true) ∧ (sg = [] ∨ sg = [43] ∨ sg = [45])
        ∧ ds ≠ [] ∧ (∀ c ∈ ds, isdigit c = true) := by
  have hws : t = t.takeWhile isspace ++ t.dropWhile isspace :=
    (List.takeWhile_append_dropWhile _ _).symm
  have hwsp : ∀ c ∈ t.takeWhile isspace, isspace c = true := fun c hc =>
    List.mem_takeWhile_imp hc
  generalize hs : t.dropWhile isspace = s at hws
  -- the sign
  have hsg : ∃ sg s1, s = sg ++ s1 ∧ (sg = [] ∨ sg = [43] ∨ sg = [45])
      ∧ s1 = (if s.head? == some 45 || s.head? == some 43 then s.tail else s) := by
    cases s with
    | nil => exact ⟨[], [], rfl, Or.inl rfl, by simp⟩
    | cons c cs =>
      by_cases h45 : c = 45
      · exact ⟨[45], cs, by simp [h45], Or.inr (Or.inr rfl), by simp [h45]⟩
      · by_cases h43 : c = 43
        · exact ⟨[43], cs, by simp [h43], Or.inr (Or.inl rfl), by simp [h43]⟩
        · exact ⟨[], c :: cs, rfl, Or.inl rfl, by simp [h45, h43]⟩
  obtain ⟨sg, s1, hs1, hsgc, hs1def⟩ := hsg
  unfold strtoul
  simp only [hs, ← hs1def]
  cases hh : s1.head? with
  | none => left; rfl
  | some c =>
    simp only []
    by_cases hc : isdigit c = true
    · right
      obtain ⟨ds, h1, h2, h3⟩ := strtoul_digits_split s1 0
      have hne : ds ≠ [] := by
        intro hnil
        rw [hnil, List.nil_append] at h1
        rw [← h1] at h3
        have := h3 c hh
        rw [hc] at this
        exact Bool.noConfusion this
      have hend : (if (strtoul_digits s1 0).1 > ULONG_MAX
            then (ULONG_MAX, (strtoul_digits s1 0).2)
            else if (s.head? == some 45) = true
              then ((2 ^ 64 - (strtoul_digits s1 0).1) % 2 ^ 64, (strtoul_digits s1 0).2)
              else ((strtoul_digits s1 0).1, (strtoul_digits s1 0).2)).2
          = (strtoul_digits s1 0).2 := by
        split
        · rfl
        · split <;> rfl
      simp only [hc, if_true]
      rw [hend]
      refine ⟨t.takeWhile isspace, sg, ds, ?_, hwsp, hsgc, hne, h2⟩
      rw [List.append_assoc, List.append_assoc, ← h1, ← hs1]
      exact hws
    · left
      have hc2 : isdigit c = false := by simpa using hc
      simp only [hc2, Bool.false_eq_true, if_false]

theorem dropWhile_append_of_all (p : Nat → Bool) (ws l : List Nat)
    (hws : ∀ c ∈ ws, p c = true) (hl : ∀ c, l.head? = some c → p c = false) :
    (ws ++ l).dropWhile p = l := by
  induction ws with
  | nil =>
    cases l with
    | nil => rfl
    | cons c cs => simp [List.dropWhile, hl c rfl]
  | cons w ws ih =>
    simp only [List.cons_append, List.dropWhile, hws w (List.mem_cons_self _ _)]
    exact ih (fun c hc => hws c (List.mem_cons_of_mem _ hc))

theorem isdigit_bounds (c : Nat) (h : isdigit c = true) : 48 ≤ c ∧ c ≤ 57 := by
  simpa [isdigit] using h

theorem isspace_of_isdigit (c : Nat) (h : isdigit c = true) : isspace c = false := by
  have := isdigit_bounds c h
  simp only [isspace, Bool.or_eq_false_iff, beq_eq_false_iff_ne, ne_eq, Bool.and_eq_false_iff,
    decide_eq_false_iff_not]
  omega

/-- What `strtoul` returns on white space, an optional sign, at least one
digit and a text that does not go on with a digit. -/
theorem strtoul_of_number (ws sg ds rest : List Nat)
    (hws : ∀ c ∈ ws, isspace c = true) (hsg : sg = [] ∨ sg = [43] ∨ sg = [45])
    (hne : ds ≠ []) (hds : ∀ c ∈ ds, isdigit c = true)
    (hrest : ∀ c, rest.head? = some c → isdigit c = false) :
    strtoul (ws ++ sg ++ ds ++ rest)
      = (if decimal_value ds > ULONG_MAX then ULONG_MAX
         else if sg = [45] then (2 ^ 64 - decimal_value ds) % 2 ^ 64
         else decimal_value ds, rest) := by
  obtain ⟨d, ds', rfl⟩ := List.exists_cons_of_ne_nil hne
  have hd : isdigit d = true := hds d (List.mem_cons_self _ _)
  have hdb := isdigit_bounds d hd
  have hdrop : (ws ++ sg ++ (d :: ds') ++ rest).dropWhile isspace
      = sg ++ (d :: ds') ++ rest := by
    rw [List.append_assoc, List.append_assoc]
    rw [dropWhile_append_of_all isspace ws _ hws, List.append_assoc]
    intro c hc
    rcases hsg with h | h | h
    · subst h
      simp only [List.nil_append, List.cons_append, List.head?_cons, Option.some.injEq] at hc
      rw [← hc]; exact isspace_of_isdigit d hd
    · subst h
      simp only [List.cons_append, List.head?_cons, Option.some.injEq] at hc
      rw [← hc]; decide
    · subst h
      simp only [List.cons_append, List.head?_cons, Option.some.injEq] at hc
      rw [← hc]; decide
  have hdig := strtoul_digits_append (d :: ds') rest 0 hds hrest
  have hs1 : (if ((sg ++ (d :: ds') ++ rest).head? == some 45
        || (sg ++ (d :: ds') ++ rest).head? == some 43) = true
      then (sg ++ (d :: ds') ++ rest).tail else sg ++ (d :: ds') ++ rest)
      = (d :: ds') ++ rest := by
    rcases hsg with h | h | h
    · subst h
      have h45 : d ≠ 45 := by omega
      have h43 : d ≠ 43 := by omega
      simp [h45, h43]
    · subst h; simp
    · subst h; simp
  have hneg : ((sg ++ (d :: ds') ++ rest).head? == some 45) = decide (sg = [45]) := by
    rcases hsg with h | h | h
    · subst h
      have h45 : d ≠ 45 := by omega
      simp [h45]
    · subst h; simp
    · subst h; simp
  unfold strtoul
  simp only [hdrop]
  simp only [hs1]
  simp only [hneg, List.cons_append, List.head?_cons, hd, if_true]
  rw [← List.cons_append, hdig]
  simp only [decimal_value, decide_eq_true_eq]
  split
  · rfl
  · split <;> rfl

theorem strtoul_end_dollar_iff (t : List Nat) :
    (strtoul t).2.head? = some ascii_dollar ↔ rounds_text_ok t := by
  constructor
  · intro h
    rcases strtoul_endp t with he | ⟨ws, sg, ds, ht, hws, hsg, hne, hds⟩
    · left; rw [he] at h; exact h
    · right
      obtain ⟨rest, hrest⟩ : ∃ rest, (strtoul t).2 = ascii_dollar :: rest := by
        cases hq : (strtoul t).2 with
        | nil => rw [hq] at h; simp at h
        | cons c cs =>
          rw [hq] at h
          simp only [List.head?_cons, Option.some.injEq] at h
          exact ⟨cs, by rw [h]⟩
      exact ⟨ws, sg, ds, rest, by rw [← hrest]; exact ht, hws, hsg, hne, hds⟩
  · intro h
    rcases h with h | ⟨ws, sg, ds, rest, ht, hws, hsg, hne, hds⟩
    · cases t with
      | nil => simp at h
      | cons c cs =>
        simp only [List.head?_cons, Option.some.injEq] at h
        subst h
        have : strtoul (ascii_dollar :: cs) = (0, ascii_dollar :: cs) := by
          simp [strtoul, List.dropWhile, isspace, isdigit, ascii_dollar]
        rw [this]; rfl
    · rw [ht, strtoul_of_number ws sg ds _ hws hsg hne hds]
      · rfl
      · intro c hc
        simp only [List.head?_cons, Option.some.injEq] at hc
        rw [← hc]; decide

/-! ## Magic bytes and the rounds option -/

theorem magic_bytes_zero : magic_bytes 0 = [36, 53, 36] := by decide

theorem magic_bytes_one : magic_bytes 1 = [36, 54, 36] := by decide

theorem rounds_prefix_eq : rounds_prefix = [114, 111, 117, 110, 100, 115, 61] := by decide

theorem check_magic_five (rest : List Nat) (h : rest.take 3 ≠ magic_bytes 1) :
    check_magic (magic_bytes 0 ++ rest) = (.PGCRYPTO_SHA256CRYPT, rest) := by
  rw [magic_bytes_one] at h
  simp [check_magic, strncmp, magic_bytes_zero, magic_bytes_one, h]

theorem check_magic_five_six (rest : List Nat) :
    check_magic (magic_bytes 0 ++ magic_bytes 1 ++ rest) = (.PGCRYPTO_SHA512CRYPT, rest) := by
  simp [check_magic, strncmp, magic_bytes_zero, magic_bytes_one]

theorem check_magic_six (rest : List Nat) :
    check_magic (magic_bytes 1 ++ rest) = (.PGCRYPTO_SHA512CRYPT, rest) := by
  simp [check_magic, strncmp, magic_bytes_zero, magic_bytes_one]

theorem check_magic_unknown (salt : List Nat) (h5 : salt.take 3 ≠ magic_bytes 0)
    (h6 : salt.take 3 ≠ magic_bytes 1) :
    check_magic salt = (.PGCRYPTO_SHA_UNKOWN, salt) := by
  rw [magic_bytes_zero] at h5
  rw [magic_bytes_one] at h6
  simp [check_magic, strncmp, magic_bytes_zero, magic_bytes_one, h5, h6]

theorem clamp_rounds_eq (srounds : Nat) :
    (if srounds > PX_SHACRYPT_ROUNDS_MAX then PX_SHACRYPT_ROUNDS_MAX
      else if srounds < PX_SHACRYPT_ROUNDS_MIN then PX_SHACRYPT_ROUNDS_MIN
      else srounds % 2 ^ 32) = clamp_rounds srounds := by
  simp only [clamp_rounds, PX_SHACRYPT_ROUNDS_MAX, PX_SHACRYPT_ROUNDS_MIN]
  split
  · omega
  · split
    · omega
    · rw [Nat.mod_eq_of_lt (by omega)]; omega

theorem parse_rounds_with_option (t : List Nat) :
    parse_rounds ( rounds_prefix ++ t)
      = if (strtoul t).2.head? = some ascii_dollar
        then .ok (clamp_rounds (strtoul t).1, 1, (strtoul t).2.drop 1)
        else .error .invalid_rounds_option := by
  have h : strncmp ( rounds_prefix ++ t) rounds_prefix rounds_prefix.length = 0 := by
    simp [strncmp]
  simp only [parse_rounds, h, if_true, List.drop_left, clamp_rounds_eq]

theorem parse_rounds_none (dec : List Nat) (h : dec.take 7 ≠ rounds_prefix) :
    parse_rounds dec = .ok (PX_SHACRYPT_ROUNDS_DEFAULT, 0, dec) := by
  have h' : ¬ strncmp dec rounds_prefix rounds_prefix.length = 0 := by
    simp only [strncmp, rounds_prefix_eq, List.length_cons, List.length_nil] at h ⊢
    simpa using h
  simp only [parse_rounds, h', if_false]

theorem parse_rounds_error (dec : List Nat) (e : PxError) (h : parse_rounds dec = .error e) :
    e = .invalid_rounds_option := by
  unfold parse_rounds at h
  split at h
  · simp only [] at h
    split at h
    · simp at h
    · simpa using h.symm
  · simp at h

theorem prepare_rounds_error_iff (f : String → Option (List Nat → List Nat))
    (pw salt : List Nat) (dstlen : Nat) :
    px_crypt_shacrypt_prepare f (some pw) (some salt) dstlen = .error .invalid_rounds_option
      ↔ PX_SHACRYPT_BUF_LEN ≤ dstlen ∧ 3 ≤ salt.length
          ∧ (salt.getD 0 0 = ascii_dollar ∨ salt.getD 2 0 = ascii_dollar)
          ∧ parse_rounds (check_magic salt).2 = .error .invalid_rounds_option := by
  unfold px_crypt_shacrypt_prepare
  simp only []
  split
  · simp; omega
  split
  · simp; omega
  split
  · rename_i hfmt
    constructor
    · intro h; simp at h
    · intro h
      rcases h.2.2.1 with h0 | h2
      · exact absurd h0 hfmt.1
      · exact absurd h2 hfmt.2
  rename_i hdst hlen hfmt
  have hfmt' : salt.getD 0 0 = ascii_dollar ∨ salt.getD 2 0 = ascii_dollar := by
    by_contra hcon; push_neg at hcon; exact hfmt hcon
  split
  · rename_i e hpr
    have := parse_rounds_error _ _ hpr
    subst this
    simp only [true_iff]
    exact ⟨by omega, by omega, hfmt', hpr⟩
  rename_i r rc dec hpr
  have hno : ¬ parse_rounds (check_magic salt).2 = .error .invalid_rounds_option := by
    rw [hpr]; simp
  split
  · rename_i e hcd
    have he : e ≠ .invalid_rounds_option := by
      intro he; subst he
      unfold choose_digest at hcd
      split at hcd
      · split at hcd
        · simp at hcd
        · split at hcd <;> simp at hcd
      · split at hcd
        · simp at hcd
        · split at hcd <;> simp at hcd
      · simp at hcd
    constructor
    · intro h; simp only [Except.error.injEq] at h; exact absurd h he
    · intro h; exact absurd h.2.2.2 hno
  split
  · constructor
    · intro h; simp at h
    · intro h; exact absurd h.2.2.2 hno
  · constructor
    · intro h; simp at h
    · intro h; exact absurd h.2.2.2 hno

theorem ret_error_iff (f : String → Option (List Nat → List Nat))
    (pw salt : List Nat) (dstlen : Nat) (e : PxError) :
    (px_crypt_shacrypt f (some pw) (some salt) dstlen).ret = .error e
      ↔ px_crypt_shacrypt_prepare f (some pw) (some salt) dstlen = .error e := by
  cases hp : px_crypt_shacrypt_prepare f (some pw) (some salt) dstlen with
  | error e' => rw [shacrypt_of_prepare_error _ _ _ _ _ hp]; simp
  | ok l => rw [shacrypt_of_prepare_ok _ _ _ _ _ hp]; simp

/-! ## Unknown identifiers and the format check (C9, C7) -/

theorem prepare_unknown (f : String → Option (List Nat → List Nat)) (pw salt : List Nat)
    (dstlen : Nat) (hdst : PX_SHACRYPT_BUF_LEN ≤ dstlen) (hlen : 3 ≤ salt.length)
    (hfmt : salt.getD 0 0 = ascii_dollar ∨ salt.getD 2 0 = ascii_dollar)
    (h5 : salt.take 3 ≠ magic_bytes 0) (h6 : salt.take 3 ≠ magic_bytes 1) :
    px_crypt_shacrypt_prepare f (some pw) (some salt) dstlen
      = .error (.unknown_crypt_identifier (salt.getD 1 0)) := by
  have hm := check_magic_unknown salt h5 h6
  have hpr : parse_rounds salt = .ok (PX_SHACRYPT_ROUNDS_DEFAULT, 0, salt) := by
    apply parse_rounds_none
    intro hcon
    have e0 : (salt.take 7).getD 0 0 = 114 := by rw [hcon]; rfl
    have e2 : (salt.take 7).getD 2 0 = 117 := by rw [hcon]; rfl
    match salt, hlen with
    | a :: b :: c :: rest, _ =>
      simp only [List.take_succ_cons, List.getD_cons_zero, List.getD_cons_succ] at e0 e2
      simp only [List.getD_cons_zero, List.getD_cons_succ, ascii_dollar] at hfmt
      omega
  have h1 : ¬ dstlen < PX_SHACRYPT_BUF_LEN := by omega
  have h2 : ¬ salt.length < 3 := by omega
  have h3 : ¬ (salt.getD 0 0 ≠ ascii_dollar ∧ salt.getD 2 0 ≠ ascii_dollar) := by
    rintro ⟨a, b⟩; rcases hfmt with h | h
    · exact a h
    · exact b h
  simp only [px_crypt_shacrypt_prepare, h1, h2, h3, if_false, hm, hpr, choose_digest]

/-- C9. A salt of at least three bytes whose first and third byte are dollar
signs and whose second byte is neither `5` (53) nor `6` (54) makes
`px_crypt_shacrypt`, for any password and any `dstlen` of at least
`PX_SHACRYPT_BUF_LEN`, raise "unknown crypt identifier" with the byte `salt[1]`,
and no `px_md_update` call has been made (nor any round of the main loop). -/
theorem unknown_identifier_rejected (f : String → Option (List Nat → List Nat))
    (pw salt : List Nat) (dstlen : Nat)
    (hdst : PX_SHACRYPT_BUF_LEN ≤ dstlen) (hlen : 3 ≤ salt.length)
    (h0 : salt.getD 0 0 = ascii_dollar) (h2 : salt.getD 2 0 = ascii_dollar)
    (h5 : salt.getD 1 0 ≠ 53) (h6 : salt.getD 1 0 ≠ 54) :
    px_crypt_shacrypt f (some pw) (some salt) dstlen
      = ⟨.error (.unknown_crypt_identifier (salt.getD 1 0)), 0, 0⟩ := by
  apply shacrypt_of_prepare_error
  apply prepare_unknown f pw salt dstlen hdst hlen (Or.inl h0)
  · intro hcon
    have e1 : (salt.take 3).getD 1 0 = 53 := by rw [hcon]; rfl
    match salt, hlen with
    | a :: b :: c :: rest, _ =>
      simp only [List.take_succ_cons, List.getD_cons_zero, List.getD_cons_succ] at e1 h5
      exact h5 e1
  · intro hcon
    have e1 : (salt.take 3).getD 1 0 = 54 := by rw [hcon]; rfl
    match salt, hlen with
    | a :: b :: c :: rest, _ =>
      simp only [List.take_succ_cons, List.getD_cons_zero, List.getD_cons_succ] at e1 h6
      exact h6 e1

/-- C9, at the password "x" and the salt "$7$anything": the error carries the
byte `7` (55). -/
theorem unknown_identifier_rejected_witness :
    (PX_SHACRYPT_BUF_LEN ≤ 124 ∧ 3 ≤ (str "$7$anything").length
      ∧ (str "$7$anything").getD 0 0 = ascii_dollar
      ∧ (str "$7$anything").getD 2 0 = ascii_dollar
      ∧ (str "$7$anything").getD 1 0 ≠ 53 ∧ (str "$7$anything").getD 1 0 ≠ 54)
    ∧ px_crypt_shacrypt toy_digest (some (str "x")) (some (str "$7$anything")) 124
      = ⟨.error (.unknown_crypt_identifier 55), 0, 0⟩ :=
  ⟨by decide,
   unknown_identifier_rejected toy_digest (str "x") (str "$7$anything") 124
    (by decide) (by decide) (by decide) (by decide) (by decide) (by decide)⟩

/-- C7. At the salt "a5$salt", whose first byte is not a dollar sign, and at
the salt "$5xsalt", whose third byte is not one, the code does not raise
"invalid format of salt": it goes on to the magic bytes and raises "unknown
crypt identifier" with the byte `5` (53). -/
theorem lone_separator_passes_format_check :
    px_crypt_shacrypt toy_digest (some (str "x")) (some (str "a5$salt")) 124
      = ⟨.error (.unknown_crypt_identifier 53), 0, 0⟩
    ∧ px_crypt_shacrypt toy_digest (some (str "x")) (some (str "$5xsalt")) 124
      = ⟨.error (.unknown_crypt_identifier 53), 0, 0⟩ := by
  decide

/-! ## The rounds option (C8) -/

/-- With exactly one of the two separators in place the format check of lines
100-104 lets the salt pass, and the error is "unknown crypt identifier". -/
theorem one_separator_unknown_identifier (f : String → Option (List Nat → List Nat))
    (pw salt : List Nat) (dstlen : Nat)
    (hdst : PX_SHACRYPT_BUF_LEN ≤ dstlen) (hlen : 3 ≤ salt.length)
    (h : (salt.getD 0 0 = ascii_dollar ∧ salt.getD 2 0 ≠ ascii_dollar)
      ∨ (salt.getD 0 0 ≠ ascii_dollar ∧ salt.getD 2 0 = ascii_dollar)) :
    px_crypt_shacrypt f (some pw) (some salt) dstlen
      = ⟨.error (.unknown_crypt_identifier (salt.getD 1 0)), 0, 0⟩ := by
  apply shacrypt_of_prepare_error
  have hfmt : salt.getD 0 0 = ascii_dollar ∨ salt.getD 2 0 = ascii_dollar := by
    rcases h with h | h
    · exact Or.inl h.1
    · exact Or.inr h.2
  have hbad : salt.getD 0 0 ≠ 36 ∨ salt.getD 2 0 ≠ 36 := by
    rcases h with h | h
    · exact Or.inr h.2
    · exact Or.inl h.1
  apply prepare_unknown f pw salt dstlen hdst hlen hfmt
  · intro hcon
    have e0 : (salt.take 3).getD 0 0 = 36 := by rw [hcon]; rfl
    have e2 : (salt.take 3).getD 2 0 = 36 := by rw [hcon]; rfl
    match salt, hlen with
    | a :: b :: c :: rest, _ =>
      simp only [List.take_succ_cons, List.getD_cons_zero, List.getD_cons_succ] at e0 e2 hbad
      omega
  · intro hcon
    have e0 : (salt.take 3).getD 0 0 = 36 := by rw [hcon]; rfl
    have e2 : (salt.take 3).getD 2 0 = 36 := by rw [hcon]; rfl
    match salt, hlen with
    | a :: b :: c :: rest, _ =>
      simp only [List.take_succ_cons, List.getD_cons_zero, List.getD_cons_succ] at e0 e2 hbad
      omega

/-- With neither separator in place the error is "invalid format of salt". -/
theorem no_separator_invalid_format (f : String → Option (List Nat → List Nat))
    (pw salt : List Nat) (dstlen : Nat)
    (hdst : PX_SHACRYPT_BUF_LEN ≤ dstlen) (hlen : 3 ≤ salt.length)
    (h0 : salt.getD 0 0 ≠ ascii_dollar) (h2 : salt.getD 2 0 ≠ ascii_dollar) :
    px_crypt_shacrypt f (some pw) (some salt) dstlen = ⟨.error .invalid_salt_format, 0, 0⟩ := by
  apply shacrypt_of_prepare_error
  have h1 : ¬ dstlen < PX_SHACRYPT_BUF_LEN := by omega
  have h3 : ¬ salt.length < 3 := by omega
  simp only [px_crypt_shacrypt_prepare, h1, h3, if_false, h0, h2, ne_eq, not_false_eq_true,
    and_self, if_true]

theorem check_magic_rounds (magic t : List Nat)
    (hm : magic = magic_bytes 0 ∨ magic = magic_bytes 1) :
    ∃ type, type ≠ .PGCRYPTO_SHA_UNKOWN ∧ type_magic type = magic
      ∧ check_magic (magic ++ rounds_prefix ++ t) = (type, rounds_prefix ++ t) := by
  rcases hm with h | h
  · refine ⟨.PGCRYPTO_SHA256CRYPT, by simp, h.symm, ?_⟩
    rw [h, List.append_assoc]
    apply check_magic_five
    rw [rounds_prefix_eq, magic_bytes_one]
    simp
  · refine ⟨.PGCRYPTO_SHA512CRYPT, by simp, h.symm, ?_⟩
    rw [h, List.append_assoc]
    exact check_magic_six _

theorem magic_salt_wellformed (magic rest : List Nat)
    (hm : magic = magic_bytes 0 ∨ magic = magic_bytes 1) :
    3 ≤ (magic ++ rest).length ∧ (magic ++ rest).getD 0 0 = ascii_dollar := by
  rcases hm with h | h
  · subst h; rw [magic_bytes_zero]; simp [ascii_dollar]
  · subst h; rw [magic_bytes_one]; simp [ascii_dollar]

theorem rounds_text_ok_dollar (t : List Nat) (h : rounds_text_ok t) : ascii_dollar ∈ t := by
  rcases h with h | ⟨ws, sg, ds, rest, ht, _⟩
  · cases t with
    | nil => simp at h
    | cons c cs =>
      simp only [List.head?_cons, Option.some.injEq] at h
      rw [h]; exact List.mem_cons_self _ _
  · rw [ht]; simp

/-- C8, as the code has it. For a salt `magic ++ "rounds=" ++ t` with `magic`
one of "$5$", "$6$", any password and a `dstlen` of at least
`PX_SHACRYPT_BUF_LEN`, `px_crypt_shacrypt` raises "could not parse salt options"
exactly when `t` is not a text that `strtoul` reads up to a dollar sign: `t`
neither begins with a dollar sign nor consists of optional white space, an
optional sign, at least one decimal digit and then a dollar sign.  When it is
raised, no `px_md_update` call has been made; it is raised in particular when
`t` has no dollar sign. -/
theorem rounds_option_rejected_iff (f : String → Option (List Nat → List Nat))
    (pw magic t : List Nat) (dstlen : Nat)
    (hm : magic = magic_bytes 0 ∨ magic = magic_bytes 1)
    (hdst : PX_SHACRYPT_BUF_LEN ≤ dstlen) :
    ((px_crypt_shacrypt f (some pw) (some (magic ++ rounds_prefix ++ t)) dstlen).ret
        = .error .invalid_rounds_option ↔ ¬ rounds_text_ok t)
    ∧ (¬ rounds_text_ok t →
        px_crypt_shacrypt f (some pw) (some (magic ++ rounds_prefix ++ t)) dstlen
          = ⟨.error .invalid_rounds_option, 0, 0⟩)
    ∧ (ascii_dollar ∉ t →
        px_crypt_shacrypt f (some pw) (some (magic ++ rounds_prefix ++ t)) dstlen
          = ⟨.error .invalid_rounds_option, 0, 0⟩) := by
  obtain ⟨type, _, _, hcm⟩ := check_magic_rounds magic t hm
  have hwf := magic_salt_wellformed magic ( rounds_prefix ++ t) hm
  rw [← List.append_assoc] at hwf
  have key : px_crypt_shacrypt_prepare f (some pw) (some (magic ++ rounds_prefix ++ t)) dstlen
      = .error .invalid_rounds_option ↔ ¬ rounds_text_ok t := by
    rw [prepare_rounds_error_iff, hcm, parse_rounds_with_option, ← strtoul_end_dollar_iff]
    constructor
    · rintro ⟨_, _, _, h⟩ hok
      rw [if_pos hok] at h
      simp at h
    · intro h
      exact ⟨hdst, hwf.1, Or.inl hwf.2, by rw [if_neg h]⟩
  have hbad : ¬ rounds_text_ok t →
      px_crypt_shacrypt f (some pw) (some (magic ++ rounds_prefix ++ t)) dstlen
        = ⟨.error .invalid_rounds_option, 0, 0⟩ :=
    fun h => shacrypt_of_prepare_error _ _ _ _ _ (key.mpr h)
  exact ⟨by rw [ret_error_iff]; exact key, hbad,
    fun h => hbad (fun hok => h (rounds_text_ok_dollar t hok))⟩

/-- C8, at the salt "$5$rounds=12x$salt", where the digits are followed by `x`:
the call raises "could not parse salt options". -/
theorem rounds_option_rejected_iff_witness :
    ((magic_bytes 0 = magic_bytes 0 ∨ magic_bytes 0 = magic_bytes 1)
      ∧ PX_SHACRYPT_BUF_LEN ≤ 124)
    ∧ ¬ rounds_text_ok (str "12x$salt")
    ∧ px_crypt_shacrypt toy_digest (some (str "x"))
          (some (magic_bytes 0 ++ rounds_prefix ++ str "12x$salt")) 124
        = ⟨.error .invalid_rounds_option, 0, 0⟩ :=
  have hbad : ¬ rounds_text_ok (str "12x$salt") :=
    (strtoul_end_dollar_iff _).not.mp (by decide)
  ⟨⟨Or.inl rfl, by decide⟩, hbad,
   (rounds_option_rejected_iff toy_digest (str "x") (magic_bytes 0) (str "12x$salt") 124
      (Or.inl rfl) (by decide)).2.1 hbad⟩

/-- C8 as stated fails: the salts "$5$rounds=$salt", "$5$rounds=-1$salt" and
"$5$rounds= 5000$salt" are not rejected: the call returns a result, computed
with 1000, 999999999 and 5000 rounds, that begins with "$5$rounds=1000$salt",
"$5$rounds=999999999$salt" and "$5$rounds=5000$salt". -/
theorem malformed_rounds_accepted :
    ((px_crypt_shacrypt toy_digest (some (str "x")) (some (str "$5$rounds=$salt")) 124).ret
        ≠ .error .invalid_rounds_option
      ∧ (px_crypt_shacrypt toy_digest (some (str "x"))
          (some (str "$5$rounds=$salt")) 124).ret.toBool = true
      ∧ (px_crypt_shacrypt_prepare toy_digest (some (str "x"))
          (some (str "$5$rounds=$salt")) 124).map (fun l => (l.rounds, l.out_buf))
        = .ok (1000, str "$5$rounds=1000$salt"))
    ∧ ((px_crypt_shacrypt toy_digest (some (str "x")) (some (str "$5$rounds=-1$salt")) 124).ret
        ≠ .error .invalid_rounds_option
      ∧ (px_crypt_shacrypt toy_digest (some (str "x"))
          (some (str "$5$rounds=-1$salt")) 124).ret.toBool = true
      ∧ (px_crypt_shacrypt_prepare toy_digest (some (str "x"))
          (some (str "$5$rounds=-1$salt")) 124).map (fun l => (l.rounds, l.out_buf))
        = .ok (999999999, str "$5$rounds=999999999$salt"))
    ∧ ((px_crypt_shacrypt toy_digest (some (str "x")) (some (str "$5$rounds= 5000$salt")) 124).ret
        ≠ .error .invalid_rounds_option
      ∧ (px_crypt_shacrypt toy_digest (some (str "x"))
          (some (str "$5$rounds= 5000$salt")) 124).ret.toBool = true
      ∧ (px_crypt_shacrypt_prepare toy_digest (some (str "x"))
          (some (str "$5$rounds= 5000$salt")) 124).map (fun l => (l.rounds, l.out_buf))
        = .ok (5000, str "$5$rounds=5000$salt")) := by
  decide

/-! ## Clamping of the rounds (C4) -/

theorem strtoul_digits_dollar (D rest : List Nat) (hne : D ≠ [])
    (hD : ∀ c ∈ D, isdigit c = true) :
    strtoul (D ++ ascii_dollar :: rest)
      = (if decimal_value D > ULONG_MAX then ULONG_MAX else decimal_value D,
         ascii_dollar :: rest) := by
  have h := strtoul_of_number [] [] D (ascii_dollar :: rest) (by simp) (Or.inl rfl) hne hD
    (by intro c hc
        simp only [List.head?_cons, Option.some.injEq] at hc
        rw [← hc]; decide)
  simpa using h

theorem clamp_rounds_saturated (v : Nat) :
    clamp_rounds (if v > ULONG_MAX then ULONG_MAX else v) = clamp_rounds v := by
  simp only [clamp_rounds, ULONG_MAX, PX_SHACRYPT_ROUNDS_MIN, PX_SHACRYPT_ROUNDS_MAX]
  split <;> omega

/-- C4. For a salt `magic ++ "rounds=" ++ D ++ "$" ++ rest`, with `magic` one of
"$5$", "$6$" and `D` a non-empty string of decimal digits of any length, a call
of `px_crypt_shacrypt` that returns a result has run its main loop exactly
`min (max R 1000) 999999999` times, `R` the number `D` denotes, and the result
is `magic`, `rounds=`, the decimal digits of that clamped number, a dollar sign,
`rest`, a dollar sign and the digest section. -/
theorem rounds_clamped (f : String → Option (List Nat → List Nat))
    (pw magic D rest : List Nat) (dstlen : Nat) (enc : List Nat)
    (hm : magic = magic_bytes 0 ∨ magic = magic_bytes 1)
    (hne : D ≠ []) (hD : ∀ c ∈ D, isdigit c = true)
    (h : (px_crypt_shacrypt f (some pw)
            (some (magic ++ rounds_prefix ++ D ++ ascii_dollar :: rest)) dstlen).ret
          = .ok enc) :
    (px_crypt_shacrypt f (some pw)
        (some (magic ++ rounds_prefix ++ D ++ ascii_dollar :: rest)) dstlen).rounds_run
      = min (max (decimal_value D) 1000) 999999999
    ∧ ∃ sec, enc = magic ++ rounds_prefix
        ++ utoa (min (max (decimal_value D) 1000) 999999999)
        ++ ascii_dollar :: rest ++ ascii_dollar :: sec := by
  have hs : magic ++ rounds_prefix ++ D ++ ascii_dollar :: rest
      = magic ++ rounds_prefix ++ (D ++ ascii_dollar :: rest) := by simp
  rw [hs] at h ⊢
  obtain ⟨l, hp, henc⟩ := shacrypt_ok_inv _ _ _ _ _ h
  obtain ⟨_, _, _, hty, _, hpr, _, _, _, _, hout, _⟩ := prepare_ok _ _ _ _ _ hp
  obtain ⟨type, _, htm, hcm⟩ := check_magic_rounds magic (D ++ ascii_dollar :: rest) hm
  rw [hcm] at hty hpr
  simp only at hty hpr
  rw [parse_rounds_with_option, strtoul_digits_dollar D rest hne hD] at hpr
  simp only [List.head?_cons, if_true, Except.ok.injEq, Prod.mk.injEq, List.drop_succ_cons,
    List.drop_zero, clamp_rounds_saturated] at hpr
  obtain ⟨hr, hrc, hdec⟩ := hpr
  have hclamp : clamp_rounds (decimal_value D) = min (max (decimal_value D) 1000) 999999999 :=
    rfl
  rw [hclamp] at hr
  constructor
  · rw [shacrypt_of_prepare_ok _ _ _ _ _ hp]
    exact hr.symm
  · refine ⟨digest_section l.type (px_crypt_shacrypt_digest l pw).sha_buf, ?_⟩
    rw [henc, hout, hty, htm, ← hr, ← hrc, ← hdec]
    simp [rounds_clause, List.append_assoc]

/-- C4, at the password "x" and the salt "$5$rounds=77$short": the call returns
a result, 1000 rounds are run and `rounds=1000` is written. -/
theorem rounds_clamped_witness :
    ∃ sec,
      ((magic_bytes 0 = magic_bytes 0 ∨ magic_bytes 0 = magic_bytes 1)
        ∧ str "77" ≠ [] ∧ (∀ c ∈ str "77", isdigit c = true)
        ∧ (px_crypt_shacrypt toy_digest (some (str "x"))
              (some (magic_bytes 0 ++ rounds_prefix ++ str "77" ++ ascii_dollar :: str "short"))
              124).ret
            = .ok (str "$5$rounds=1000$short" ++ ascii_dollar :: sec))
      ∧ (px_crypt_shacrypt toy_digest (some (str "x"))
          (some (magic_bytes 0 ++ rounds_prefix ++ str "77" ++ ascii_dollar :: str "short"))
          124).rounds_run = 1000
      ∧ ∃ sec', str "$5$rounds=1000$short" ++ ascii_dollar :: sec
          = magic_bytes 0 ++ rounds_prefix ++ utoa 1000
            ++ ascii_dollar :: str "short" ++ ascii_dollar :: sec' := by
  obtain ⟨sec, h, _, _⟩ := shacrypt_ret_shape toy_digest (str "x")
    (magic_bytes 0 ++ rounds_prefix ++ str "77" ++ ascii_dollar :: str "short") 124
    .PGCRYPTO_SHA256CRYPT (str "$5$rounds=1000$short") (by decide)
  exact ⟨sec, ⟨Or.inl rfl, by decide, by decide, h⟩,
    rounds_clamped toy_digest (str "x") (magic_bytes 0) (str "77") (str "short") 124
      (str "$5$rounds=1000$short" ++ ascii_dollar :: sec) (Or.inl rfl) (by decide)
      (by decide) h⟩

/-! ## The result passed back as the salt (C1) -/

theorem digitChar_isdigit (d : Nat) (h : d < 10) : isdigit (Nat.digitChar d).toNat = true := by
  interval_cases d <;> decide

theorem toDigitsCore_isdigit (fuel n : Nat) (ds : List Char)
    (hds : ∀ c ∈ ds, isdigit c.toNat = true) :
    ∀ c ∈ Nat.toDigitsCore 10 fuel n ds, isdigit c.toNat = true := by
  induction fuel generalizing n ds with
  | zero => simpa [Nat.toDigitsCore] using hds
  | succ fuel ih =>
    have hd : isdigit (Nat.digitChar (n % 10)).toNat = true :=
      digitChar_isdigit _ (Nat.mod_lt _ (by decide))
    have hcons : ∀ c ∈ Nat.digitChar (n % 10) :: ds, isdigit c.toNat = true := by
      intro c hc
      rcases List.mem_cons.mp hc with h | h
      · rw [h]; exact hd
      · exact hds c h
    simp only [Nat.toDigitsCore]
    split
    · exact hcons
    · exact ih _ _ hcons

theorem toDigitsCore_ne_nil (fuel n : Nat) (ds : List Char) (h : 0 < fuel ∨ ds ≠ []) :
    Nat.toDigitsCore 10 fuel n ds ≠ [] := by
  induction fuel generalizing n ds with
  | zero =>
    rcases h with h | h
    · omega
    · simpa [Nat.toDigitsCore] using h
  | succ fuel ih =>
    simp only [Nat.toDigitsCore]
    split
    · simp
    · exact ih _ _ (Or.inr (by simp))

theorem utoa_isdigit (n : Nat) : ∀ c ∈ utoa n, isdigit c = true := by
  intro c hc
  simp only [utoa, Nat.toDigits, List.mem_map] at hc
  obtain ⟨ch, hch, rfl⟩ := hc
  exact toDigitsCore_isdigit _ _ [] (by simp) ch hch

theorem utoa_ne_nil (n : Nat) : utoa n ≠ [] := by
  simp only [utoa, Nat.toDigits, ne_eq, List.map_eq_nil_iff]
  exact toDigitsCore_ne_nil _ _ [] (Or.inl (by omega))

theorem parse_rounds_ok_cases (d : List Nat) (r rc : Nat) (dec : List Nat)
    (h : parse_rounds d = .ok (r, rc, dec)) :
    (rc = 0 ∧ dec = d ∧ d.take 7 ≠ rounds_prefix) ∨ rc = 1 := by
  unfold parse_rounds at h
  split at h
  · simp only [] at h
    split at h
    · simp only [Except.ok.injEq, Prod.mk.injEq] at h
      exact Or.inr h.2.1.symm
    · simp at h
  · rename_i hs
    simp only [Except.ok.injEq, Prod.mk.injEq] at h
    refine Or.inl ⟨h.2.1.symm, h.2.2.symm, ?_⟩
    intro hcon
    apply hs
    simp only [strncmp, rounds_prefix_eq, List.length_cons, List.length_nil] at hcon ⊢
    simp [hcon]

theorem takeWhile_take_append_dollar (a b : List Nat) (n : Nat) :
    (((a ++ ascii_dollar :: b).take n).takeWhile (fun c => c != ascii_dollar)).length
      ≤ a.length := by
  induction a generalizing n with
  | nil =>
    cases n with
    | zero => simp
    | succ n => simp [List.takeWhile]
  | cons x xs ih =>
    cases n with
    | zero => simp
    | succ n =>
      simp only [List.cons_append, List.take_succ_cons, List.takeWhile_cons]
      split
      · simp only [List.length_cons]
        have := ih n
        omega
      · simp

theorem measure_salt_append_dollar (a b : List Nat) :
    measure_salt (a ++ ascii_dollar :: b) ≤ a.length := by
  rw [measure_salt_eq, raw_salt]
  exact takeWhile_take_append_dollar a b _

theorem dollar_not_in_alphabet : ascii_dollar ∉ _crypt_itoa64 := by decide

theorem type_magic_cases (type : PGCRYPTO_SHA_t) (ht : type ≠ .PGCRYPTO_SHA_UNKOWN) :
    (type = .PGCRYPTO_SHA256CRYPT ∧ type_magic type = magic_bytes 0)
    ∨ (type = .PGCRYPTO_SHA512CRYPT ∧ type_magic type = magic_bytes 1) := by
  cases type with
  | PGCRYPTO_SHA_UNKOWN => exact absurd rfl ht
  | PGCRYPTO_SHA256CRYPT => exact Or.inl ⟨rfl, rfl⟩
  | PGCRYPTO_SHA512CRYPT => exact Or.inr ⟨rfl, rfl⟩

theorem guard_fails_with_digest (magic : List Nat) (rc r : Nat) (dec sec : List Nat)
    (hrc : rc ≤ 1) (hsec : 43 ≤ sec.length) :
    (append_salt magic rc r (dec ++ ascii_dollar :: sec)).length
      > 3 + 17 * rc + measure_salt (dec ++ ascii_dollar :: sec) := by
  by_contra hcon
  have hms := measure_salt_append_dollar dec sec
  have hms16 := measure_salt_le (dec ++ ascii_dollar :: sec)
  have hshort : (append_salt magic rc r (dec ++ ascii_dollar :: sec)).length ≤ 78 := by omega
  rw [append_salt_eq _ _ _ _ hshort] at hcon
  simp only [List.length_append, List.length_cons] at hcon
  omega

theorem no_dollar_of_measured (dec : List Nat) (h : dec.length ≤ measure_salt dec) :
    ∀ c ∈ dec, c ≠ ascii_dollar := by
  have hpre : raw_salt dec <+: dec := by
    rw [← raw_salt_prefix]; exact List.take_prefix _ _
  have hlen : dec.length ≤ (raw_salt dec).length := by rw [← measure_salt_eq]; exact h
  have heq : raw_salt dec = dec := hpre.eq_of_length_le hlen
  intro c hc
  rw [← heq, raw_salt] at hc
  have := List.mem_takeWhile_imp hc
  simpa using this

theorem rounds_prefix_no_dollar : ∀ c ∈ rounds_prefix, c ≠ ascii_dollar := by decide

/-- The text that a successful call returns is rejected when it is passed as
the salt: the digest section after the salt makes `out_buf` longer than line
228 allows. -/
theorem reencode_rejected (f : String → Option (List Nat → List Nat)) (pw : List Nat)
    (type : PGCRYPTO_SHA_t) (hA : List Nat → List Nat) (rc r : Nat) (dec sec : List Nat)
    (dstlen : Nat) (hdst : PX_SHACRYPT_BUF_LEN ≤ dstlen)
    (ht : type ≠ .PGCRYPTO_SHA_UNKOWN) (hf : f (type_name type) = some hA)
    (hrc : (rc = 0 ∧ dec.take 7 ≠ rounds_prefix ∧ dec.length ≤ measure_salt dec) ∨ rc = 1)
    (hsec : 43 ≤ sec.length) (halpha : ∀ c ∈ sec, c ∈ _crypt_itoa64) :
    px_crypt_shacrypt_prepare f (some pw)
        (some (type_magic type ++ rounds_clause rc r ++ dec ++ ascii_dollar :: sec)) dstlen
      = .error .invalid_salt_string := by
  have hwf := magic_salt_wellformed (type_magic type)
    (rounds_clause rc r ++ dec ++ ascii_dollar :: sec)
    (by rcases type_magic_cases type ht with h | h
        · exact Or.inl h.2
        · exact Or.inr h.2)
  have hsalt : type_magic type ++ rounds_clause rc r ++ dec ++ ascii_dollar :: sec
      = type_magic type ++ (rounds_clause rc r ++ dec ++ ascii_dollar :: sec) := by simp
  rw [hsalt]
  -- the magic bytes are read as before
  have hcm : check_magic (type_magic type ++ (rounds_clause rc r ++ dec ++ ascii_dollar :: sec))
      = (type, rounds_clause rc r ++ dec ++ ascii_dollar :: sec) := by
    rcases type_magic_cases type ht with ⟨h1, h2⟩ | ⟨h1, h2⟩
    · rw [h2, h1]
      apply check_magic_five
      rcases hrc with ⟨h0, _, hlen⟩ | h1'
      · subst h0
        have hnd := no_dollar_of_measured dec hlen
        simp only [rounds_clause, lt_self_iff_false, if_false, List.nil_append]
        rw [magic_bytes_one]
        cases dec with
        | nil =>
          match sec, hsec with
          | s0 :: s1 :: rest, _ =>
            simp only [List.nil_append, List.take_succ_cons, List.take_zero, ascii_dollar]
            intro hcon
            simp only [List.cons.injEq, and_true, true_and] at hcon
            have hmem : s1 ∈ _crypt_itoa64 := halpha s1 (by simp)
            rw [hcon.2] at hmem
            exact dollar_not_in_alphabet hmem
        | cons c cs =>
          have hc : c ≠ ascii_dollar := hnd c (List.mem_cons_self _ _)
          simp only [List.cons_append, List.take_succ_cons]
          intro hcon
          simp only [List.cons.injEq] at hcon
          exact hc hcon.1
      · subst h1'
        simp only [rounds_clause, Nat.lt_one_iff, if_true, List.append_assoc]
        rw [rounds_prefix_eq, magic_bytes_one]
        simp
    · rw [h2, h1]
      exact check_magic_six _
  -- so is the rounds clause
  have hpr : ∃ r', parse_rounds (rounds_clause rc r ++ dec ++ ascii_dollar :: sec)
      = .ok (r', rc, dec ++ ascii_dollar :: sec) := by
    rcases hrc with ⟨h0, h7, hlen⟩ | h1'
    · subst h0
      refine ⟨PX_SHACRYPT_ROUNDS_DEFAULT, ?_⟩
      simp only [rounds_clause, lt_self_iff_false, if_false, List.nil_append]
      apply parse_rounds_none
      intro hcon
      by_cases hl : 7 ≤ dec.length
      · rw [List.take_append_of_le_length hl] at hcon
        exact h7 hcon
      · have hmem : ascii_dollar ∈ (dec ++ ascii_dollar :: sec).take 7 := by
          rw [List.take_append_eq_append_take]
          apply List.mem_append_right
          obtain ⟨k, hk⟩ : ∃ k, 7 - dec.length = k + 1 := ⟨7 - dec.length - 1, by omega⟩
          rw [hk, List.take_succ_cons]
          exact List.mem_cons_self _ _
        rw [hcon] at hmem
        exact rounds_prefix_no_dollar _ hmem rfl
    · subst h1'
      refine ⟨clamp_rounds (if decimal_value (utoa r) > ULONG_MAX then ULONG_MAX
        else decimal_value (utoa r)), ?_⟩
      have hx : rounds_clause 1 r ++ dec ++ ascii_dollar :: sec
          = rounds_prefix ++ (utoa r ++ ascii_dollar :: (dec ++ ascii_dollar :: sec)) := by
        simp [rounds_clause, List.append_assoc]
      rw [hx, parse_rounds_with_option,
        strtoul_digits_dollar (utoa r) _ (utoa_ne_nil r) (utoa_isdigit r)]
      simp
  obtain ⟨r', hpr⟩ := hpr
  have hrc1 : rc ≤ 1 := by
    rcases hrc with h | h
    · omega
    · omega
  rw [prepare_of f pw _ dstlen r' rc (dec ++ ascii_dollar :: sec) hA hdst hwf.1 (Or.inl hwf.2)
    (by rw [hcm]; exact ht) (by rw [hcm]; exact hpr) (by rw [hcm]; exact hf)]
  rw [hcm]
  simp only
  rw [if_pos (guard_fails_with_digest _ rc r' dec sec hrc1 hsec)]

/-- Round trip never works: whenever `px_crypt_shacrypt` returns a result for a
password and a salt, the call with that password and the result as the salt
raises "invalid salt string" before any digest update. -/
theorem round_trip_rejected (f : String → Option (List Nat → List Nat))
    (pw salt : List Nat) (dstlen : Nat) (enc : List Nat)
    (h : (px_crypt_shacrypt f (some pw) (some salt) dstlen).ret = .ok enc) :
    px_crypt_shacrypt f (some pw) (some enc) dstlen = ⟨.error .invalid_salt_string, 0, 0⟩ := by
  obtain ⟨l, hp, henc⟩ := shacrypt_ok_inv _ _ _ _ _ h
  obtain ⟨hdst, _, _, _, ht, hpr, hsl, _, _, ⟨hA, hf, _, _⟩, hout, hguard⟩ :=
    prepare_ok _ _ _ _ _ hp
  apply shacrypt_of_prepare_error
  rw [henc, hout]
  have hsec : 43 ≤ (digest_section l.type (px_crypt_shacrypt_digest l pw).sha_buf).length := by
    rw [digest_section_length]
    cases hty : l.type with
    | PGCRYPTO_SHA_UNKOWN => exact absurd hty ht
    | PGCRYPTO_SHA256CRYPT => simp [digest_chars]
    | PGCRYPTO_SHA512CRYPT => simp [digest_chars]
  apply reencode_rejected f pw l.type hA _ _ _ _ dstlen hdst ht hf _ hsec
    (digest_section_mem _ _)
  rcases parse_rounds_ok_cases _ _ _ _ hpr with ⟨h0, hdec, h7⟩ | h1
  · left
    refine ⟨h0, by rw [hdec]; exact h7, ?_⟩
    rw [hout, h0] at hguard
    have hm3 : (type_magic l.type).length = 3 := by
      rcases type_magic_cases l.type ht with h | h
      · rw [h.2]; rfl
      · rw [h.2]; rfl
    simp only [rounds_clause, lt_self_iff_false, if_false, List.append_nil, List.length_append,
      hm3, hsl] at hguard
    omega
  · exact Or.inr h1

/-! ## Results at given inputs (C1, C6, C5) -/

/-- C1. At the password "Hello world!" and the salt "$5$saltstring" the call
returns a result, and the call with that result as the salt does not return
it: it raises "invalid salt string" without any digest update. -/
theorem round_trip_hello_world :
    ∃ enc, (px_crypt_shacrypt toy_digest (some (str "Hello world!"))
              (some (str "$5$saltstring")) 124).ret = .ok enc
      ∧ px_crypt_shacrypt toy_digest (some (str "Hello world!")) (some enc) 124
          = ⟨.error .invalid_salt_string, 0, 0⟩ := by
  obtain ⟨sec, h, _, _⟩ := shacrypt_ret_shape toy_digest (str "Hello world!")
    (str "$5$saltstring") 124 .PGCRYPTO_SHA256CRYPT (str "$5$saltstring") (by decide)
  exact ⟨_, h, round_trip_rejected _ _ _ _ _ h⟩

/-- C6. At the salt "$5$$6$abc", whose first three bytes are "$5$", the second
test for magic bytes (line 115) matches as well: the result begins with "$6$"
and has a digest section of 86 characters, the SHA-512 variant. -/
theorem double_magic_selects_sha512 :
    ∃ sec, (px_crypt_shacrypt toy_digest (some (str "x")) (some (str "$5$$6$abc")) 124).ret
          = .ok (str "$6$abc" ++ ascii_dollar :: sec)
      ∧ sec.length = 86 :=
  have h := shacrypt_ret_shape toy_digest (str "x") (str "$5$$6$abc") 124
    .PGCRYPTO_SHA512CRYPT (str "$6$abc") (by decide)
  ⟨h.choose, h.choose_spec.1, h.choose_spec.2.1⟩

/-- C5. At the password "Hello world!": the salt "$5$saltstring" gives a
result, the same salt followed by a dollar sign, or by a dollar sign and more
text, raises "invalid salt string". -/
theorem trailing_content_rejected :
    (∃ sec, (px_crypt_shacrypt toy_digest (some (str "Hello world!"))
              (some (str "$5$saltstring")) 124).ret
          = .ok (str "$5$saltstring" ++ ascii_dollar :: sec))
    ∧ px_crypt_shacrypt toy_digest (some (str "Hello world!"))
          (some (str "$5$saltstring" ++ str "$" ++ str "")) 124
        = ⟨.error .invalid_salt_string, 0, 0⟩
    ∧ px_crypt_shacrypt toy_digest (some (str "Hello world!"))
          (some (str "$5$saltstring" ++ str "$" ++ str "anything")) 124
        = ⟨.error .invalid_salt_string, 0, 0⟩ := by
  refine ⟨?_, by decide, by decide⟩
  obtain ⟨sec, h, _, _⟩ := shacrypt_ret_shape toy_digest (str "Hello world!")
    (str "$5$saltstring") 124 .PGCRYPTO_SHA256CRYPT (str "$5$saltstring") (by decide)
  exact ⟨sec, h⟩

/-! ## Long salts and text after the salt (C3, C2) -/

theorem px_md_update_congr (md : PX_MD) (d d' : List Nat) (n n' : Nat)
    (h : d.take n = d'.take n') : px_md_update md d n = px_md_update md d' n' := by
  cases md
  simp only [px_md_update, h]

theorem add_repeated_congr (d d' : List Nat) (n n' : Nat) (h : d.take n = d'.take n')
    (k : Nat) (md : PX_MD) : add_repeated d n k md = add_repeated d' n' k md := by
  induction k generalizing md with
  | zero => rfl
  | succ k ih => simp only [add_repeated, px_md_update_congr md d d' n n' h, ih]

/-- The digest computation reads the salt only through its first `salt_len`
bytes. -/
theorem digest_congr (l l' : Locals) (pw : List Nat) (hr : l.rounds = l'.rounds)
    (hs : l.dec_salt_binary.take l.salt_len = l'.dec_salt_binary.take l'.salt_len)
    (hsl : l.salt_len = l'.salt_len) (hlen : l.len = l'.len)
    (hb : l.buf_size = l'.buf_size) (hA : l.digestA = l'.digestA)
    (hB : l.digestB = l'.digestB) :
    px_crypt_shacrypt_digest l pw = px_crypt_shacrypt_digest l' pw := by
  simp only [px_crypt_shacrypt_digest,
    px_md_update_congr _ l.dec_salt_binary l'.dec_salt_binary l.salt_len l'.salt_len hs,
    add_repeated_congr l.dec_salt_binary l'.dec_salt_binary l.salt_len l'.salt_len hs]
  simp only [hr, hsl, hlen, hb, hA, hB]

/-- Two calls with the same password whose salts agree on the variant, the
number of rounds and the first `salt_len` bytes of the salt have the same
digest section. -/
theorem same_digest_section (f : String → Option (List Nat → List Nat))
    (pw salt salt' : List Nat) (dstlen : Nat) (l l' : Locals)
    (hp : px_crypt_shacrypt_prepare f (some pw) (some salt) dstlen = .ok l)
    (hp' : px_crypt_shacrypt_prepare f (some pw) (some salt') dstlen = .ok l')
    (ht : l.type = l'.type) (hr : l.rounds = l'.rounds)
    (hs : l.dec_salt_binary.take l.salt_len = l'.dec_salt_binary.take l'.salt_len)
    (hsl : l.salt_len = l'.salt_len) :
    digest_section l.type (px_crypt_shacrypt_digest l pw).sha_buf
      = digest_section l'.type (px_crypt_shacrypt_digest l' pw).sha_buf := by
  obtain ⟨_, _, _, _, _, _, _, hlen, hb, ⟨hA, hf, hdA, hdB⟩, _, _⟩ := prepare_ok _ _ _ _ _ hp
  obtain ⟨_, _, _, _, _, _, _, hlen', hb', ⟨hA', hf', hdA', hdB'⟩, _, _⟩ :=
    prepare_ok _ _ _ _ _ hp'
  have hAA : hA = hA' := by
    rw [ht, hf'] at hf
    exact (Option.some.inj hf).symm
  rw [digest_congr l l' pw hr hs hsl (by rw [hlen, hlen']) (by rw [hb, hb', ht])
    (by rw [hdA, hdA', hAA]) (by rw [hdB, hdB', hAA]), ht]

/-- C3. At the password "Hello world!" and the salt
"$5$rounds=10000$saltstringsaltstring" of the claim the result carries all
twenty bytes of the salt, while the digest section is that of the salt cut to
sixteen bytes; without a rounds clause the long salt raises "invalid salt
string". -/
theorem long_salt_not_truncated :
    (∃ sec, sec.length = 43
      ∧ (px_crypt_shacrypt toy_digest (some (str "Hello world!"))
            (some (str "$5$rounds=10000$saltstringsaltstring")) 124).ret
          = .ok (str "$5$rounds=10000$saltstringsaltstring" ++ ascii_dollar :: sec)
      ∧ (px_crypt_shacrypt toy_digest (some (str "Hello world!"))
            (some (str "$5$rounds=10000$saltstringsaltst")) 124).ret
          = .ok (str "$5$rounds=10000$saltstringsaltst" ++ ascii_dollar :: sec))
    ∧ px_crypt_shacrypt toy_digest (some (str "Hello world!"))
          (some (str "$5$saltstringsaltstring")) 124
        = ⟨.error .invalid_salt_string, 0, 0⟩ := by
  refine ⟨?_, by decide⟩
  cases hp : px_crypt_shacrypt_prepare toy_digest (some (str "Hello world!"))
      (some (str "$5$rounds=10000$saltstringsaltstring")) 124 with
  | error e =>
    have : (px_crypt_shacrypt_prepare toy_digest (some (str "Hello world!"))
      (some (str "$5$rounds=10000$saltstringsaltstring")) 124).toBool = true := by decide
    rw [hp] at this
    exact absurd this (by simp [Except.toBool])
  | ok l =>
    cases hp' : px_crypt_shacrypt_prepare toy_digest (some (str "Hello world!"))
        (some (str "$5$rounds=10000$saltstringsaltst")) 124 with
    | error e =>
      have : (px_crypt_shacrypt_prepare toy_digest (some (str "Hello world!"))
        (some (str "$5$rounds=10000$saltstringsaltst")) 124).toBool = true := by decide
      rw [hp'] at this
      exact absurd this (by simp [Except.toBool])
    | ok l' =>
      have h1 : (px_crypt_shacrypt_prepare toy_digest (some (str "Hello world!"))
          (some (str "$5$rounds=10000$saltstringsaltstring")) 124).map
            (fun l => (l.type, l.rounds, l.dec_salt_binary.take l.salt_len, l.salt_len,
              l.out_buf))
          = .ok (.PGCRYPTO_SHA256CRYPT, 10000, str "saltstringsaltst", 16,
              str "$5$rounds=10000$saltstringsaltstring") := by decide
      have h2 : (px_crypt_shacrypt_prepare toy_digest (some (str "Hello world!"))
          (some (str "$5$rounds=10000$saltstringsaltst")) 124).map
            (fun l => (l.type, l.rounds, l.dec_salt_binary.take l.salt_len, l.salt_len,
              l.out_buf))
          = .ok (.PGCRYPTO_SHA256CRYPT, 10000, str "saltstringsaltst", 16,
              str "$5$rounds=10000$saltstringsaltst") := by decide
      rw [hp] at h1
      rw [hp'] at h2
      simp only [Except.map, Except.ok.injEq, Prod.mk.injEq] at h1 h2
      obtain ⟨ht, hr, hs, hsl, ho⟩ := h1
      obtain ⟨ht', hr', hs', hsl', ho'⟩ := h2
      have hsame := same_digest_section toy_digest _ _ _ _ l l' hp hp'
        (by rw [ht, ht']) (by rw [hr, hr']) (by rw [hs, hs']) (by rw [hsl, hsl'])
      refine ⟨digest_section l.type (px_crypt_shacrypt_digest l (str "Hello world!")).sha_buf,
        ?_, ?_, ?_⟩
      · rw [digest_section_length, ht]; rfl
      · rw [shacrypt_of_prepare_ok _ _ _ _ _ hp, ho]
      · rw [shacrypt_of_prepare_ok _ _ _ _ _ hp', ho', hsame]

/-- C2. At the salt "$5$rounds=1000$abc$de" the raw salt is "abc", but the
result carries everything after the rounds clause, "abc$de", before the
separator and the 43 characters of the digest section. -/
theorem output_carries_text_after_raw_salt :
    raw_salt (str "abc$de") = str "abc"
    ∧ ∃ sec, sec.length = 43 ∧ (∀ c ∈ sec, c ∈ _crypt_itoa64)
      ∧ (px_crypt_shacrypt toy_digest (some (str "x")) (some (str "$5$rounds=1000$abc$de"))
            124).ret
          = .ok (str "$5$" ++ str "rounds=1000$" ++ str "abc$de" ++ ascii_dollar :: sec) := by
  refine ⟨by decide, ?_⟩
  obtain ⟨sec, h, hlen, hmem⟩ := shacrypt_ret_shape toy_digest (str "x")
    (str "$5$rounds=1000$abc$de") 124 .PGCRYPTO_SHA256CRYPT
    (str "$5$" ++ str "rounds=1000$" ++ str "abc$de") (by decide)
  exact ⟨sec, hlen, hmem, h⟩

/-! ## What a successful call returns -/

/-- What a successful call returns: the magic bytes of the variant, the rounds
clause, all of the salt string after the preamble, a dollar sign and the digest
section.  The salt string after the preamble is the raw salt when there is no
rounds clause; with one it may be up to five bytes longer. -/
theorem output_assembly (f : String → Option (List Nat → List Nat))
    (pw salt : List Nat) (dstlen : Nat) (enc : List Nat)
    (h : (px_crypt_shacrypt f (some pw) (some salt) dstlen).ret = .ok enc) :
    ∃ l, px_crypt_shacrypt_prepare f (some pw) (some salt) dstlen = .ok l
      ∧ enc = type_magic l.type ++ rounds_clause l.rounds_custom l.rounds
          ++ l.dec_salt_binary ++ ascii_dollar
          :: digest_section l.type (px_crypt_shacrypt_digest l pw).sha_buf
      ∧ l.dec_salt_binary.take l.salt_len = raw_salt l.dec_salt_binary
      ∧ (rounds_clause l.rounds_custom l.rounds).length + l.dec_salt_binary.length
          ≤ 17 * l.rounds_custom + (raw_salt l.dec_salt_binary).length
      ∧ (l.rounds_custom = 0 → l.dec_salt_binary = raw_salt l.dec_salt_binary) := by
  obtain ⟨l, hp, henc⟩ := shacrypt_ok_inv _ _ _ _ _ h
  obtain ⟨_, _, _, _, ht, _, hsl, _, _, _, hout, hguard⟩ := prepare_ok _ _ _ _ _ hp
  have hm3 : (type_magic l.type).length = 3 := by
    rcases type_magic_cases l.type ht with h | h
    · rw [h.2]; rfl
    · rw [h.2]; rfl
  have hlen : (rounds_clause l.rounds_custom l.rounds).length + l.dec_salt_binary.length
      ≤ 17 * l.rounds_custom + (raw_salt l.dec_salt_binary).length := by
    rw [hout, hsl, measure_salt_eq] at hguard
    simp only [List.length_append, hm3] at hguard
    omega
  refine ⟨l, hp, by rw [henc, hout], by rw [hsl]; exact raw_salt_prefix _, hlen, ?_⟩
  intro h0
  have hpre : raw_salt l.dec_salt_binary <+: l.dec_salt_binary := by
    rw [← raw_salt_prefix]; exact List.take_prefix _ _
  rw [h0] at hlen
  exact (hpre.eq_of_length_le (by omega)).symm

/-- The variant that the magic bytes select: "$6$" selects SHA-512, and "$5$"
selects SHA-256 unless the text after it begins with "$6$". -/
theorem magic_selects_variant (f : String → Option (List Nat → List Nat))
    (pw rest : List Nat) (dstlen : Nat) (enc : List Nat) :
    ((px_crypt_shacrypt f (some pw) (some (magic_bytes 1 ++ rest)) dstlen).ret = .ok enc →
      ∃ body sec, enc = magic_bytes 1 ++ body ++ ascii_dollar :: sec ∧ sec.length = 86
        ∧ ∀ c ∈ sec, c ∈ _crypt_itoa64)
    ∧ ((px_crypt_shacrypt f (some pw) (some (magic_bytes 0 ++ rest)) dstlen).ret = .ok enc →
      rest.take 3 ≠ magic_bytes 1 →
      ∃ body sec, enc = magic_bytes 0 ++ body ++ ascii_dollar :: sec ∧ sec.length = 43
        ∧ ∀ c ∈ sec, c ∈ _crypt_itoa64) := by
  constructor
  · intro h
    obtain ⟨l, hp, henc⟩ := shacrypt_ok_inv _ _ _ _ _ h
    obtain ⟨_, _, _, hty, _, _, _, _, _, _, hout, _⟩ := prepare_ok _ _ _ _ _ hp
    rw [check_magic_six] at hty
    refine ⟨rounds_clause l.rounds_custom l.rounds ++ l.dec_salt_binary,
      digest_section l.type (px_crypt_shacrypt_digest l pw).sha_buf, ?_, ?_,
      digest_section_mem _ _⟩
    · rw [henc, hout, hty]; simp [type_magic, List.append_assoc]
    · rw [digest_section_length, hty]; rfl
  · intro h h6
    obtain ⟨l, hp, henc⟩ := shacrypt_ok_inv _ _ _ _ _ h
    obtain ⟨_, _, _, hty, _, _, _, _, _, _, hout, _⟩ := prepare_ok _ _ _ _ _ hp
    rw [check_magic_five _ h6] at hty
    refine ⟨rounds_clause l.rounds_custom l.rounds ++ l.dec_salt_binary,
      digest_section l.type (px_crypt_shacrypt_digest l pw).sha_buf, ?_, ?_,
      digest_section_mem _ _⟩
    · rw [henc, hout, hty]; simp [type_magic, List.append_assoc]
    · rw [digest_section_length, hty]; rfl

/-! ## The length of the result (C12) -/

/-- C12. Whenever `px_crypt_shacrypt` returns a result, the string has at most
3 + 17 + 16 + 1 + 86 = 123 characters, so with its terminating NUL it fits
the `PX_SHACRYPT_BUF_LEN` bytes of `out_buf`: the text that line 226 leaves in
`out_buf` has at most 36 characters, and the writes through `cp` (the
separator, the digest section and the NUL) go to the positions from the length
of that text up to the length of the result, all below `PX_SHACRYPT_BUF_LEN`. -/
theorem output_length_bound (f : String → Option (List Nat → List Nat))
    (pw salt : List Nat) (dstlen : Nat) (enc : List Nat)
    (h : (px_crypt_shacrypt f (some pw) (some salt) dstlen).ret = .ok enc) :
    enc.length ≤ 3 + 17 + 16 + 1 + 86
    ∧ enc.length + 1 ≤ PX_SHACRYPT_BUF_LEN
    ∧ ∃ l, px_crypt_shacrypt_prepare f (some pw) (some salt) dstlen = .ok l
        ∧ l.out_buf.length ≤ 36
        ∧ enc.length = l.out_buf.length + 1 + digest_chars l.type
        ∧ digest_chars l.type ≤ 86 := by
  obtain ⟨l, hp, henc⟩ := shacrypt_ok_inv _ _ _ _ _ h
  obtain ⟨_, _, _, _, _, hpr, hsl, _, _, _, _, hguard⟩ := prepare_ok _ _ _ _ _ hp
  have hrc := parse_rounds_custom_le _ _ _ _ hpr
  have hms := measure_salt_le l.dec_salt_binary
  have hdc : digest_chars l.type ≤ 86 := by cases l.type <;> simp [digest_chars]
  have hlen : enc.length = l.out_buf.length + 1 + digest_chars l.type := by
    rw [henc, List.length_append, List.length_cons, digest_section_length]; omega
  rw [hsl] at hguard
  refine ⟨by omega, by simp only [PX_SHACRYPT_BUF_LEN]; omega, l, hp, by omega, hlen, hdc⟩

/-- C12, at the longest result there is: SHA-512, nine digits of rounds and
sixteen bytes of salt give 123 characters. -/
theorem output_length_bound_witness :
    ∃ sec,
      (px_crypt_shacrypt toy_digest (some (str "x"))
          (some (str "$6$rounds=999999999$0123456789abcdef")) 124).ret
        = .ok (str "$6$rounds=999999999$0123456789abcdef" ++ ascii_dollar :: sec)
      ∧ (str "$6$rounds=999999999$0123456789abcdef" ++ ascii_dollar :: sec).length
          ≤ 3 + 17 + 16 + 1 + 86
      ∧ (str "$6$rounds=999999999$0123456789abcdef" ++ ascii_dollar :: sec).length + 1
          ≤ PX_SHACRYPT_BUF_LEN
      ∧ (str "$6$rounds=999999999$0123456789abcdef" ++ ascii_dollar :: sec).length = 123 := by
  obtain ⟨sec, h, hlen, _⟩ := shacrypt_ret_shape toy_digest (str "x")
    (str "$6$rounds=999999999$0123456789abcdef") 124 .PGCRYPTO_SHA512CRYPT
    (str "$6$rounds=999999999$0123456789abcdef") (by decide)
  have hb := output_length_bound toy_digest (str "x")
    (str "$6$rounds=999999999$0123456789abcdef") 124 _ h
  refine ⟨sec, h, hb.1, hb.2.1, ?_⟩
  rw [List.length_append, List.length_cons, hlen]
  rfl

/-! ## Salts without a rounds option (C18) -/

theorem measured_of_short_no_dollar (rest : List Nat) (hlen : rest.length ≤ 16)
    (hnd : ascii_dollar ∉ rest) : measure_salt rest = rest.length := by
  rw [measure_salt_eq, raw_salt, List.take_of_length_le (by simpa [PX_SHACRYPT_SALT_LEN_MAX])]
  have : rest.takeWhile (fun c => c != ascii_dollar) = rest := by
    rw [List.takeWhile_eq_self_iff]
    intro c hc
    have : c ≠ ascii_dollar := fun h => hnd (h ▸ hc)
    simpa using this
  rw [this]

theorem append_salt_plain_length (magic rest : List Nat) (r : Nat) (hm : magic.length = 3) :
    (append_salt magic 0 r rest).length = 3 + min 120 rest.length := by
  simp only [append_salt, lt_self_iff_false, if_false, strlcat, PX_SHACRYPT_BUF_LEN,
    List.length_append, List.length_take, hm]

/-- C18. For a salt `magic ++ rest` with `magic` one of "$5$", "$6$", where
`rest` does not begin with `rounds=` (nor with "$6$" when `magic` is "$5$"),
any password, a `dstlen` of at least `PX_SHACRYPT_BUF_LEN` and a digest lookup
that finds "sha256" and "sha512": `px_crypt_shacrypt` returns a result exactly
when `rest` has at most 16 bytes and no dollar sign, and in every other case
it raises "invalid salt string" with no `px_md_update` call made. -/
theorem acceptance_without_rounds (f : String → Option (List Nat → List Nat))
    (pw magic rest : List Nat) (dstlen : Nat) (h256 h512 : List Nat → List Nat)
    (hf256 : f "sha256" = some h256) (hf512 : f "sha512" = some h512)
    (hm : magic = magic_bytes 0 ∨ magic = magic_bytes 1)
    (hr : rest.take 7 ≠ rounds_prefix)
    (h6 : magic = magic_bytes 0 → rest.take 3 ≠ magic_bytes 1)
    (hdst : PX_SHACRYPT_BUF_LEN ≤ dstlen) :
    ((∃ enc, (px_crypt_shacrypt f (some pw) (some (magic ++ rest)) dstlen).ret = .ok enc)
        ↔ rest.length ≤ 16 ∧ ascii_dollar ∉ rest)
    ∧ (¬ (rest.length ≤ 16 ∧ ascii_dollar ∉ rest) →
        px_crypt_shacrypt f (some pw) (some (magic ++ rest)) dstlen
          = ⟨.error .invalid_salt_string, 0, 0⟩) := by
  have hwf := magic_salt_wellformed magic rest hm
  obtain ⟨type, ht, htm, hA, hf, hcm⟩ : ∃ type, type ≠ .PGCRYPTO_SHA_UNKOWN
      ∧ type_magic type = magic ∧ ∃ hA, f (type_name type) = some hA
      ∧ check_magic (magic ++ rest) = (type, rest) := by
    rcases hm with h | h
    · exact ⟨.PGCRYPTO_SHA256CRYPT, by simp, h.symm, h256, hf256,
        by rw [h]; exact check_magic_five rest (h6 h)⟩
    · exact ⟨.PGCRYPTO_SHA512CRYPT, by simp, h.symm, h512, hf512,
        by rw [h]; exact check_magic_six rest⟩
  have hpr := parse_rounds_none rest hr
  have hprep := prepare_of f pw (magic ++ rest) dstlen PX_SHACRYPT_ROUNDS_DEFAULT 0 rest hA
    hdst hwf.1 (Or.inl hwf.2) (by rw [hcm]; exact ht) (by rw [hcm]; exact hpr)
    (by rw [hcm]; exact hf)
  rw [hcm] at hprep
  simp only at hprep
  have hm3 : (type_magic type).length = 3 := by
    rcases type_magic_cases type ht with h | h
    · rw [h.2]; rfl
    · rw [h.2]; rfl
  rw [append_salt_plain_length _ _ _ hm3] at hprep
  have hms16 := measure_salt_le rest
  have hmsl := measure_salt_le_length rest
  by_cases hok : rest.length ≤ 16 ∧ ascii_dollar ∉ rest
  · have hmeq := measured_of_short_no_dollar rest hok.1 hok.2
    rw [if_neg (by omega)] at hprep
    refine ⟨⟨fun _ => hok, fun _ => ?_⟩, fun hn => absurd hok hn⟩
    rw [shacrypt_of_prepare_ok _ _ _ _ _ hprep]
    exact ⟨_, rfl⟩
  · have hguard : 3 + min 120 rest.length > 3 + 17 * 0 + measure_salt rest := by
      by_contra hcon
      apply hok
      have hle : rest.length ≤ measure_salt rest := by omega
      refine ⟨by omega, fun hmem => ?_⟩
      exact no_dollar_of_measured rest hle _ hmem rfl
    rw [if_pos hguard] at hprep
    have hrun := shacrypt_of_prepare_error _ _ _ _ _ hprep
    refine ⟨⟨fun ⟨enc, he⟩ => ?_, fun h => absurd h hok⟩, fun _ => hrun⟩
    rw [hrun] at he
    simp at he

/-- C18, at the salts "$5$saltstring" (accepted) and "$5$saltstring$x"
(rejected). -/
theorem acceptance_without_rounds_witness :
    (toy_digest "sha256" = some (toy_hash 32) ∧ toy_digest "sha512" = some (toy_hash 64)
      ∧ (magic_bytes 0 = magic_bytes 0 ∨ magic_bytes 0 = magic_bytes 1)
      ∧ (str "saltstring").take 7 ≠ rounds_prefix
      ∧ (str "saltstring$x").take 7 ≠ rounds_prefix
      ∧ (magic_bytes 0 = magic_bytes 0 → (str "saltstring").take 3 ≠ magic_bytes 1)
      ∧ (magic_bytes 0 = magic_bytes 0 → (str "saltstring$x").take 3 ≠ magic_bytes 1)
      ∧ PX_SHACRYPT_BUF_LEN ≤ 124)
    ∧ (∃ enc, (px_crypt_shacrypt toy_digest (some (str "x"))
          (some (magic_bytes 0 ++ str "saltstring")) 124).ret = .ok enc)
    ∧ px_crypt_shacrypt toy_digest (some (str "x"))
          (some (magic_bytes 0 ++ str "saltstring$x")) 124
        = ⟨.error .invalid_salt_string, 0, 0⟩ :=
  ⟨⟨rfl, rfl, by decide⟩,
   (acceptance_without_rounds toy_digest (str "x") (magic_bytes 0) (str "saltstring") 124
      (toy_hash 32) (toy_hash 64) rfl rfl (Or.inl rfl) (by decide) (by decide)
      (by decide)).1.mpr (by decide),
   (acceptance_without_rounds toy_digest (str "x") (magic_bytes 0) (str "saltstring$x") 124
      (toy_hash 32) (toy_hash 64) rfl rfl (Or.inl rfl) (by decide) (by decide)
      (by decide)).2 (by decide)⟩

/-! ## The loop over the bits of the password length (C17) -/

theorem px_md_update_chunks (md : PX_MD) (d : List Nat) (n : Nat) :
    (px_md_update md d n).chunks = md.chunks ++ [d.take n] := by
  cases md; rfl

theorem px_md_update_hash (md : PX_MD) (d : List Nat) (n : Nat) :
    (px_md_update md d n).hash = md.hash := by
  cases md; rfl

theorem px_md_update_updates (md : PX_MD) (d : List Nat) (n : Nat) :
    (px_md_update md d n).updates = md.updates + 1 := by
  cases md; rfl

theorem px_md_reset_chunks (md : PX_MD) : (px_md_reset md).chunks = [] := by
  cases md; rfl

theorem px_md_reset_hash (md : PX_MD) : (px_md_reset md).hash = md.hash := by
  cases md; rfl

theorem size_half (b : Nat) (hb : b ≠ 0) : Nat.size b = Nat.size (b / 2) + 1 := by
  apply le_antisymm
  · rw [Nat.size_le, pow_succ]
    have := Nat.lt_size_self (b / 2)
    omega
  · rw [Nat.succ_le, Nat.lt_size]
    by_cases h0 : b / 2 = 0
    · rw [h0]; simp; omega
    · have hpos : 0 < Nat.size (b / 2) := Nat.size_pos.mpr (Nat.pos_of_ne_zero h0)
      have h1 : Nat.size (b / 2) - 1 < Nat.size (b / 2) := by omega
      rw [Nat.lt_size] at h1
      have h2 : 2 ^ Nat.size (b / 2) = 2 ^ (Nat.size (b / 2) - 1) * 2 := by
        rw [← pow_succ]; congr 1; omega
      omega

theorem length_bits_loop_aux (K len : Nat) (pw sha_buf : List Nat) (fuel : Nat) :
    ∀ (block : Nat) (A : PX_MD), block ≤ fuel →
      while_loop (fun s : Nat × PX_MD => decide (s.1 ≠ 0))
        (fun s => (s.1 >>> 1,
          px_md_update s.2 (if s.1 &&& 1 ≠ 0 then sha_buf else pw)
            (if s.1 &&& 1 ≠ 0 then K else len)))
        fuel (block, A)
      = (0, ⟨A.hash,
          A.chunks ++ (List.range (Nat.size block)).map
            (fun k => if block.testBit k then sha_buf.take K else pw.take len),
          A.updates + Nat.size block⟩) := by
  induction fuel with
  | zero =>
    intro block A hb
    have : block = 0 := by omega
    subst this
    cases A
    simp [while_loop]
  | succ fuel ih =>
    intro block A hb
    by_cases h0 : block = 0
    · subst h0
      cases A
      rw [while_loop_stop _ _ _ _ (by simp)]
      simp
    · rw [while_loop_step _ _ _ _ (by simpa using h0)]
      simp only []
      rw [Nat.shiftRight_one, ih (block / 2) _ (by omega)]
      have hsz := size_half block h0
      have hbit : (block &&& 1 ≠ 0) ↔ block.testBit 0 = true := by
        rw [Nat.and_one_is_mod, Nat.testBit_zero]
        simp only [ne_eq, decide_eq_true_eq]
        omega
      have hrange : (List.range (Nat.size block)).map
            (fun k => if block.testBit k then sha_buf.take K else pw.take len)
          = (if block.testBit 0 then sha_buf.take K else pw.take len)
            :: (List.range (Nat.size (block / 2))).map
              (fun k => if (block / 2).testBit k then sha_buf.take K else pw.take len) := by
        rw [hsz, List.range_succ_eq_map, List.map_cons, List.map_map]
        congr 1
        apply List.map_congr_left
        intro k _
        simp only [Function.comp, Nat.testBit_succ]
      rw [hrange, px_md_update_hash, px_md_update_chunks, px_md_update_updates, hsz]
      congr 2
      · by_cases hb0 : block.testBit 0 = true
        · have := hbit.mpr hb0
          rw [if_pos this, if_pos this, if_pos hb0]
          simp
        · have hn : ¬ (block &&& 1 ≠ 0) := fun h => hb0 (hbit.mp h)
          rw [if_neg hn, if_neg hn, if_neg hb0]
          simp
      · omega

/-- C17. The loop over the bits of the password length `L` (lines 275-284)
ends with `block = 0`, the loop condition false, after exactly `Nat.size L`
updates to digest A, the number of bits of `L` (none when `L = 0`, and
`L < 2 ^ Nat.size L ≤ 2 * L + 1`); update number `k`, counted from 0, adds the
first `K` bytes of `sha_buf` (digest B) when bit `k` of `L` is 1 and the first
`L` bytes of the password when it is 0. -/
theorem length_bits_loop (K L : Nat) (pw sha_buf : List Nat) (A : PX_MD) :
    (add_length_bits K L pw sha_buf A).1 = 0
    ∧ (add_length_bits K L pw sha_buf A).2.updates = A.updates + Nat.size L
    ∧ (add_length_bits K L pw sha_buf A).2.chunks
        = A.chunks ++ (List.range (Nat.size L)).map
            (fun k => if L.testBit k then sha_buf.take K else pw.take L)
    ∧ (Nat.size 0 = 0 ∧ L < 2 ^ Nat.size L ∧ 2 ^ Nat.size L ≤ 2 * L + 1) := by
  have h := length_bits_loop_aux K L pw sha_buf L L A (le_refl _)
  unfold add_length_bits
  rw [h]
  refine ⟨rfl, rfl, rfl, Nat.size_zero, Nat.lt_size_self L, ?_⟩
  by_cases hL : L = 0
  · subst hL; simp
  · have hpos : 0 < Nat.size L := Nat.size_pos.mpr (Nat.pos_of_ne_zero hL)
    have h1 : 2 ^ (Nat.size L - 1) ≤ L := Nat.lt_size.mp (by omega)
    have h2 : 2 ^ Nat.size L = 2 ^ (Nat.size L - 1) * 2 := by
      rw [← pow_succ]; congr 1; omega
    omega

/-- The loop over the bits of the length 5 (binary 101) makes three updates:
digest B, the password, digest B. -/
theorem length_bits_loop_five :
    (add_length_bits 2 5 [1, 2, 3, 4, 5] [7, 8, 9] ⟨toy_hash 2, [], 0⟩).2.chunks
      = [[7, 8], [1, 2, 3, 4, 5], [7, 8]] := by
  decide

/-! ## Digest B added for each block of the password (C15) -/

theorem repeat_digest_small (K n : Nat) (d : List Nat) (hK : 0 < K) (hn : n ≤ K) :
    repeat_digest K n d = d.take n := by
  unfold repeat_digest
  rcases Nat.lt_or_eq_of_le hn with h | h
  · rw [Nat.div_eq_of_lt h, Nat.mod_eq_of_lt h]; simp
  · subst h
    rw [Nat.div_self hK, Nat.mod_self]; simp

theorem repeat_digest_step (K n : Nat) (d : List Nat) (hK : 0 < K) (hn : K ≤ n) :
    repeat_digest K n d = d.take K ++ repeat_digest K (n - K) d := by
  unfold repeat_digest
  have h1 : n / K = (n - K) / K + 1 := by
    rw [Nat.div_eq_sub_div hK hn]
  have h2 : n % K = (n - K) % K := by
    rw [Nat.mod_eq_sub_mod hn]
  rw [h1, h2, List.replicate_succ, List.flatten_cons, List.append_assoc]

theorem repeat_digest_length (K n : Nat) (d : List Nat) (hK : 0 < K) (hd : K ≤ d.length) :
    (repeat_digest K n d).length = n := by
  unfold repeat_digest
  have hlt : n % K < K := Nat.mod_lt _ hK
  simp only [List.length_append, List.length_flatten, List.map_replicate, List.length_take,
    List.sum_replicate, smul_eq_mul]
  rw [Nat.min_eq_left hd, Nat.min_eq_left (by omega)]
  have := Nat.div_add_mod n K
  rw [Nat.mul_comm] at this
  exact this

theorem block_loop_aux (K : Nat) (sha_buf : List Nat) (hK : 0 < K) (fuel : Nat) :
    ∀ (block : Nat) (A : PX_MD), block ≤ fuel →
      ∃ added rest,
        while_loop (fun s : Nat × PX_MD => decide (s.1 > K))
          (fun s => (s.1 - K, px_md_update s.2 sha_buf K)) fuel (block, A)
          = (rest, ⟨A.hash, A.chunks ++ added, A.updates + added.length⟩)
        ∧ rest ≤ K
        ∧ added.flatten ++ sha_buf.take rest = repeat_digest K block sha_buf := by
  induction fuel with
  | zero =>
    intro block A hb
    have : block = 0 := by omega
    subst this
    refine ⟨[], 0, ?_, by omega, ?_⟩
    · cases A; simp [while_loop]
    · rw [repeat_digest_small K 0 _ hK (by omega)]; simp
  | succ fuel ih =>
    intro block A hb
    by_cases hgt : block > K
    · rw [while_loop_step _ _ _ _ (by simpa using hgt)]
      obtain ⟨added, rest, h1, h2, h3⟩ := ih (block - K) (px_md_update A sha_buf K) (by omega)
      refine ⟨sha_buf.take K :: added, rest, ?_, h2, ?_⟩
      · simp only []
        rw [h1, px_md_update_hash, px_md_update_chunks, px_md_update_updates]
        simp only [List.append_assoc, List.singleton_append, List.length_cons]
        congr 2
        omega
      · rw [repeat_digest_step K block _ hK (by omega), ← h3]
        simp
    · rw [while_loop_stop _ _ _ _ (by simpa using hgt)]
      refine ⟨[], block, ?_, by omega, ?_⟩
      · cases A; simp
      · rw [repeat_digest_small K block _ hK (by omega)]; simp

/-- C15. For every password length `L` and every digest length `K` above 0 (32
and 64 in the code), with `sha_buf` holding at least `K` bytes: the loop of
lines 257-260 and the update of line 264 add to digest A chunks that,
concatenated, are `L / K` full copies of the first `K` bytes of `sha_buf`
(digest B) followed by its first `L % K` bytes, `L` bytes in all; the loop
ends by its condition, with at most `K` bytes left for the last update. -/
theorem block_feeding (K L : Nat) (sha_buf : List Nat) (A : PX_MD)
    (hK : 0 < K) (hbuf : K ≤ sha_buf.length) :
    ∃ added, (add_blocks K L sha_buf A).chunks = A.chunks ++ added
      ∧ added.flatten = (List.replicate (L / K) (sha_buf.take K)).flatten
          ++ sha_buf.take (L % K)
      ∧ added.flatten.length = L
      ∧ (add_blocks K L sha_buf A).updates = A.updates + added.length
      ∧ (while_loop (fun s : Nat × PX_MD => decide (s.1 > K))
          (fun s => (s.1 - K, px_md_update s.2 sha_buf K)) L (L, A)).1 ≤ K := by
  obtain ⟨added, rest, h1, h2, h3⟩ := block_loop_aux K sha_buf hK L L A (le_refl _)
  have hflat : (added ++ [sha_buf.take rest]).flatten = repeat_digest K L sha_buf := by
    rw [← h3]; simp
  refine ⟨added ++ [sha_buf.take rest], ?_, hflat, ?_, ?_, ?_⟩
  · unfold add_blocks
    simp only []
    rw [h1, px_md_update_chunks, List.append_assoc]
  · rw [hflat, repeat_digest_length K L _ hK hbuf]
  · unfold add_blocks
    simp only []
    rw [h1, px_md_update_updates]
    simp only [List.length_append, List.length_singleton]
    omega
  · rw [h1]; exact h2

/-- C15, at the lengths 0, 32, 33 and 64 with digests of 32 bytes: no byte, one
copy, one copy and one byte, two copies. -/
theorem block_feeding_witness :
    (0 < 32 ∧ 32 ≤ (toy_hash 64 []).length)
    ∧ (∃ added, (add_blocks 32 0 (toy_hash 64 []) ⟨toy_hash 32, [], 0⟩).chunks = [] ++ added
        ∧ added.flatten = [])
    ∧ (∃ added, (add_blocks 32 32 (toy_hash 64 []) ⟨toy_hash 32, [], 0⟩).chunks = [] ++ added
        ∧ added.flatten = (toy_hash 64 []).take 32)
    ∧ (∃ added, (add_blocks 32 33 (toy_hash 64 []) ⟨toy_hash 32, [], 0⟩).chunks = [] ++ added
        ∧ added.flatten = (toy_hash 64 []).take 32 ++ (toy_hash 64 []).take 1)
    ∧ (∃ added, (add_blocks 32 64 (toy_hash 64 []) ⟨toy_hash 32, [], 0⟩).chunks = [] ++ added
        ∧ added.flatten = (toy_hash 64 []).take 32 ++ (toy_hash 64 []).take 32) := by
  refine ⟨⟨by decide, by decide⟩, ?_, ?_, ?_, ?_⟩
  · obtain ⟨added, h1, h2, _⟩ := block_feeding 32 0 (toy_hash 64 []) ⟨toy_hash 32, [], 0⟩
      (by decide) (by decide)
    exact ⟨added, h1, by rw [h2]; decide⟩
  · obtain ⟨added, h1, h2, _⟩ := block_feeding 32 32 (toy_hash 64 []) ⟨toy_hash 32, [], 0⟩
      (by decide) (by decide)
    exact ⟨added, h1, by rw [h2]; decide⟩
  · obtain ⟨added, h1, h2, _⟩ := block_feeding 32 33 (toy_hash 64 []) ⟨toy_hash 32, [], 0⟩
      (by decide) (by decide)
    exact ⟨added, h1, by rw [h2]; decide⟩
  · obtain ⟨added, h1, h2, _⟩ := block_feeding 32 64 (toy_hash 64 []) ⟨toy_hash 32, [], 0⟩
      (by decide) (by decide)
    exact ⟨added, h1, by rw [h2]; decide⟩

/-! ## The sequences P and S (C16) -/

theorem getD_take_of_lt (d : List Nat) (n i : Nat) (h : i < n) :
    (d.take n).getD i 0 = d.getD i 0 := by
  simp only [List.getD_eq_getElem?_getD, List.getElem?_take_of_lt h]

theorem getD_append_left_of_lt (a b : List Nat) (i : Nat) (h : i < a.length) :
    (a ++ b).getD i 0 = a.getD i 0 := by
  simp only [List.getD_eq_getElem?_getD, List.getElem?_append_left h]

theorem getD_append_right_of_le (a b : List Nat) (i : Nat) (h : a.length ≤ i) :
    (a ++ b).getD i 0 = b.getD (i - a.length) 0 := by
  simp only [List.getD_eq_getElem?_getD, List.getElem?_append_right h]

theorem repeat_digest_getD (K : Nat) (d : List Nat) (hK : 0 < K) (hd : K ≤ d.length)
    (n : Nat) : ∀ i, i < n → (repeat_digest K n d).getD i 0 = d.getD (i % K) 0 := by
  induction n using Nat.strong_induction_on with
  | _ n ih =>
    intro i hi
    by_cases hn : n ≤ K
    · rw [repeat_digest_small K n d hK hn, getD_take_of_lt d n i hi,
        Nat.mod_eq_of_lt (by omega)]
    · have hlen : (d.take K).length = K := by
        rw [List.length_take]; omega
      rw [repeat_digest_step K n d hK (by omega)]
      by_cases hik : i < K
      · rw [getD_append_left_of_lt _ _ _ (by omega), getD_take_of_lt d K i hik,
          Nat.mod_eq_of_lt hik]
      · rw [getD_append_right_of_le _ _ _ (by rw [hlen]; omega), hlen,
          ih (n - K) (by omega) (i - K) (by omega)]
        congr 1
        exact (Nat.mod_eq_sub_mod (by omega)).symm

theorem while_loop_invariant {σ : Type} (cond : σ → Bool) (body : σ → σ) (I : σ → Prop)
    (hI : ∀ s, I s → cond s = true → I (body s)) (k : Nat) :
    ∀ s, I s → I (while_loop cond body k s) := by
  induction k with
  | zero => intro s hs; exact hs
  | succ k ih =>
    intro s hs
    by_cases hc : cond s = true
    · rw [while_loop_step _ _ _ _ hc]; exact ih _ (hI s hs hc)
    · rw [while_loop_stop _ _ _ _ (by simpa using hc)]; exact hs

theorem memcpy_length (dst : List Nat) (off : Nat) (src : List Nat) (n : Nat)
    (hsrc : n ≤ src.length) (hdst : off + n ≤ dst.length) :
    (memcpy dst off src n).length = dst.length := by
  simp only [memcpy, List.length_append, List.length_take, List.length_drop]
  omega

theorem fill_loop_bounds (K : Nat) (tmp : List Nat) (hbuf : K ≤ tmp.length) (n k : Nat) :
    (while_loop (fun s : Nat × Nat × List Nat => decide (s.2.1 > K))
        (fun s => (s.1 + K, s.2.1 - K, memcpy s.2.2 s.1 tmp K)) k (0, n, palloc0 n)).1
      + (while_loop (fun s : Nat × Nat × List Nat => decide (s.2.1 > K))
        (fun s => (s.1 + K, s.2.1 - K, memcpy s.2.2 s.1 tmp K)) k (0, n, palloc0 n)).2.1 = n
    ∧ (while_loop (fun s : Nat × Nat × List Nat => decide (s.2.1 > K))
        (fun s => (s.1 + K, s.2.1 - K, memcpy s.2.2 s.1 tmp K)) k
        (0, n, palloc0 n)).2.2.length = n := by
  refine while_loop_invariant _ _
    (fun s : Nat × Nat × List Nat => s.1 + s.2.1 = n ∧ s.2.2.length = n) ?_ k _ ?_
  · intro s hs hc
    simp only [gt_iff_lt, decide_eq_true_eq] at hc
    obtain ⟨hs1, hs2⟩ := hs
    refine ⟨by simp only []; omega, ?_⟩
    simp only []
    rw [memcpy_length _ _ _ _ hbuf (by omega)]
    exact hs2
  · exact ⟨by simp, by simp [palloc0]⟩

theorem fill_loop_aux (K : Nat) (tmp : List Nat) (hK : 0 < K) (hbuf : K ≤ tmp.length)
    (fuel : Nat) :
    ∀ (cp block : Nat) (pre : List Nat), block ≤ fuel → pre.length = cp →
      (while_loop (fun s : Nat × Nat × List Nat => decide (s.2.1 > K))
          (fun s => (s.1 + K, s.2.1 - K, memcpy s.2.2 s.1 tmp K)) fuel
          (cp, block, pre ++ List.replicate block 0)).2.1 ≤ K
      ∧ memcpy
          (while_loop (fun s : Nat × Nat × List Nat => decide (s.2.1 > K))
            (fun s => (s.1 + K, s.2.1 - K, memcpy s.2.2 s.1 tmp K)) fuel
            (cp, block, pre ++ List.replicate block 0)).2.2
          (while_loop (fun s : Nat × Nat × List Nat => decide (s.2.1 > K))
            (fun s => (s.1 + K, s.2.1 - K, memcpy s.2.2 s.1 tmp K)) fuel
            (cp, block, pre ++ List.replicate block 0)).1
          tmp
          (while_loop (fun s : Nat × Nat × List Nat => decide (s.2.1 > K))
            (fun s => (s.1 + K, s.2.1 - K, memcpy s.2.2 s.1 tmp K)) fuel
            (cp, block, pre ++ List.replicate block 0)).2.1
        = pre ++ repeat_digest K block tmp := by
  induction fuel with
  | zero =>
    intro cp block pre hb hpre
    have : block = 0 := by omega
    subst this
    simp only [while_loop]
    refine ⟨by omega, ?_⟩
    rw [repeat_digest_small K 0 _ hK (by omega)]
    simp [memcpy, hpre.symm]
  | succ fuel ih =>
    intro cp block pre hb hpre
    by_cases hgt : block > K
    · rw [while_loop_step _ _ _ _ (by simpa using hgt)]
      have hm : memcpy (pre ++ List.replicate block 0) cp tmp K
          = (pre ++ tmp.take K) ++ List.replicate (block - K) 0 := by
        simp only [memcpy]
        rw [List.take_append_of_le_length (by omega), List.take_of_length_le (by omega),
          List.drop_append_eq_append_drop, List.drop_of_length_le (by omega)]
        simp only [List.nil_append, List.drop_replicate, List.append_assoc]
        congr 3
        omega
      simp only []
      rw [hm]
      have hlen : (pre ++ tmp.take K).length = cp + K := by
        rw [List.length_append, List.length_take]; omega
      obtain ⟨h1, h2⟩ := ih (cp + K) (block - K) (pre ++ tmp.take K) (by omega) hlen
      refine ⟨h1, ?_⟩
      rw [h2, repeat_digest_step K block _ hK (by omega), List.append_assoc]
    · rw [while_loop_stop _ _ _ _ (by simpa using hgt)]
      refine ⟨by simp only []; omega, ?_⟩
      simp only [memcpy]
      rw [repeat_digest_small K block _ hK (by omega),
        List.take_append_of_le_length (by omega), List.take_of_length_le (by omega),
        List.drop_append_eq_append_drop, List.drop_of_length_le (by omega)]
      simp [hpre]

theorem fill_bytes_eq (K n : Nat) (tmp : List Nat) (hK : 0 < K) (hbuf : K ≤ tmp.length) :
    (fill_bytes K n tmp).2.2 = repeat_digest K n tmp ∧ (fill_bytes K n tmp).2.1 ≤ K := by
  obtain ⟨h1, h2⟩ := fill_loop_aux K tmp hK hbuf n 0 n [] (le_refl _) rfl
  simp only [List.nil_append] at h1 h2
  unfold fill_bytes palloc0
  exact ⟨h2, h1⟩

theorem fill_bytes_of_state (K n : Nat) (tmp : List Nat) :
    fill_bytes K n tmp
      = ((fill_state K n tmp n).1, (fill_state K n tmp n).2.1,
         memcpy (fill_state K n tmp n).2.2 (fill_state K n tmp n).1 tmp
           (fill_state K n tmp n).2.1) := rfl

/-- C16. For every password length `L`, every salt length `N` of at most 16 and
a digest length `K` of 32 or 64, with `dp` and `ds` the contents of
`sha_buf_tmp` (at least `K` bytes): the sequence P that lines 311-319 make has
exactly `L` bytes and `P[i] = dp[i % K]`, the sequence S that lines 350-356
make has exactly `N` bytes and `S[i] = ds[i]`.  Every `memcpy` stays inside
the allocation: at each turn of either loop `cp + block` is the allocated
length, so the `K` bytes copied while `block > K` and the `block` bytes copied
after the loop end at or before the end of the sequence, whose length never
changes; and the loop ends with `block` at most `K`. -/
theorem p_and_s_bytes (K L N : Nat) (dp ds : List Nat)
    (hK : K = 32 ∨ K = 64) (hN : N ≤ 16)
    (hdp : K ≤ dp.length) (hds : K ≤ ds.length) :
    ((fill_bytes K L dp).2.2.length = L
      ∧ ∀ i, i < L → (fill_bytes K L dp).2.2.getD i 0 = dp.getD (i % K) 0)
    ∧ ((fill_bytes K N ds).2.2.length = N
      ∧ ∀ i, i < N → (fill_bytes K N ds).2.2.getD i 0 = ds.getD i 0)
    ∧ (∀ k, (fill_state K L dp k).1 + (fill_state K L dp k).2.1 = L
        ∧ (fill_state K L dp k).2.2.length = L
        ∧ (fill_state K L dp k).1 + min (fill_state K L dp k).2.1 K ≤ L)
    ∧ (∀ k, (fill_state K N ds k).1 + (fill_state K N ds k).2.1 = N
        ∧ (fill_state K N ds k).2.2.length = N
        ∧ (fill_state K N ds k).1 + min (fill_state K N ds k).2.1 K ≤ N)
    ∧ (fill_state K L dp L).2.1 ≤ K ∧ (fill_state K N ds N).2.1 ≤ K := by
  have hK0 : 0 < K := by rcases hK with h | h <;> omega
  have hK16 : 16 < K := by rcases hK with h | h <;> omega
  obtain ⟨hP, hPb⟩ := fill_bytes_eq K L dp hK0 hdp
  obtain ⟨hS, hSb⟩ := fill_bytes_eq K N ds hK0 hds
  refine ⟨⟨?_, ?_⟩, ⟨?_, ?_⟩, ?_, ?_, hPb, hSb⟩
  · rw [hP, repeat_digest_length K L dp hK0 hdp]
  · intro i hi
    rw [hP, repeat_digest_getD K dp hK0 hdp L i hi]
  · rw [hS, repeat_digest_length K N ds hK0 hds]
  · intro i hi
    rw [hS, repeat_digest_getD K ds hK0 hds N i hi, Nat.mod_eq_of_lt (by omega)]
  · intro k
    obtain ⟨h1, h2⟩ := fill_loop_bounds K dp hdp L k
    exact ⟨h1, h2, by unfold fill_state; omega⟩
  · intro k
    obtain ⟨h1, h2⟩ := fill_loop_bounds K ds hds N k
    exact ⟨h1, h2, by unfold fill_state; omega⟩

/-- C16, at a password of 70 bytes and a salt of 16 bytes with digests of 32
bytes: byte 69 of P is byte 5 of the digest, byte 15 of S is byte 15. -/
theorem p_and_s_bytes_witness :
    ((32 = 32 ∨ 32 = 64) ∧ 16 ≤ 16 ∧ 32 ≤ (toy_hash 64 [1]).length
      ∧ 32 ≤ (toy_hash 64 [2]).length)
    ∧ (fill_bytes 32 70 (toy_hash 64 [1])).2.2.length = 70
    ∧ (fill_bytes 32 70 (toy_hash 64 [1])).2.2.getD 69 0 = (toy_hash 64 [1]).getD 5 0
    ∧ (fill_bytes 32 16 (toy_hash 64 [2])).2.2.length = 16
    ∧ (fill_bytes 32 16 (toy_hash 64 [2])).2.2.getD 15 0 = (toy_hash 64 [2]).getD 15 0 :=
  have h := p_and_s_bytes 32 70 16 (toy_hash 64 [1]) (toy_hash 64 [2]) (Or.inl rfl)
    (by decide) (by decide) (by decide)
  ⟨⟨Or.inl rfl, by decide, by decide, by decide⟩, h.1.1, h.1.2 69 (by decide), h.2.1.1,
    h.2.1.2 15 (by decide)⟩

/-! ## The main loop (C14) -/

theorem digest_as_round_loop (l : Locals) (pw : List Nat) :
    (px_crypt_shacrypt_digest l pw).sha_buf
        = (round_loop l.buf_size l.len l.salt_len l.rounds
            (px_crypt_shacrypt_digest l pw).p_bytes (px_crypt_shacrypt_digest l pw).s_bytes
            (phase1_sha_buf l pw) (phase2_digestB l pw)).2.1
    ∧ (px_crypt_shacrypt_digest l pw).p_bytes
        = (fill_bytes l.buf_size l.len
            (px_md_finish
              (add_repeated pw l.len l.len
                (px_md_reset (px_md_update (px_md_update (px_md_update l.digestB pw l.len)
                  l.dec_salt_binary l.salt_len) pw l.len)))
              (List.replicate PX_SHACRYPT_DIGEST_MAX_LENGTH 0))).2.2
    ∧ (px_crypt_shacrypt_digest l pw).s_bytes
        = (fill_bytes l.buf_size l.salt_len
            (px_md_finish (phase2_digestB l pw)
              (px_md_finish
                (add_repeated pw l.len l.len
                  (px_md_reset (px_md_update (px_md_update (px_md_update l.digestB pw l.len)
                    l.dec_salt_binary l.salt_len) pw l.len)))
                (List.replicate PX_SHACRYPT_DIGEST_MAX_LENGTH 0)))).2.2 :=
  ⟨rfl, rfl, rfl⟩

theorem toy_hash_contract (n : Nat) (m : List Nat) :
    (toy_hash n m).length = n ∧ ∀ b ∈ toy_hash n m, b < 256 := by
  constructor
  · simp [toy_hash]
  · intro b hb
    simp only [toy_hash, List.mem_map] at hb
    obtain ⟨i, _, rfl⟩ := hb
    exact Nat.mod_lt _ (by decide)

theorem map_mod_of_lt (d : List Nat) (h : ∀ b ∈ d, b < 256) : d.map (· % 256) = d := by
  induction d with
  | nil => rfl
  | cons a d ih =>
    simp only [List.map_cons]
    rw [ih (fun b hb => h b (List.mem_cons_of_mem _ hb)),
      Nat.mod_eq_of_lt (h a (List.mem_cons_self _ _))]

theorem px_md_finish_eq (K : Nat) (md : PX_MD) (buf : List Nat)
    (hH : ∀ m, (md.hash m).length = K ∧ ∀ b ∈ md.hash m, b < 256) :
    (px_md_finish md buf).take K = md.hash md.chunks.flatten
      ∧ (px_md_finish md buf).length = K + (buf.length - K) := by
  have h1 := hH md.chunks.flatten
  simp only [px_md_finish]
  rw [map_mod_of_lt _ h1.2]
  constructor
  · rw [List.take_append_of_le_length (by omega), List.take_of_length_le (by omega)]
  · simp [h1.1]

theorem round_body_chunks (K len salt_len : Nat) (P S : List Nat) (block : Nat)
    (buf : List Nat) (dB : PX_MD) (hP : P.length = len) (hS : S.length = salt_len) :
    (round_body K len salt_len P S block buf dB).2.chunks.flatten
        = round_message P S (buf.take K) block
      ∧ (round_body K len salt_len P S block buf dB).2.hash = dB.hash
      ∧ (round_body K len salt_len P S block buf dB).1
        = px_md_finish (round_body K len salt_len P S block buf dB).2 buf := by
  have h2 : (block &&& 1 ≠ 0) ↔ block % 2 = 1 := by rw [Nat.and_one_is_mod]; omega
  have hPt : P.take len = P := List.take_of_length_le (by omega)
  have hSt : S.take salt_len = S := List.take_of_length_le (by omega)
  refine ⟨?_, ?_, rfl⟩
  · simp only [round_body, round_message]
    by_cases a : block % 2 = 1 <;> by_cases b : block % 3 = 0 <;> by_cases c : block % 7 = 0 <;>
      simp [h2, a, b, c, px_md_update_chunks, px_md_reset_chunks, hPt, hSt]
  · simp only [round_body]
    by_cases b : block % 3 = 0 <;> by_cases c : block % 7 = 0 <;>
      simp [b, c, px_md_update_hash, px_md_reset_hash]

theorem round_loop_aux (K len salt_len rounds : Nat) (P S da : List Nat)
    (H : List Nat → List Nat)
    (hH : ∀ m, (H m).length = K ∧ ∀ b ∈ H m, b < 256)
    (hP : P.length = len) (hS : S.length = salt_len) (n : Nat) :
    ∀ (block : Nat) (buf : List Nat) (dB : PX_MD), block + n ≤ rounds → dB.hash = H →
      K ≤ buf.length → buf.take K = accumulator H P S da block →
      ((while_loop (fun s : Nat × List Nat × PX_MD => decide (s.1 < rounds))
        (fun s =>
          let r := round_body K len salt_len P S s.1 s.2.1 s.2.2
          (s.1 + 1, r.1, r.2))
        n (block, buf, dB)).2.1.take K = accumulator H P S da (block + n)
      ∧ (while_loop (fun s : Nat × List Nat × PX_MD => decide (s.1 < rounds))
        (fun s =>
          let r := round_body K len salt_len P S s.1 s.2.1 s.2.2
          (s.1 + 1, r.1, r.2))
        n (block, buf, dB)).1 = block + n) := by
  induction n with
  | zero =>
    intro block buf dB _ _ _ hacc
    exact ⟨hacc, rfl⟩
  | succ n ih =>
    intro block buf dB hb hd hlen hacc
    rw [while_loop_step _ _ _ _ (by simp only [decide_eq_true_eq]; omega)]
    obtain ⟨hc, hh, hf⟩ := round_body_chunks K len salt_len P S block buf dB hP hS
    have hfin := px_md_finish_eq K (round_body K len salt_len P S block buf dB).2 buf
      (by rw [hh, hd]; exact hH)
    have e : block + (n + 1) = block + 1 + n := by omega
    rw [e]
    refine ih _ _ _ (by omega) (by rw [hh, hd]) ?_ ?_
    · show K ≤ (round_body K len salt_len P S block buf dB).1.length
      rw [hf, hfin.2]; omega
    · show (round_body K len salt_len P S block buf dB).1.take K = _
      rw [hf, hfin.1, hc, hh, hd, hacc]
      rfl

theorem digest_section_take (type : PGCRYPTO_SHA_t) (buf : List Nat) :
    digest_section type (buf.take (type_buf_size type)) = digest_section type buf := by
  cases type
  · have e : ∀ i, i < 32 → (buf.take 32).getD i 0 = buf.getD i 0 :=
      fun i hi => getD_take_of_lt _ _ _ hi
    simp only [digest_section, type_buf_size, encode_sha256]
    simp (disch := decide) only [e]
  · have e : ∀ i, i < 64 → (buf.take 64).getD i 0 = buf.getD i 0 :=
      fun i hi => getD_take_of_lt _ _ _ hi
    simp only [digest_section, type_buf_size, encode_sha512, PX_SHACRYPT_DIGEST_MAX_LENGTH]
    simp (disch := decide) only [e]
  · rfl
theorem add_repeated_hash (data : List Nat) (len k : Nat) (md : PX_MD) :
    (add_repeated data len k md).hash = md.hash := by
  induction k generalizing md with
  | zero => rfl
  | succ k ih => simp only [add_repeated, ih, px_md_update_hash]

theorem add_blocks_hash (K len : Nat) (sha_buf : List Nat) (A : PX_MD) :
    (add_blocks K len sha_buf A).hash = A.hash := by
  unfold add_blocks
  simp only [px_md_update_hash]
  refine while_loop_invariant _ _ (fun s : Nat × PX_MD => s.2.hash = A.hash) ?_ len _ rfl
  intro s hs _
  simp only [px_md_update_hash]
  exact hs

theorem add_length_bits_hash (K len : Nat) (pw sha_buf : List Nat) (A : PX_MD) :
    (add_length_bits K len pw sha_buf A).2.hash = A.hash := by
  unfold add_length_bits
  refine while_loop_invariant _ _ (fun s : Nat × PX_MD => s.2.hash = A.hash) ?_ len _ rfl
  intro s hs _
  simp only [px_md_update_hash]
  exact hs

theorem digest_schedule (l : Locals) (pw : List Nat) (H : List Nat → List Nat)
    (hA : l.digestA.hash = H) (hB : l.digestB.hash = H) (hK : 0 < l.buf_size)
    (hH : ∀ m, (H m).length = l.buf_size ∧ ∀ b ∈ H m, b < 256) :
    (∀ i, i ≤ l.rounds →
        (round_state l.buf_size l.len l.salt_len l.rounds
            (px_crypt_shacrypt_digest l pw).p_bytes (px_crypt_shacrypt_digest l pw).s_bytes
            (phase1_sha_buf l pw) (phase2_digestB l pw) i).2.1.take l.buf_size
          = accumulator H (px_crypt_shacrypt_digest l pw).p_bytes
              (px_crypt_shacrypt_digest l pw).s_bytes
              ((phase1_sha_buf l pw).take l.buf_size) i
        ∧ (round_state l.buf_size l.len l.salt_len l.rounds
            (px_crypt_shacrypt_digest l pw).p_bytes (px_crypt_shacrypt_digest l pw).s_bytes
            (phase1_sha_buf l pw) (phase2_digestB l pw) i).1 = i)
      ∧ (px_crypt_shacrypt_digest l pw).p_bytes.length = l.len
      ∧ (px_crypt_shacrypt_digest l pw).s_bytes.length = l.salt_len
      ∧ ((phase1_sha_buf l pw).take l.buf_size).length = l.buf_size := by
  obtain ⟨h1, h2, h3⟩ := digest_as_round_loop l pw
  have hB2 : (phase2_digestB l pw).hash = H := by
    simp only [phase2_digestB, add_repeated_hash, px_md_reset_hash, px_md_update_hash, hB]
  have hP : (px_crypt_shacrypt_digest l pw).p_bytes.length = l.len := by
    rw [h2]
    have hfin := px_md_finish_eq l.buf_size
      (add_repeated pw l.len l.len
        (px_md_reset (px_md_update (px_md_update (px_md_update l.digestB pw l.len)
          l.dec_salt_binary l.salt_len) pw l.len)))
      (List.replicate PX_SHACRYPT_DIGEST_MAX_LENGTH 0)
      (by simp only [add_repeated_hash, px_md_reset_hash, px_md_update_hash, hB]; exact hH)
    rw [(fill_bytes_eq _ _ _ hK (by rw [hfin.2]; omega)).1]
    exact repeat_digest_length _ _ _ hK (by rw [hfin.2]; omega)
  have hS : (px_crypt_shacrypt_digest l pw).s_bytes.length = l.salt_len := by
    rw [h3]
    have hfin := px_md_finish_eq l.buf_size (phase2_digestB l pw)
      (px_md_finish
        (add_repeated pw l.len l.len
          (px_md_reset (px_md_update (px_md_update (px_md_update l.digestB pw l.len)
            l.dec_salt_binary l.salt_len) pw l.len)))
        (List.replicate PX_SHACRYPT_DIGEST_MAX_LENGTH 0))
      (by rw [hB2]; exact hH)
    rw [(fill_bytes_eq _ _ _ hK (by rw [hfin.2]; omega)).1]
    exact repeat_digest_length _ _ _ hK (by rw [hfin.2]; omega)
  have h1len : l.buf_size ≤ (phase1_sha_buf l pw).length := by
    have hfin := px_md_finish_eq l.buf_size
      (add_length_bits l.buf_size l.len pw
        (px_md_finish (px_md_update (px_md_update (px_md_update l.digestB pw l.len)
          l.dec_salt_binary l.salt_len) pw l.len)
          (List.replicate PX_SHACRYPT_DIGEST_MAX_LENGTH 0))
        (add_blocks l.buf_size l.len
          (px_md_finish (px_md_update (px_md_update (px_md_update l.digestB pw l.len)
            l.dec_salt_binary l.salt_len) pw l.len)
            (List.replicate PX_SHACRYPT_DIGEST_MAX_LENGTH 0))
          (px_md_update (px_md_update l.digestA pw l.len) l.dec_salt_binary l.salt_len))).2
      (px_md_finish (px_md_update (px_md_update (px_md_update l.digestB pw l.len)
          l.dec_salt_binary l.salt_len) pw l.len)
          (List.replicate PX_SHACRYPT_DIGEST_MAX_LENGTH 0))
      (by simp only [add_length_bits_hash, add_blocks_hash, px_md_update_hash, hA]; exact hH)
    show l.buf_size ≤ (px_md_finish _ _).length
    rw [hfin.2]; omega
  refine ⟨?_, hP, hS, ?_⟩
  · intro i hi
    have := round_loop_aux l.buf_size l.len l.salt_len l.rounds _ _
      ((phase1_sha_buf l pw).take l.buf_size) H hH hP hS i 0 _ _ (by omega) hB2 h1len rfl
    simp only [Nat.zero_add] at this
    exact this
  · rw [List.length_take]; omega

/-- C14. In a call that passes the analysis of the salt, with a digest `H` of
`K` bytes, the main loop runs for `i = 0 .. rounds - 1`: after `i` iterations
the counter is `i` and the first `K` bytes of `sha_buf` are the accumulator of
the specification after `i` rounds, which starts from the digest of phase 1 and
in round `i` becomes `H` of `round_message`, that is (P or the accumulator by
parity) ++ (S unless 3 divides `i`) ++ (P unless 7 divides `i`) ++ (the
accumulator or P by parity).  The digest that is encoded in the result is the
accumulator after exactly `rounds` rounds. -/
theorem round_loop_schedule (f : String → Option (List Nat → List Nat))
    (pw salt : List Nat) (dstlen : Nat) (l : Locals) (H : List Nat → List Nat)
    (hp : px_crypt_shacrypt_prepare f (some pw) (some salt) dstlen = .ok l)
    (hf : f (type_name l.type) = some H)
    (hH : ∀ m, (H m).length = type_buf_size l.type ∧ ∀ b ∈ H m, b < 256) :
    ∃ P S da,
      P = (px_crypt_shacrypt_digest l pw).p_bytes
      ∧ S = (px_crypt_shacrypt_digest l pw).s_bytes
      ∧ da = (phase1_sha_buf l pw).take (type_buf_size l.type)
      ∧ P.length = l.len ∧ S.length = l.salt_len ∧ da.length = type_buf_size l.type
      ∧ (∀ i, i ≤ l.rounds →
          (round_state (type_buf_size l.type) l.len l.salt_len l.rounds P S
              (phase1_sha_buf l pw) (phase2_digestB l pw) i).1 = i
          ∧ (round_state (type_buf_size l.type) l.len l.salt_len l.rounds P S
              (phase1_sha_buf l pw) (phase2_digestB l pw) i).2.1.take (type_buf_size l.type)
            = accumulator H P S da i)
      ∧ accumulator H P S da 0 = da
      ∧ (∀ i, accumulator H P S da (i + 1)
          = H ((if i % 2 = 1 then P else accumulator H P S da i)
              ++ (if i % 3 ≠ 0 then S else [])
              ++ (if i % 7 ≠ 0 then P else [])
              ++ (if i % 2 = 1 then accumulator H P S da i else P)))
      ∧ (px_crypt_shacrypt_digest l pw).sha_buf
          = (round_state (type_buf_size l.type) l.len l.salt_len l.rounds P S
              (phase1_sha_buf l pw) (phase2_digestB l pw) l.rounds).2.1
      ∧ (px_crypt_shacrypt f (some pw) (some salt) dstlen).rounds_run = l.rounds
      ∧ (px_crypt_shacrypt f (some pw) (some salt) dstlen).ret
          = .ok (l.out_buf ++ ascii_dollar
              :: digest_section l.type (accumulator H P S da l.rounds)) := by
  obtain ⟨_, _, _, _, ht, _, _, _, hb, ⟨hA, hfA, hdA, hdB⟩, _, _⟩ := prepare_ok _ _ _ _ _ hp
  have hHA : hA = H := by
    rw [hfA] at hf
    exact Option.some.inj hf
  have hK : 0 < l.buf_size := by
    rw [hb]
    cases hty : l.type
    · decide
    · decide
    · exact absurd hty ht
  obtain ⟨h1, h2, h3, h4⟩ := digest_schedule l pw H (by rw [hdA, hHA]) (by rw [hdB, hHA]) hK
    (by rw [hb]; exact hH)
  rw [hb] at h1 h4
  have hrun := shacrypt_of_prepare_ok f pw salt dstlen l hp
  refine ⟨_, _, _, rfl, rfl, rfl, h2, h3, h4, fun i hi => ⟨(h1 i hi).2, (h1 i hi).1⟩, rfl,
    fun _ => rfl, ?_, ?_, ?_⟩
  · rw [← hb]
    exact (digest_as_round_loop l pw).1
  · rw [hrun]
  · rw [hrun]
    simp only []
    have hl := (h1 l.rounds (le_refl _)).1
    rw [← hl, digest_section_take, ← hb]
    exact congrArg (fun b => Except.ok (l.out_buf ++ ascii_dollar :: digest_section l.type b))
      (digest_as_round_loop l pw).1

theorem round_loop_schedule_witness :
    (px_crypt_shacrypt_prepare toy_digest (some (str "pw")) (some (str "$5$salt")) 124
        = .ok ⟨.PGCRYPTO_SHA256CRYPT, 5000, 0, str "salt", 4, 2, 32, str "$5$salt",
            ⟨toy_hash 32, [], 0⟩, ⟨toy_hash 32, [], 0⟩⟩
      ∧ toy_digest (type_name .PGCRYPTO_SHA256CRYPT) = some (toy_hash 32)
      ∧ ∀ m, (toy_hash 32 m).length = 32 ∧ ∀ b ∈ toy_hash 32 m, b < 256)
    ∧ ∃ P S da, P.length = 2 ∧ S.length = 4 ∧ da.length = 32
        ∧ accumulator (toy_hash 32) P S da 1 = toy_hash 32 (da ++ P)
        ∧ accumulator (toy_hash 32) P S da 2
            = toy_hash 32 (P ++ S ++ P ++ accumulator (toy_hash 32) P S da 1)
        ∧ (px_crypt_shacrypt toy_digest (some (str "pw")) (some (str "$5$salt")) 124).rounds_run
            = 5000
        ∧ (px_crypt_shacrypt toy_digest (some (str "pw")) (some (str "$5$salt")) 124).ret
            = .ok (str "$5$salt" ++ ascii_dollar
                :: digest_section .PGCRYPTO_SHA256CRYPT
                     (accumulator (toy_hash 32) P S da 5000)) := by
  have hp : px_crypt_shacrypt_prepare toy_digest (some (str "pw")) (some (str "$5$salt")) 124
      = .ok ⟨.PGCRYPTO_SHA256CRYPT, 5000, 0, str "salt", 4, 2, 32, str "$5$salt",
          ⟨toy_hash 32, [], 0⟩, ⟨toy_hash 32, [], 0⟩⟩ := by rfl
  refine ⟨⟨hp, rfl, toy_hash_contract 32⟩, ?_⟩
  obtain ⟨P, S, da, _, _, _, h1, h2, h3, _, h5, h6, _, h8, h9⟩ :=
    round_loop_schedule toy_digest (str "pw") (str "$5$salt") 124 _ (toy_hash 32) hp rfl
      (toy_hash_contract 32)
  have a0 := h6 0
  have a1 := h6 1
  rw [h5] at a0
  simp only [Nat.zero_add, Nat.zero_mod, Nat.one_mod, Nat.reduceAdd, Nat.reduceMod, ne_eq,
    not_true_eq_false, if_true, if_false, List.append_nil, one_ne_zero, not_false_eq_true,
    zero_ne_one] at a0 a1
  exact ⟨P, S, da, h1, h2, h3, a0, a1, h8, h9⟩

/-! ## The encoder and the specified permutation (C11) -/

theorem b64_chars_eq_map (n w : Nat) :
    b64_chars n w
      = (List.range n).map (fun j => _crypt_itoa64.getD ((w >>> (6 * j)) &&& 63) 0) := by
  induction n generalizing w with
  | zero => rfl
  | succ n ih =>
    rw [b64_chars, ih, List.range_succ_eq_map, List.map_cons, List.map_map]
    congr 1
    apply List.map_congr_left
    intro j _
    simp only [Function.comp, ← Nat.shiftRight_add]
    congr 3
    rw [Nat.succ_eq_add_one]; ring

theorem b64_chars_mod (n k w : Nat) : b64_chars n (w % 2 ^ (6 * n + k)) = b64_chars n w := by
  induction n generalizing w with
  | zero => rfl
  | succ n ih =>
    have e : 2 ^ (6 * (n + 1) + k) = 2 ^ 6 * 2 ^ (6 * n + k) := by
      rw [← pow_add]; congr 1; ring
    have h1 : (w % 2 ^ (6 * (n + 1) + k)) &&& 0x3f = w &&& 0x3f := by
      have a : ∀ x : Nat, x &&& 0x3f = x % 2 ^ 6 := fun x => Nat.and_pow_two_sub_one_eq_mod x 6
      rw [a, a, e, Nat.mod_mul_right_mod]
    have h2 : (w % 2 ^ (6 * (n + 1) + k)) >>> 6 = (w >>> 6) % 2 ^ (6 * n + k) := by
      rw [Nat.shiftRight_eq_div_pow, Nat.shiftRight_eq_div_pow, e, Nat.mod_mul_right_div_self]
    rw [b64_chars, b64_chars, h1, h2, ih]

theorem emit_eq (b2 b1 b0 n : Nat) (hn : n ≤ 5) (cp : List Nat) :
    b64_from_24bit b2 b1 b0 n cp = cp ++ emit b2 b1 b0 n := by
  rw [b64_from_24bit_eq, emit]
  have e : (32 : Nat) = 6 * n + (32 - 6 * n) := by omega
  rw [e, b64_chars_mod, b64_chars_eq_map]
  rfl

theorem digest_section_sha256_spec (d : List Nat) :
    digest_section .PGCRYPTO_SHA256CRYPT d = spec_sha256_section d := by
  simp only [digest_section, encode_sha256, spec_sha256_section]
  simp only [emit_eq _ _ _ _ (by decide : 4 ≤ 5), emit_eq _ _ _ _ (by decide : 3 ≤ 5),
    List.nil_append]

theorem digest_section_sha512_spec (d : List Nat) :
    digest_section .PGCRYPTO_SHA512CRYPT d = spec_sha512_section d := by
  simp only [digest_section, encode_sha512, spec_sha512_section]
  simp only [emit_eq _ _ _ _ (by decide : 4 ≤ 5), emit_eq _ _ _ _ (by decide : 2 ≤ 5),
    List.nil_append]

/-- C11. With `emit(b2, b1, b0, n)` the `n` characters whose `j`-th is the
alphabet entry at `((b2 << 16 | b1 << 8 | b0) >> 6j) & 63`, the encoder writes,
after the text so far and the separator, for SHA-256 the ten groups of four
characters and the group `emit(0, d31, d30, 3)` of the specification, and for
SHA-512 its twenty-one groups of four characters and the group
`emit(0, 0, d63, 2)`, for every digest `d`; the alphabet of the specification
is the table of the code. -/
theorem encoder_is_specified_permutation (out_buf d : List Nat) :
    px_crypt_shacrypt_encode .PGCRYPTO_SHA256CRYPT out_buf d
        = .ok (out_buf ++ ascii_dollar :: spec_sha256_section d)
      ∧ px_crypt_shacrypt_encode .PGCRYPTO_SHA512CRYPT out_buf d
        = .ok (out_buf ++ ascii_dollar :: spec_sha512_section d)
      ∧ digest_section .PGCRYPTO_SHA256CRYPT d = spec_sha256_section d
      ∧ digest_section .PGCRYPTO_SHA512CRYPT d = spec_sha512_section d
      ∧ alphabet = _crypt_itoa64
      ∧ (spec_sha256_section d).length = 43 ∧ (spec_sha512_section d).length = 86 := by
  refine ⟨?_, ?_, digest_section_sha256_spec d, digest_section_sha512_spec d, rfl, ?_, ?_⟩
  · rw [encode_eq _ _ _ (by decide), digest_section_sha256_spec]
  · rw [encode_eq _ _ _ (by decide), digest_section_sha512_spec]
  · rw [← digest_section_sha256_spec]; exact encode_sha256_length d
  · rw [← digest_section_sha512_spec]; exact encode_sha512_length d

/-! ## The encoder is injective (C19) -/

theorem crypt_itoa64_nodup : _crypt_itoa64.Nodup := by decide

theorem crypt_itoa64_inj (i j : Nat) (hi : i < 64) (hj : j < 64)
    (h : _crypt_itoa64.getD i 0 = _crypt_itoa64.getD j 0) : i = j := by
  have hi2 : i < _crypt_itoa64.length := by rw [crypt_itoa64_length]; exact hi
  have hj2 : j < _crypt_itoa64.length := by rw [crypt_itoa64_length]; exact hj
  rw [List.getD_eq_getElem _ _ hi2, List.getD_eq_getElem _ _ hj2] at h
  exact (List.Nodup.getElem_inj_iff crypt_itoa64_nodup).mp h

theorem pack_eq (b2 b1 b0 : Nat) (h1 : b1 < 256) (h0 : b0 < 256) :
    (b2 <<< 16) ||| (b1 <<< 8) ||| b0 = b2 * 65536 + b1 * 256 + b0 := by
  have e1 : (b2 <<< 16) ||| (b1 <<< 8) = 2 ^ 16 * b2 + b1 * 256 := by
    rw [Nat.mul_add_lt_is_or (by omega) b2, Nat.shiftLeft_eq, Nat.shiftLeft_eq]
    congr 1
    ring
  have e2 : 2 ^ 16 * b2 + b1 * 256 = 2 ^ 8 * (256 * b2 + b1) := by ring
  rw [e1, e2, ← Nat.mul_add_lt_is_or (by omega : b0 < 2 ^ 8)]
  ring

theorem b64_chars_inj (n w v : Nat) (h : b64_chars n w = b64_chars n v) :
    w % 64 ^ n = v % 64 ^ n := by
  induction n generalizing w v with
  | zero => simp [Nat.mod_one]
  | succ n ih =>
    simp only [b64_chars, List.cons.injEq] at h
    have a : ∀ x : Nat, x &&& 0x3f = x % 64 := fun x => Nat.and_pow_two_sub_one_eq_mod x 6
    have h1 := crypt_itoa64_inj _ _ (and_63_lt w) (and_63_lt v) h.1
    rw [a, a] at h1
    have h2 := ih _ _ h.2
    rw [Nat.shiftRight_eq_div_pow, Nat.shiftRight_eq_div_pow] at h2
    have e : (64 : Nat) ^ (n + 1) = 64 * 64 ^ n := by ring
    rw [e, Nat.mod_mul, Nat.mod_mul, h1]
    have : (2 : Nat) ^ 6 = 64 := by norm_num
    rw [this] at h2
    rw [h2]

theorem emit_as_chars (b2 b1 b0 n : Nat) :
    emit b2 b1 b0 n = b64_chars n ((b2 <<< 16) ||| (b1 <<< 8) ||| b0) := by
  rw [b64_chars_eq_map]; rfl

theorem emit_length (b2 b1 b0 n : Nat) : (emit b2 b1 b0 n).length = n := by
  simp [emit]

theorem group_four_inj (b2 b1 b0 c2 c1 c0 : Nat) (h2 : b2 < 256) (h1 : b1 < 256)
    (h0 : b0 < 256) (k2 : c2 < 256) (k1 : c1 < 256) (k0 : c0 < 256)
    (h : emit b2 b1 b0 4 = emit c2 c1 c0 4) : b2 = c2 ∧ b1 = c1 ∧ b0 = c0 := by
  rw [emit_as_chars, emit_as_chars, pack_eq _ _ _ h1 h0, pack_eq _ _ _ k1 k0] at h
  have := b64_chars_inj _ _ _ h
  norm_num at this
  omega

theorem group_three_inj (b1 b0 c1 c0 : Nat) (h1 : b1 < 256)
    (h0 : b0 < 256) (k1 : c1 < 256) (k0 : c0 < 256)
    (h : emit 0 b1 b0 3 = emit 0 c1 c0 3) : b1 = c1 ∧ b0 = c0 := by
  rw [emit_as_chars, emit_as_chars, pack_eq _ _ _ h1 h0, pack_eq _ _ _ k1 k0] at h
  have := b64_chars_inj _ _ _ h
  norm_num at this
  omega

theorem group_two_inj (b0 c0 : Nat) (h0 : b0 < 256) (k0 : c0 < 256)
    (h : emit 0 0 b0 2 = emit 0 0 c0 2) : b0 = c0 := by
  rw [emit_as_chars, emit_as_chars, pack_eq _ _ _ (by decide) h0,
    pack_eq _ _ _ (by decide) k0] at h
  have := b64_chars_inj _ _ _ h
  norm_num at this
  omega

theorem emit_append_inj (b2 b1 b0 c2 c1 c0 n : Nat) (r s : List Nat)
    (h : emit b2 b1 b0 n ++ r = emit c2 c1 c0 n ++ s) :
    emit b2 b1 b0 n = emit c2 c1 c0 n ∧ r = s :=
  List.append_inj h (by rw [emit_length, emit_length])

theorem getD_lt_256 (d : List Nat) (hb : ∀ x ∈ d, x < 256) (i : Nat) : d.getD i 0 < 256 := by
  by_cases h : i < d.length
  · rw [List.getD_eq_getElem _ _ h]
    exact hb _ (List.getElem_mem h)
  · rw [List.getD_eq_default _ _ (by omega)]
    decide

theorem list_ext_getD (d e : List Nat) (hl : d.length = e.length)
    (h : ∀ i, i < d.length → d.getD i 0 = e.getD i 0) : d = e := by
  apply List.ext_getElem hl
  intro i h1 h2
  have := h i h1
  rw [List.getD_eq_getElem _ _ h1, List.getD_eq_getElem _ _ h2] at this
  exact this

theorem sha256_section_inj (d e : List Nat) (hd : ∀ x ∈ d, x < 256) (he : ∀ x ∈ e, x < 256)
    (h : spec_sha256_section d = spec_sha256_section e) (i : Nat) (hi : i < 32) :
    d.getD i 0 = e.getD i 0 := by
  have B := getD_lt_256 d hd
  have E := getD_lt_256 e he
  simp only [spec_sha256_section, List.append_assoc] at h
  obtain ⟨g0, h⟩ := emit_append_inj _ _ _ _ _ _ _ _ _ h
  obtain ⟨x0, x10, x20⟩ := group_four_inj _ _ _ _ _ _ (B _) (B _) (B _) (E _) (E _) (E _) g0
  obtain ⟨g1, h⟩ := emit_append_inj _ _ _ _ _ _ _ _ _ h
  obtain ⟨x21, x1, x11⟩ := group_four_inj _ _ _ _ _ _ (B _) (B _) (B _) (E _) (E _) (E _) g1
  obtain ⟨g2, h⟩ := emit_append_inj _ _ _ _ _ _ _ _ _ h
  obtain ⟨x12, x22, x2⟩ := group_four_inj _ _ _ _ _ _ (B _) (B _) (B _) (E _) (E _) (E _) g2
  obtain ⟨g3, h⟩ := emit_append_inj _ _ _ _ _ _ _ _ _ h
  obtain ⟨x3, x13, x23⟩ := group_four_inj _ _ _ _ _ _ (B _) (B _) (B _) (E _) (E _) (E _) g3
  obtain ⟨g4, h⟩ := emit_append_inj _ _ _ _ _ _ _ _ _ h
  obtain ⟨x24, x4, x14⟩ := group_four_inj _ _ _ _ _ _ (B _) (B _) (B _) (E _) (E _) (E _) g4
  obtain ⟨g5, h⟩ := emit_append_inj _ _ _ _ _ _ _ _ _ h
  obtain ⟨x15, x25, x5⟩ := group_four_inj _ _ _ _ _ _ (B _) (B _) (B _) (E _) (E _) (E _) g5
  obtain ⟨g6, h⟩ := emit_append_inj _ _ _ _ _ _ _ _ _ h
  obtain ⟨x6, x16, x26⟩ := group_four_inj _ _ _ _ _ _ (B _) (B _) (B _) (E _) (E _) (E _) g6
  obtain ⟨g7, h⟩ := emit_append_inj _ _ _ _ _ _ _ _ _ h
  obtain ⟨x27, x7, x17⟩ := group_four_inj _ _ _ _ _ _ (B _) (B _) (B _) (E _) (E _) (E _) g7
  obtain ⟨g8, h⟩ := emit_append_inj _ _ _ _ _ _ _ _ _ h
  obtain ⟨x18, x28, x8⟩ := group_four_inj _ _ _ _ _ _ (B _) (B _) (B _) (E _) (E _) (E _) g8
  obtain ⟨g9, h⟩ := emit_append_inj _ _ _ _ _ _ _ _ _ h
  obtain ⟨x9, x19, x29⟩ := group_four_inj _ _ _ _ _ _ (B _) (B _) (B _) (E _) (E _) (E _) g9
  obtain ⟨x31, x30⟩ := group_three_inj _ _ _ _ (B _) (B _) (E _) (E _) h
  interval_cases i <;> assumption

theorem sha512_section_inj (d e : List Nat) (hd : ∀ x ∈ d, x < 256) (he : ∀ x ∈ e, x < 256)
    (h : spec_sha512_section d = spec_sha512_section e) (i : Nat) (hi : i < 64) :
    d.getD i 0 = e.getD i 0 := by
  have B := getD_lt_256 d hd
  have E := getD_lt_256 e he
  simp only [spec_sha512_section, List.append_assoc] at h
  obtain ⟨g0, h⟩ := emit_append_inj _ _ _ _ _ _ _ _ _ h
  obtain ⟨x0, x21, x42⟩ := group_four_inj _ _ _ _ _ _ (B _) (B _) (B _) (E _) (E _) (E _) g0
  obtain ⟨g1, h⟩ := emit_append_inj _ _ _ _ _ _ _ _ _ h
  obtain ⟨x22, x43, x1⟩ := group_four_inj _ _ _ _ _ _ (B _) (B _) (B _) (E _) (E _) (E _) g1
  obtain ⟨g2, h⟩ := emit_append_inj _ _ _ _ _ _ _ _ _ h
  obtain ⟨x44, x2, x23⟩ := group_four_inj _ _ _ _ _ _ (B _) (B _) (B _) (E _) (E _) (E _) g2
  obtain ⟨g3, h⟩ := emit_append_inj _ _ _ _ _ _ _ _ _ h
  obtain ⟨x3, x24, x45⟩ := group_four_inj _ _ _ _ _ _ (B _) (B _) (B _) (E _) (E _) (E _) g3
  obtain ⟨g4, h⟩ := emit_append_inj _ _ _ _ _ _ _ _ _ h
  obtain ⟨x25, x46, x4⟩ := group_four_inj _ _ _ _ _ _ (B _) (B _) (B _) (E _) (E _) (E _) g4
  obtain ⟨g5, h⟩ := emit_append_inj _ _ _ _ _ _ _ _ _ h
  obtain ⟨x47, x5, x26⟩ := group_four_inj _ _ _ _ _ _ (B _) (B _) (B _) (E _) (E _) (E _) g5
  obtain ⟨g6, h⟩ := emit_append_inj _ _ _ _ _ _ _ _ _ h
  obtain ⟨x6, x27, x48⟩ := group_four_inj _ _ _ _ _ _ (B _) (B _) (B _) (E _) (E _) (E _) g6
  obtain ⟨g7, h⟩ := emit_append_inj _ _ _ _ _ _ _ _ _ h
  obtain ⟨x28, x49, x7⟩ := group_four_inj _ _ _ _ _ _ (B _) (B _) (B _) (E _) (E _) (E _) g7
  obtain ⟨g8, h⟩ := emit_append_inj _ _ _ _ _ _ _ _ _ h
  obtain ⟨x50, x8, x29⟩ := group_four_inj _ _ _ _ _ _ (B _) (B _) (B _) (E _) (E _) (E _) g8
  obtain ⟨g9, h⟩ := emit_append_inj _ _ _ _ _ _ _ _ _ h
  obtain ⟨x9, x30, x51⟩ := group_four_inj _ _ _ _ _ _ (B _) (B _) (B _) (E _) (E _) (E _) g9
  obtain ⟨g10, h⟩ := emit_append_inj _ _ _ _ _ _ _ _ _ h
  obtain ⟨x31, x52, x10⟩ := group_four_inj _ _ _ _ _ _ (B _) (B _) (B _) (E _) (E _) (E _) g10
  obtain ⟨g11, h⟩ := emit_append_inj _ _ _ _ _ _ _ _ _ h
  obtain ⟨x53, x11, x32⟩ := group_four_inj _ _ _ _ _ _ (B _) (B _) (B _) (E _) (E _) (E _) g11
  obtain ⟨g12, h⟩ := emit_append_inj _ _ _ _ _ _ _ _ _ h
  obtain ⟨x12, x33, x54⟩ := group_four_inj _ _ _ _ _ _ (B _) (B _) (B _) (E _) (E _) (E _) g12
  obtain ⟨g13, h⟩ := emit_append_inj _ _ _ _ _ _ _ _ _ h
  obtain ⟨x34, x55, x13⟩ := group_four_inj _ _ _ _ _ _ (B _) (B _) (B _) (E _) (E _) (E _) g13
  obtain ⟨g14, h⟩ := emit_append_inj _ _ _ _ _ _ _ _ _ h
  obtain ⟨x56, x14, x35⟩ := group_four_inj _ _ _ _ _ _ (B _) (B _) (B _) (E _) (E _) (E _) g14
  obtain ⟨g15, h⟩ := emit_append_inj _ _ _ _ _ _ _ _ _ h
  obtain ⟨x15, x36, x57⟩ := group_four_inj _ _ _ _ _ _ (B _) (B _) (B _) (E _) (E _) (E _) g15
  obtain ⟨g16, h⟩ := emit_append_inj _ _ _ _ _ _ _ _ _ h
  obtain ⟨x37, x58, x16⟩ := group_four_inj _ _ _ _ _ _ (B _) (B _) (B _) (E _) (E _) (E _) g16
  obtain ⟨g17, h⟩ := emit_append_inj _ _ _ _ _ _ _ _ _ h
  obtain ⟨x59, x17, x38⟩ := group_four_inj _ _ _ _ _ _ (B _) (B _) (B _) (E _) (E _) (E _) g17
  obtain ⟨g18, h⟩ := emit_append_inj _ _ _ _ _ _ _ _ _ h
  obtain ⟨x18, x39, x60⟩ := group_four_inj _ _ _ _ _ _ (B _) (B _) (B _) (E _) (E _) (E _) g18
  obtain ⟨g19, h⟩ := emit_append_inj _ _ _ _ _ _ _ _ _ h
  obtain ⟨x40, x61, x19⟩ := group_four_inj _ _ _ _ _ _ (B _) (B _) (B _) (E _) (E _) (E _) g19
  obtain ⟨g20, h⟩ := emit_append_inj _ _ _ _ _ _ _ _ _ h
  obtain ⟨x62, x20, x41⟩ := group_four_inj _ _ _ _ _ _ (B _) (B _) (B _) (E _) (E _) (E _) g20
  have x63 := group_two_inj _ _ (B _) (E _) h
  interval_cases i <;> assumption

/-- C19. For each of the two variants, two digests of the variant's length (32
bytes for SHA-256, 64 bytes for SHA-512) with entries below 256 that are
different have different digest sections: the digest section determines the
digest. -/
theorem digest_encoding_injective (type : PGCRYPTO_SHA_t) (d e : List Nat)
    (ht : type ≠ .PGCRYPTO_SHA_UNKOWN)
    (hld : d.length = type_buf_size type) (hle : e.length = type_buf_size type)
    (hd : ∀ x ∈ d, x < 256) (he : ∀ x ∈ e, x < 256) (hne : d ≠ e) :
    digest_section type d ≠ digest_section type e := by
  intro h
  apply hne
  apply list_ext_getD d e (by rw [hld, hle])
  intro i hi
  rw [hld] at hi
  cases type with
  | PGCRYPTO_SHA_UNKOWN => exact absurd rfl ht
  | PGCRYPTO_SHA256CRYPT =>
    rw [digest_section_sha256_spec, digest_section_sha256_spec] at h
    exact sha256_section_inj d e hd he h i hi
  | PGCRYPTO_SHA512CRYPT =>
    rw [digest_section_sha512_spec, digest_section_sha512_spec] at h
    exact sha512_section_inj d e hd he h i hi

theorem digest_encoding_injective_witness :
    (PGCRYPTO_SHA_t.PGCRYPTO_SHA256CRYPT ≠ .PGCRYPTO_SHA_UNKOWN
      ∧ (List.replicate 32 0).length = type_buf_size .PGCRYPTO_SHA256CRYPT
      ∧ (List.replicate 31 0 ++ [255]).length = type_buf_size .PGCRYPTO_SHA256CRYPT
      ∧ (∀ x ∈ List.replicate 32 0, x < 256) ∧ (∀ x ∈ List.replicate 31 0 ++ [255], x < 256)
      ∧ List.replicate 32 0 ≠ List.replicate 31 0 ++ [255])
    ∧ digest_section .PGCRYPTO_SHA256CRYPT (List.replicate 32 0)
        ≠ digest_section .PGCRYPTO_SHA256CRYPT (List.replicate 31 0 ++ [255]) :=
  ⟨⟨by decide, by decide, by decide, by decide, by decide, by decide⟩,
    digest_encoding_injective .PGCRYPTO_SHA256CRYPT (List.replicate 32 0)
      (List.replicate 31 0 ++ [255]) (by decide) (by decide) (by decide) (by decide)
      (by decide) (by decide)⟩

/-! ## The final copy (C20) -/

theorem out_buf_array_length (text : List Nat) (h : text.length ≤ PX_SHACRYPT_BUF_LEN) :
    (out_buf_array text).length = PX_SHACRYPT_BUF_LEN := by
  simp only [out_buf_array, List.length_append, List.length_replicate]
  omega

theorem memcpy_read_none_iff (src : List Nat) (n : Nat) :
    memcpy_read src n = none ↔ src.length < n := by
  unfold memcpy_read
  split
  · simp; omega
  · simp; omega

/-- When a call returns a result, the final copy stays inside `out_buf` for
`dstlen = PX_SHACRYPT_BUF_LEN` only. -/
theorem passwd_in_bounds_iff (f : String → Option (List Nat → List Nat))
    (pw salt : List Nat) (dstlen : Nat) (enc : List Nat)
    (h : (px_crypt_shacrypt f (some pw) (some salt) dstlen).ret = .ok enc)
    (hlen : enc.length ≤ PX_SHACRYPT_BUF_LEN) :
    (px_crypt_shacrypt_passwd f (some pw) (some salt) dstlen = .ok none
        ↔ PX_SHACRYPT_BUF_LEN < dstlen)
      ∧ (dstlen = PX_SHACRYPT_BUF_LEN →
          px_crypt_shacrypt_passwd f (some pw) (some salt) dstlen
            = .ok (some (out_buf_array enc))) := by
  have hl := out_buf_array_length enc hlen
  simp only [px_crypt_shacrypt_passwd, h]
  constructor
  · rw [Except.ok.injEq, memcpy_read_none_iff, hl]
  · intro hd
    rw [hd]
    simp only [memcpy_read, hl, le_refl, if_true]
    rw [← hl, List.take_length]

/-- C20. At the password "Hello world!", the salt "$5$saltstring" and
`dstlen = 128`, which passes the size check, the call returns a result of 57
characters, and the final copy `memcpy(passwd, out_buf, dstlen)` reads 128
bytes from the array `out_buf` of `PX_SHACRYPT_BUF_LEN` = 124 bytes: it reads
past the end of `out_buf`.  With `dstlen = 125` as well; with `dstlen = 124`
the copy stays inside the array. -/
theorem final_copy_reads_past_out_buf :
    PX_SHACRYPT_BUF_LEN = 124
    ∧ (∃ sec, sec.length = 43
        ∧ (px_crypt_shacrypt toy_digest (some (str "Hello world!"))
              (some (str "$5$saltstring")) 128).ret
            = .ok (str "$5$saltstring" ++ ascii_dollar :: sec)
        ∧ (out_buf_array (str "$5$saltstring" ++ ascii_dollar :: sec)).length = 124
        ∧ memcpy_read (out_buf_array (str "$5$saltstring" ++ ascii_dollar :: sec)) 128 = none)
    ∧ px_crypt_shacrypt_passwd toy_digest (some (str "Hello world!"))
          (some (str "$5$saltstring")) 128 = .ok none
    ∧ px_crypt_shacrypt_passwd toy_digest (some (str "Hello world!"))
          (some (str "$5$saltstring")) 125 = .ok none
    ∧ ∃ sec, px_crypt_shacrypt_passwd toy_digest (some (str "Hello world!"))
          (some (str "$5$saltstring")) 124
        = .ok (some (out_buf_array (str "$5$saltstring" ++ ascii_dollar :: sec))) := by
  obtain ⟨s1, h1, l1, _⟩ := shacrypt_ret_shape toy_digest (str "Hello world!")
    (str "$5$saltstring") 128 .PGCRYPTO_SHA256CRYPT (str "$5$saltstring") (by decide)
  obtain ⟨s2, h2, l2, _⟩ := shacrypt_ret_shape toy_digest (str "Hello world!")
    (str "$5$saltstring") 125 .PGCRYPTO_SHA256CRYPT (str "$5$saltstring") (by decide)
  obtain ⟨s3, h3, l3, _⟩ := shacrypt_ret_shape toy_digest (str "Hello world!")
    (str "$5$saltstring") 124 .PGCRYPTO_SHA256CRYPT (str "$5$saltstring") (by decide)
  have hlen : ∀ s : List Nat, s.length = digest_chars .PGCRYPTO_SHA256CRYPT →
      (str "$5$saltstring" ++ ascii_dollar :: s).length ≤ PX_SHACRYPT_BUF_LEN := by
    intro s hs
    rw [List.length_append, List.length_cons, hs]
    decide
  have a1 := out_buf_array_length _ (hlen s1 l1)
  refine ⟨rfl, ⟨s1, l1, h1, a1, ?_⟩, ?_, ?_, ⟨s3, ?_⟩⟩
  · rw [memcpy_read_none_iff, a1]; decide
  · exact (passwd_in_bounds_iff _ _ _ _ _ h1 (hlen s1 l1)).1.mpr (by decide)
  · exact (passwd_in_bounds_iff _ _ _ _ _ h2 (hlen s2 l2)).1.mpr (by decide)
  · exact (passwd_in_bounds_iff _ _ _ _ _ h3 (hlen s3 l3)).2 rfl

end ShaCrypt

/-! ## The range comparator (C13) -/

namespace RangeGist

/-- C13. For ranges `a` and `b` of the same range type, `range_gist_cmp`
returns 0 when both are empty, -1 when only `a` is empty, 1 when only `b` is
empty, and otherwise the value of `range_cmp_bounds` on the two lower bounds,
with the type cache entry that is cached or looked up for the type of `a`; it
leaves that entry in `ssup_extra`; and replacing the upper bounds that
`range_deserialize` gives by any others does not change what it returns. -/
theorem range_gist_cmp_lower_bounds {Datum RangeType TypeCacheEntry RangeBound : Type}
    (env : Env Datum RangeType TypeCacheEntry RangeBound) (a b : Datum)
    (ssup : SortSupportData TypeCacheEntry)
    (hoid : env.RangeTypeGetOid (env.DatumGetRangeTypeP a)
      = env.RangeTypeGetOid (env.DatumGetRangeTypeP b)) :
    range_gist_cmp env a b ssup
        = some
          (if (env.range_deserialize (cache_entry env a ssup) (env.DatumGetRangeTypeP a)).2.2
                = true
              ∧ (env.range_deserialize (cache_entry env a ssup) (env.DatumGetRangeTypeP b)).2.2
                = true
            then 0
            else if
              (env.range_deserialize (cache_entry env a ssup) (env.DatumGetRangeTypeP a)).2.2
                = true
            then -1
            else if
              (env.range_deserialize (cache_entry env a ssup) (env.DatumGetRangeTypeP b)).2.2
                = true
            then 1
            else env.range_cmp_bounds (cache_entry env a ssup)
              (env.range_deserialize (cache_entry env a ssup) (env.DatumGetRangeTypeP a)).1
              (env.range_deserialize (cache_entry env a ssup) (env.DatumGetRangeTypeP b)).1,
           ⟨some (cache_entry env a ssup)⟩)
      ∧ ∀ u, range_gist_cmp (with_upper env u) a b ssup = range_gist_cmp env a b ssup := by
  constructor
  · cases ssup with
    | mk extra =>
      cases extra with
      | none =>
        simp only [range_gist_cmp, cache_entry, Option.getD_none, hoid, ne_eq, not_true_eq_false,
          and_false, if_false]
        cases h1 : (env.range_deserialize
            (env.lookup_type_cache (env.RangeTypeGetOid (env.DatumGetRangeTypeP b))
              env.TYPECACHE_RANGE_INFO) (env.DatumGetRangeTypeP a)).2.2 <;>
          cases h2 : (env.range_deserialize
            (env.lookup_type_cache (env.RangeTypeGetOid (env.DatumGetRangeTypeP b))
              env.TYPECACHE_RANGE_INFO) (env.DatumGetRangeTypeP b)).2.2 <;>
          simp
      | some t =>
        simp only [range_gist_cmp, cache_entry, Option.getD_some]
        cases h1 : (env.range_deserialize t (env.DatumGetRangeTypeP a)).2.2 <;>
          cases h2 : (env.range_deserialize t (env.DatumGetRangeTypeP b)).2.2 <;>
          simp
  · intro u
    cases ssup with
    | mk extra =>
      cases extra <;> rfl

theorem range_gist_cmp_lower_bounds_witness :
    int_env.RangeTypeGetOid (int_env.DatumGetRangeTypeP (3, 9, false))
        = int_env.RangeTypeGetOid (int_env.DatumGetRangeTypeP (5, 6, false))
    ∧ range_gist_cmp int_env (3, 9, false) (5, 6, false) ⟨none⟩ = some (-1, ⟨some 1⟩)
    ∧ range_gist_cmp int_env (0, 0, true) (5, 6, false) ⟨none⟩ = some (-1, ⟨some 1⟩)
    ∧ range_gist_cmp int_env (5, 6, false) (0, 0, true) ⟨some 1⟩ = some (1, ⟨some 1⟩)
    ∧ range_gist_cmp int_env (0, 0, true) (7, 7, true) ⟨some 1⟩ = some (0, ⟨some 1⟩)
    ∧ range_gist_cmp (with_upper int_env (fun _ _ => 100)) (3, 9, false) (5, 6, false) ⟨none⟩
        = range_gist_cmp int_env (3, 9, false) (5, 6, false) ⟨none⟩ :=
  ⟨rfl,
    (range_gist_cmp_lower_bounds int_env (3, 9, false) (5, 6, false) ⟨none⟩ rfl).1,
    (range_gist_cmp_lower_bounds int_env (0, 0, true) (5, 6, false) ⟨none⟩ rfl).1,
    (range_gist_cmp_lower_bounds int_env (5, 6, false) (0, 0, true) ⟨some 1⟩ rfl).1,
    (range_gist_cmp_lower_bounds int_env (0, 0, true) (7, 7, true) ⟨some 1⟩ rfl).1,
    (range_gist_cmp_lower_bounds int_env (3, 9, false) (5, 6, false) ⟨none⟩ rfl).2 _⟩

end RangeGist
